import Mathlib

/-!
# agrep.c: record scanner, best-match controller and match renderer

A shallow embedding of `src/agrep.c`.

Conventions of the embedding.

* A byte is a `Nat`; a region of memory is a `List Nat`.
* The C `int` variables `buf_size`, `data_len`, `record_len`, `delim_len`,
  `next_delim_len` are natural numbers (they are never negative in the
  program), and `data_len`, `record_len` and the delimiter lengths are
  bounded by `buf_size`.  Where `buf_size *= 2` leaves the range of `int`
  (the doubled size is above `INT_MAX`), the value wraps to a negative one,
  `realloc` fails for that size and the process exits with status 2 (lines
  317-328); the embedding has the scanner exit there.  A `malloc` or
  `realloc` of at most `INT_MAX` bytes is taken to succeed.
* Pointers into `buf` (`record`, `next_record`) are offsets from `buf`;
  `next_record == NULL` is `none`.
* The two compiled patterns (`delim`, `preg`) are the external matching
  engine: they appear as functions from the searched bytes to the result of
  the call.
* The file descriptor is the list of bytes not delivered yet together with a
  schedule saying what each successive `read` does.
* A C string (the pattern given on the command line) is the list of its
  bytes, the terminating NUL left out; a region obtained from `malloc` is the
  list of its bytes, and a write outside it gives no result.
-/

namespace Agrep

/-! ## The external matching engine -/

/-- Result of `tre_regnexec` / `tre_reganexec`: `REG_OK` with `pmatch[0]`,
`REG_NOMATCH`, or `REG_ESPACE`. -/
inductive RegExec where
  | ok (rm_so rm_eo : Nat)
  | nomatch
  | espace
deriving DecidableEq, Repr

/-- The compiled record delimiter `delim` as used by
`tre_regnexec(&delim, text, len, 1, pmatch, 0)`: the argument is the `len`
bytes starting at `text`. -/
abbrev DelimMatcher := List Nat → RegExec

/-! ## The file descriptor -/

/-- What one call of `read` does: deliver at most `n` bytes (at least one when
bytes are left and the request is not empty), fail with `EINTR`, or fail with
another error. -/
inductive ReadStep where
  | chunk (n : Nat)
  | eintr
  | fail
deriving DecidableEq, Repr

/-- An open file descriptor: the bytes still to be delivered and the behaviour
of the successive reads.  When the schedule is used up, a read delivers as
much as was asked for. -/
structure Fd where
  rest : List Nat
  sched : List ReadStep
deriving DecidableEq, Repr

/-- Result of `read`: the bytes stored (`r` is their number), or `r < 0` with
`errno == EINTR`, or `r < 0` with another `errno`. -/
inductive ReadResult where
  | bytes (bs : List Nat)
  | eintr
  | error
deriving DecidableEq, Repr

/-- The call `read(fd, p, read_size)`. -/
def Fd.read (fd : Fd) (read_size : Nat) : ReadResult × Fd :=
  match fd.sched with
  | [] => (.bytes (fd.rest.take read_size), { rest := fd.rest.drop read_size, sched := [] })
  | .chunk n :: sc =>
      (.bytes (fd.rest.take (min (max n 1) read_size)),
       { rest := fd.rest.drop (min (max n 1) read_size), sched := sc })
  | .eintr :: sc => (.eintr, { fd with sched := sc })
  | .fail :: sc => (.error, { fd with sched := sc })

/-! ## The scanner state (the static variables of agrep.c) -/

/-- The static variables used by `tre_agrep_get_next_record`.  `buf` holds the
whole allocation (`buf_size` bytes), stale bytes included. -/
structure Scan where
  buf : List Nat
  buf_size : Nat
  data_len : Nat
  record : Nat
  next_record : Option Nat
  record_len : Nat
  delim_len : Nat
  next_delim_len : Nat
  at_eof : Bool
deriving DecidableEq, Repr

/-- The value `INT_MAX`. -/
def INT_MAX : Nat := 2147483647

/-- Return of `tre_agrep_get_next_record`: `return 0`, `return 1`, or
`exit(2)`. -/
inductive Ret where
  | r0
  | r1
  | exit2
deriving DecidableEq, Repr

/-- The call `realloc(buf, buf_size)`: the old bytes are kept, the new ones are
indeterminate (taken as 0). -/
def realloc (b : List Nat) (size : Nat) : List Nat :=
  b.take size ++ List.replicate (size - b.length) 0

/-- Storing `bs` at offset `off` of the region `b`. -/
def store (b : List Nat) (off : Nat) (bs : List Nat) : List Nat :=
  b.take off ++ bs ++ b.drop (off + bs.length)

/-- The call `memmove(buf, buf + src, n)`. -/
def memmove (b : List Nat) (src n : Nat) : List Nat :=
  (b.drop src).take n ++ b.drop n

/-- How the `if (next_record == NULL)` block of the loop body ends. -/
inductive Fill where
  | ret (r : Ret) (s : Scan)
  | again (s : Scan)
  | go (s : Scan)
deriving DecidableEq, Repr

/-- The block `if (read_size <= 0) { ... }` (lines 311-330): the buffer is
full, so `buf_size *= 2` and `buf = realloc(buf, buf_size)`.  When the
doubled size is above `INT_MAX`, the multiplication leaves the range of
`int` (the value wraps to a negative one), `realloc` fails for that size and
the process exits with status 2 (lines 323-328): the result is `none`. -/
def grow (s : Scan) : Option Scan :=
  if s.buf_size ≤ s.data_len then
    if s.buf_size * 2 ≤ INT_MAX then
      some { s with buf_size := s.buf_size * 2, buf := realloc s.buf (s.buf_size * 2) }
    else none
  else some s

/-- The block `if (next_record == NULL) { ... }` of
`tre_agrep_get_next_record` (lines 306-375).  When the buffer cannot grow
the process exits with status 2; the static variables then no longer
matter, and the result carries them as they were. -/
def fill (s : Scan) (fd : Fd) : Fill × Fd :=
  match s.next_record with
  | some _ => (.go s, fd)
  | none =>
    match grow s with
    | none => (.ret .exit2 s, fd)
    | some s1 =>
      let read_size := s1.buf_size - s1.data_len
      match fd.read read_size with
      | (.error, fd1) => (.ret .r1 s1, fd1)
      | (.eintr, fd1) => (.again s1, fd1)
      | (.bytes bs, fd1) =>
        if bs.length = 0 then
          let s2 : Scan := { s1 with record := 0, record_len := s1.data_len, at_eof := true }
          (.ret (if s2.record_len = 0 then .r1 else .r0) s2, fd1)
        else
          (.go { s1 with buf := store s1.buf s1.data_len bs,
                         data_len := s1.data_len + bs.length,
                         next_record := some 0 }, fd1)

/-- The delimiter search and the `switch (errcode)` of
`tre_agrep_get_next_record` (lines 393-470), entered with
`next_record = buf + nr`.  The result is `Fill.ret` for a return and
`Fill.again` for `continue`. -/
def search (delim : DelimMatcher) (s : Scan) (nr : Nat) : Fill :=
  match delim ((s.buf.drop nr).take (s.data_len - nr)) with
  | .ok rm_so rm_eo =>
      .ret .r0 { s with record := nr, record_len := rm_so,
                        delim_len := s.next_delim_len,
                        next_delim_len := rm_eo - rm_so,
                        next_record := some (nr + rm_eo) }
  | .nomatch =>
      if nr = 0 then .again { s with next_record := none }
      else .again { s with buf := memmove s.buf nr (s.data_len - nr),
                           data_len := s.data_len - nr,
                           next_record := none }
  | .espace => .ret .exit2 s

/-- The `while (1)` loop of `tre_agrep_get_next_record`, at most `fuel`
iterations; `none` when the iterations are used up. -/
def get_next_record_loop (delim : DelimMatcher) : Nat → Scan → Fd → Option (Ret × Scan × Fd)
  | 0, _, _ => none
  | fuel + 1, s, fd =>
    match fill s fd with
    | (.ret r s1, fd1) => some (r, s1, fd1)
    | (.again s1, fd1) => get_next_record_loop delim fuel s1 fd1
    | (.go s1, fd1) =>
      match s1.next_record with
      | none => none
      | some nr =>
        match search delim s1 nr with
        | .ret r s2 => some (r, s2, fd1)
        | .again s2 => get_next_record_loop delim fuel s2 fd1
        | .go _ => none

/-- Number of loop iterations that always suffices: every iteration but the
first and the last uses up a schedule entry or a byte of the stream. -/
def loop_bound (fd : Fd) : Nat := fd.sched.length + fd.rest.length + 2

/-- The function `tre_agrep_get_next_record`. -/
def tre_agrep_get_next_record (delim : DelimMatcher) (s : Scan) (fd : Fd) :
    Option (Ret × Scan × Fd) :=
  if s.at_eof then some (.r1, s, fd)
  else get_next_record_loop delim (loop_bound fd) s fd

/-- The bytes of the current record, `record[0 .. record_len)`. -/
def Scan.record_bytes (s : Scan) : List Nat := (s.buf.drop s.record).take s.record_len

/-- The bytes of the delimiter matched after the current record: the
`next_delim_len` bytes after the record when the record was ended by a
delimiter, nothing when it was ended by end of file. -/
def Scan.delim_after_bytes (s : Scan) : List Nat :=
  if s.at_eof then [] else (s.buf.drop (s.record + s.record_len)).take s.next_delim_len

/-- Repeated calls of `tre_agrep_get_next_record` until it returns non-zero, as
in `while (!tre_agrep_get_next_record(fd, filename))`: the scanner states
after each call that returned 0, and the state after the last call. -/
def scan_all (delim : DelimMatcher) : Nat → Scan → Fd → Option (List Scan × Ret × Scan × Fd)
  | 0, _, _ => none
  | fuel + 1, s, fd =>
    match tre_agrep_get_next_record delim s fd with
    | none => none
    | some (.r0, s1, fd1) =>
      match scan_all delim fuel s1 fd1 with
      | none => none
      | some (ys, e) => some (s1 :: ys, e)
    | some (r, s1, fd1) => some ([], r, s1, fd1)

/-- The state of the static variables when the first file is opened:
`tre_agrep_handle_file` has allocated `cap` bytes (`INITIAL_BUF_SIZE` in the
program) and reset `next_record`, `data_len` and `at_eof`; the other
variables have their initial value 0. -/
def init_scan (cap : Nat) : Scan :=
  { buf := List.replicate cap 0, buf_size := cap, data_len := 0, record := 0,
    next_record := none, record_len := 0, delim_len := 0, next_delim_len := 0,
    at_eof := false }

/-- Number of calls that suffices for a stream: one per delimiter, one for the
last record, one for the final return. -/
def scan_bound (s : Scan) (fd : Fd) : Nat := s.data_len + fd.rest.length + 2

/-- All records of a stream. -/
def scan_stream (delim : DelimMatcher) (s : Scan) (fd : Fd) :
    Option (List Scan × Ret × Scan × Fd) :=
  scan_all delim (scan_bound s fd) s fd

/-- Position of the first byte equal to `b`. -/
def find_byte (b : Nat) : List Nat → Option Nat
  | [] => none
  | x :: xs => if x = b then some 0 else (find_byte b xs).map (· + 1)

/-- The default delimiter pattern `"\n"`: the earliest newline. -/
def newline_delim : DelimMatcher := fun t =>
  match find_byte 10 t with
  | some i => .ok i (i + 1)
  | none => .nomatch

/-- Length of the run of bytes equal to `b` at the start. -/
def run_length (b : Nat) : List Nat → Nat
  | [] => 0
  | x :: xs => if x = b then run_length b xs + 1 else 0

/-- The delimiter pattern `"\n+"`: the earliest, longest run of newlines. -/
def newlines_delim : DelimMatcher := fun t =>
  match find_byte 10 t with
  | some i => .ok i (i + run_length 10 (t.drop i))
  | none => .nomatch

/-! ## Predicates used by the statements -/

/-- What the claims assume of the delimiter pattern: the engine does not run
out of memory, a match lies inside the searched bytes, and it is not empty
(`main` rejects a delimiter pattern that matches the empty string). -/
def DelimOK (delim : DelimMatcher) : Prop :=
  ∀ t, delim t ≠ .espace ∧
    ∀ so eo, delim t = .ok so eo → so < eo ∧ eo ≤ t.length

/-- A delimiter matcher whose answer on some bytes is not changed by bytes
that arrive later. -/
def DelimStable (delim : DelimMatcher) : Prop :=
  ∀ t u so eo, delim t = .ok so eo → delim (t ++ u) = .ok so eo

/-- No read of the descriptor fails with an error other than `EINTR`. -/
def Fd.NoFail (fd : Fd) : Prop := ∀ st ∈ fd.sched, st ≠ ReadStep.fail

instance (fd : Fd) : Decidable fd.NoFail := by
  unfold Fd.NoFail
  infer_instance

/-- The bytes of the buffer that belong to no record yet. -/
def Scan.pending (s : Scan) : List Nat :=
  match s.next_record with
  | some nr => (s.buf.drop nr).take (s.data_len - nr)
  | none => s.buf.take s.data_len

/-- The bytes of the stream that belong to no record yet: those pending in the
buffer, then those not read yet. -/
def unconsumed (s : Scan) (fd : Fd) : List Nat := s.pending ++ fd.rest

/-- The buffer invariant, together with the fact that the scanner gives up the
cursor only after a failed search of all pending bytes. -/
structure Scan.Inv (delim : DelimMatcher) (s : Scan) : Prop where
  size_pos : 0 < s.buf_size
  buf_len : s.buf.length = s.buf_size
  data_le : s.data_len ≤ s.buf_size
  cursor_le : ∀ nr, s.next_record = some nr → nr ≤ s.data_len
  searched : s.next_record = none → delim s.pending = .nomatch

/-- What a call of `tre_agrep_get_next_record` achieves, for a call entered
with the bytes `u` not consumed yet and the delimiter lengths `dl`, `ndl`;
`mayfail` says that some read of the descriptor fails. -/
inductive CallPost (delim : DelimMatcher) (mayfail : Prop) (u : List Nat) (dl ndl : Nat) :
    Ret → Scan → Fd → Prop where
  | found (s1 : Scan) (fd1 : Fd) (p q : List Nat) (so eo : Nat)
      (hu : u = p ++ q) (hm : delim p = .ok so eo)
      (heof : s1.at_eof = false)
      (hrec : s1.record_bytes = p.take so) (hlen : s1.record_len = so)
      (hafter : s1.delim_after_bytes = (p.drop so).take (eo - so))
      (hdl : s1.delim_len = ndl) (hndl : s1.next_delim_len = eo - so)
      (hrest : unconsumed s1 fd1 = p.drop eo ++ q)
      (hcur : s1.next_record ≠ none) :
      CallPost delim mayfail u dl ndl .r0 s1 fd1
  | last (s1 : Scan) (fd1 : Fd)
      (heof : s1.at_eof = true)
      (hrec : s1.record_bytes = u) (hne : u ≠ [])
      (hm : delim u = .nomatch) (hrest : fd1.rest = [])
      (hdl : s1.delim_len = dl) (hndl : s1.next_delim_len = ndl)
      (hlen : s1.record_len = u.length) :
      CallPost delim mayfail u dl ndl .r0 s1 fd1
  | done (s1 : Scan) (fd1 : Fd)
      (heof : s1.at_eof = true) (hu : u = []) :
      CallPost delim mayfail u dl ndl .r1 s1 fd1
  | failed (s1 : Scan) (fd1 : Fd) (hfail : mayfail) (heof : s1.at_eof = false) :
      CallPost delim mayfail u dl ndl .r1 s1 fd1

/-- The state `s1`, `fd1` continues the call entered in `s`, `fd`: the same
bytes are still to be consumed, the end-of-file flag and the delimiter
lengths are unchanged, and the buffer size was doubled some number of
times. -/
structure Carried (s : Scan) (fd : Fd) (s1 : Scan) (fd1 : Fd) : Prop where
  unc : unconsumed s1 fd1 = unconsumed s fd
  eof : s1.at_eof = s.at_eof
  dl : s1.delim_len = s.delim_len
  ndl : s1.next_delim_len = s.next_delim_len
  grown : ∃ k, s1.buf_size = s.buf_size * 2 ^ k
  sched : ∀ st ∈ fd1.sched, st ∈ fd.sched

/-- The records `ys` are what the scanner yields for the bytes `u` when entered
with the delimiter lengths `dl` (before the last record) and `ndl` (after
it): each record but the last is cut by a match of the delimiter in a part
`p` of the bytes that were in the buffer, and the last one is what remains
at end of file, if anything; when a read fails (`mayfail`) the records end
there. -/
inductive Yields (delim : DelimMatcher) (mayfail : Prop) :
    List Nat → Nat → Nat → List Scan → Prop where
  | done (u : List Nat) (dl ndl : Nat) (hu : u = []) : Yields delim mayfail u dl ndl []
  | failed (u : List Nat) (dl ndl : Nat) (hfail : mayfail) : Yields delim mayfail u dl ndl []
  | last (u : List Nat) (dl ndl : Nat) (y : Scan)
      (heof : y.at_eof = true) (hrec : y.record_bytes = u) (hne : u ≠ [])
      (hm : delim u = .nomatch) (hdl : y.delim_len = dl) (hndl : y.next_delim_len = ndl)
      (hlen : y.record_len = u.length) :
      Yields delim mayfail u dl ndl [y]
  | found (u : List Nat) (dl ndl : Nat) (y : Scan) (ys : List Scan) (p q : List Nat)
      (so eo : Nat) (hu : u = p ++ q)
      (hm : delim p = .ok so eo) (heof : y.at_eof = false)
      (hrec : y.record_bytes = p.take so) (hlen : y.record_len = so)
      (hafter : y.delim_after_bytes = (p.drop so).take (eo - so))
      (hdl : y.delim_len = ndl) (hndl : y.next_delim_len = eo - so)
      (htail : Yields delim mayfail (p.drop eo ++ q) y.delim_len y.next_delim_len ys) :
      Yields delim mayfail u dl ndl (y :: ys)

/-- A buffer of `S` bytes has to grow for the bytes `u` not consumed yet: at
least `S` of them are there, and the first `S` of them hold no delimiter. -/
def NeedGrow (delim : DelimMatcher) (u : List Nat) (S : Nat) : Prop :=
  S ≤ u.length ∧ delim (u.take S) = .nomatch

/-- A buffer of `S` bytes is enough for the next record of the bytes `u`: a
delimiter is found in at most `S` of them, or fewer than `S` are left. -/
def Settled (delim : DelimMatcher) (u : List Nat) (S : Nat) : Prop :=
  (∃ p q so eo, u = p ++ q ∧ delim p = .ok so eo ∧ p.length ≤ S) ∨ u.length < S

/-- The buffer size goes from `B` to `B1` by the doublings that the bytes `u`
force, each of them within `INT_MAX`. -/
inductive GrowsTo (delim : DelimMatcher) (u : List Nat) : Nat → Nat → Prop where
  | refl (B : Nat) : GrowsTo delim u B B
  | step (B B1 : Nat) (hneed : NeedGrow delim u B) (hfit : B * 2 ≤ INT_MAX)
      (h : GrowsTo delim u (B * 2) B1) : GrowsTo delim u B B1

/-- How a call of `tre_agrep_get_next_record` entered with a buffer of `B`
bytes ends: as `CallPost` says, the buffer having grown as the bytes force
it to and being large enough then; or with `exit(2)`, when the buffer has to
grow beyond `INT_MAX` bytes. -/
inductive CallEnd (delim : DelimMatcher) (mayfail : Prop) (u : List Nat) (dl ndl B : Nat) :
    Ret → Scan → Fd → Prop where
  | ok (r : Ret) (s1 : Scan) (fd1 : Fd) (hp : CallPost delim mayfail u dl ndl r s1 fd1)
      (hgrow : GrowsTo delim u B s1.buf_size)
      (hset : r = .r0 → Settled delim u s1.buf_size) :
      CallEnd delim mayfail u dl ndl B r s1 fd1
  | nomem (s1 : Scan) (fd1 : Fd) (B1 : Nat) (hgrow : GrowsTo delim u B B1)
      (hneed : NeedGrow delim u B1) (hover : INT_MAX < B1 * 2) :
      CallEnd delim mayfail u dl ndl B .exit2 s1 fd1

/-- The records `ys` and the last return value `r` are what repeated calls of
the scanner give for the bytes `u`, entered with a buffer of `B` bytes: as
`Yields`, with the buffer sizes, and with the end by `exit(2)` when the
buffer has to grow beyond `INT_MAX` bytes. -/
inductive Scans (delim : DelimMatcher) (mayfail : Prop) :
    Nat → List Nat → Nat → Nat → List Scan → Ret → Prop where
  | done (B : Nat) (u : List Nat) (dl ndl : Nat) (hu : u = []) :
      Scans delim mayfail B u dl ndl [] .r1
  | failed (B : Nat) (u : List Nat) (dl ndl : Nat) (hfail : mayfail) :
      Scans delim mayfail B u dl ndl [] .r1
  | nomem (B : Nat) (u : List Nat) (dl ndl : Nat) (B1 : Nat) (hgrow : GrowsTo delim u B B1)
      (hneed : NeedGrow delim u B1) (hover : INT_MAX < B1 * 2) :
      Scans delim mayfail B u dl ndl [] .exit2
  | last (B : Nat) (u : List Nat) (dl ndl : Nat) (y : Scan)
      (heof : y.at_eof = true) (hrec : y.record_bytes = u) (hne : u ≠ [])
      (hm : delim u = .nomatch) (hdl : y.delim_len = dl) (hndl : y.next_delim_len = ndl)
      (hlen : y.record_len = u.length)
      (hgrow : GrowsTo delim u B y.buf_size) (hset : Settled delim u y.buf_size) :
      Scans delim mayfail B u dl ndl [y] .r1
  | found (B : Nat) (u : List Nat) (dl ndl : Nat) (y : Scan) (ys : List Scan) (p q : List Nat)
      (so eo : Nat) (r : Ret) (hu : u = p ++ q)
      (hm : delim p = .ok so eo) (heof : y.at_eof = false)
      (hrec : y.record_bytes = p.take so) (hlen : y.record_len = so)
      (hafter : y.delim_after_bytes = (p.drop so).take (eo - so))
      (hdl : y.delim_len = ndl) (hndl : y.next_delim_len = eo - so)
      (hgrow : GrowsTo delim u B y.buf_size) (hset : Settled delim u y.buf_size)
      (htail : Scans delim mayfail y.buf_size (p.drop eo ++ q) y.delim_len y.next_delim_len
        ys r) :
      Scans delim mayfail B u dl ndl (y :: ys) r

/-- What the caller sees of a yielded record: its bytes, its length, and the
lengths of the delimiters before and after it. -/
def Scan.view (s : Scan) : List Nat × Nat × Nat × Nat :=
  (s.record_bytes, s.record_len, s.delim_len, s.next_delim_len)

/-! ## The pattern matcher and the output -/

/-- Result of `tre_reganexec(&preg, text, len, &match, match_params, 0)`:
`REG_OK` with `match.cost` and `pmatch[0]`, `REG_NOMATCH` (the engine
leaves `match` as it was), or `REG_ESPACE`. -/
inductive AExec where
  | ok (cost rm_so rm_eo : Nat)
  | nomatch
  | espace
deriving DecidableEq, Repr

/-- The compiled pattern `preg` with the cost parameters of `match_params`
other than `max_cost`: the result of the search of `text` under the ceiling
`max_cost`. -/
abbrev PatMatcher := (max_cost : Nat) → (text : List Nat) → AExec

/-- What is written to `stdout`: a byte of a record, formatted text
(`printf` of a file name or of numbers), or one of the two highlight
markers `"\33[%sm"` and `"\33[00m"`. -/
inductive Out where
  | byte (b : Nat)
  | text (s : String)
  | hl_on
  | hl_off
deriving DecidableEq, Repr

/-- The constant `INITIAL_BUF_SIZE`. -/
def INITIAL_BUF_SIZE : Nat := 10240

/-- The function `print_indent`: `indent` spaces. -/
def print_indent (indent : Nat) : List Out := List.replicate indent (Out.byte 32)

/-- The function `print_record_indent(rec, len, &col)` with the static
`indent`; the argument is the `len` bytes at `rec`, the result is what is
written and the new column. -/
def print_record_indent (indent : Nat) : List Nat → Nat → List Out × Nat
  | [], col => ([], col)
  | c :: cs, col =>
    if c = 10 then
      let r := print_record_indent indent cs 0
      (Out.byte c :: r.1, r.2)
    else if col = 0 then
      let r := print_record_indent indent cs (col + indent + 1)
      (print_indent indent ++ Out.byte c :: r.1, r.2)
    else
      let r := print_record_indent indent cs (col + 1)
      (Out.byte c :: r.1, r.2)

/-- The `while (true)` loop of the colour branch of `tre_agrep_handle_file`
(lines 680-707), at most `fuel` iterations: `tail` is the `len` bytes at
`rec`, `rm_so` and `rm_eo` are `pmatch[0]`.  The result is what is written,
`none` when the iterations are used up. -/
def colour_loop (preg : PatMatcher) (max_cost indent : Nat) :
    Nat → List Nat → Nat → Nat → Nat → Option (List Out)
  | 0, _, _, _, _ => none
  | fuel + 1, tail, rm_so, rm_eo, col =>
    let lead := print_record_indent indent (tail.take rm_so) col
    let hit := print_record_indent indent ((tail.drop rm_so).take (rm_eo - rm_so)) lead.2
    let written := lead.1 ++ [Out.hl_on] ++ hit.1 ++ [Out.hl_off]
    let tail1 := tail.drop rm_eo
    if tail1.length = 0 then some written
    else
      match preg max_cost tail1 with
      | .ok _ so eo =>
        (colour_loop preg max_cost indent fuel tail1 so eo hit.2).map (written ++ ·)
      | _ => some (written ++ (print_record_indent indent tail1 hit.2).1)

/-- The non-colour branch (lines 719-726): `print_record_indent` from column
0 when `indent != 0`, `fwrite` otherwise. -/
def plain_write (indent : Nat) (bytes : List Nat) : List Out :=
  if indent ≠ 0 then (print_record_indent indent bytes 0).1
  else bytes.map Out.byte

/-- Removal of the highlight markers from what was written. -/
def strip_markers (o : List Out) : List Out :=
  o.filter (fun x => x ≠ Out.hl_on ∧ x ≠ Out.hl_off)

/-! ## `tre_agrep_handle_file` and `main` -/

/-- The option variables of agrep.c that `tre_agrep_handle_file` reads. -/
structure Opts where
  delim_after : Nat
  invert_match : Bool
  print_filename : Bool
  print_recnum : Bool
  print_cost : Bool
  count_matches : Bool
  list_files : Bool
  color_option : Bool
  print_position : Bool
  be_silent : Bool
  indent : Nat
deriving DecidableEq, Repr

/-- The static variables that `tre_agrep_handle_file` and `main` change, with
what was written to `stdout` (`out`) and the messages written to `stderr`
(`err`).  `max_cost` is `match_params.max_cost`. -/
structure Run where
  scan : Scan
  max_cost : Nat
  best_match : Nat
  best_cost : Nat
  have_matches : Bool
  prev_filename : Option String
  out : List Out
  err : List String
deriving DecidableEq, Repr

/-- A file argument: its name (`none` for the `NULL` that `main` passes when
there is no file argument) and what `open` gives (`none` when it fails); for
standard input `fd` is the stream of descriptor 0. -/
structure File where
  filename : Option String
  fd : Option Fd
deriving DecidableEq, Repr

/-- How the body of the record loop ends: next iteration, `break`, or
`exit(code)`. -/
inductive Ctl where
  | next
  | brk
  | exit (code : Nat)
deriving DecidableEq, Repr

/-- How `tre_agrep_handle_file` ends: `return code` or `exit(code)`. -/
inductive Flow where
  | ret (code : Nat)
  | exit (code : Nat)
deriving DecidableEq, Repr

/-- The static variables before `main` runs: all zero, `buf == NULL` (shown by
`buf_size = 0`). -/
def static_scan : Scan :=
  { buf := [], buf_size := 0, data_len := 0, record := 0, next_record := none,
    record_len := 0, delim_len := 0, next_delim_len := 0, at_eof := false }

/-- Lines 631-727 of `tre_agrep_handle_file`: the prefixes, the adjustment of
the record boundaries, and the record itself.  `cost` is `match.cost`, `pm`
is `pmatch[0]`.  The result is `none` when the colour loop does not end. -/
def render (o : Opts) (preg : PatMatcher) (filename : String) (recnum cost : Nat)
    (pm : Nat × Nat) (r : Run) : Option Run :=
  let show_name := o.print_filename &&
    !(o.indent != 0 && r.prev_filename.isSome && r.prev_filename == some filename)
  let out1 := if show_name then
      r.out ++ [Out.text (filename ++ ":")] ++ (if o.indent ≠ 0 then [Out.byte 10] else [])
    else r.out
  let prev1 := if show_name then some filename else r.prev_filename
  let out2 := if o.print_recnum then out1 ++ [Out.text (toString recnum ++ ":")] else out1
  let out3 := if o.print_cost then out2 ++ [Out.text (toString cost ++ ":")] else out2
  let out4 := if o.print_position then
      out3 ++ [Out.text (toString (if o.invert_match then 0 else pm.1) ++ "-" ++
        toString (if o.invert_match then r.scan.record_len else pm.2) ++ ":")]
    else out3
  let sc := r.scan
  let adj : Scan × Nat × Nat :=
    if o.delim_after ≠ 0 then
      ({ sc with record_len := sc.record_len + sc.next_delim_len }, pm.1, pm.2)
    else if sc.delim_len ≤ sc.record then
      ({ sc with record := sc.record - sc.delim_len,
                 record_len := sc.record_len + sc.delim_len },
       pm.1 + sc.delim_len, pm.2 + sc.delim_len)
    else (sc, pm.1, pm.2)
  let sc1 := adj.1
  let r1 : Run := { r with scan := sc1, prev_filename := prev1 }
  if o.color_option && !o.invert_match then
    match colour_loop preg r.max_cost o.indent (sc1.record_len + 1) sc1.record_bytes
        adj.2.1 adj.2.2 0 with
    | none => none
    | some w => some { r1 with out := out4 ++ w }
  else
    some { r1 with out := out4 ++ plain_write o.indent sc1.record_bytes }

/-- Lines 565-566: `if (best_match) match_params.max_cost = best_cost;`. -/
def set_ceiling (r : Run) : Run :=
  if r.best_match ≠ 0 then { r with max_cost := r.best_cost } else r

/-- Whether `errcode == REG_OK`. -/
def AExec.is_ok : AExec → Bool
  | .ok _ _ _ => true
  | _ => false

/-- The field `match.cost` after the call: the cost of the match, or the 0
that `memset` left. -/
def AExec.cost : AExec → Nat
  | .ok c _ _ => c
  | _ => 0

/-- The entry `pmatch[0]` after the call, when `match.pmatch` was set (taken
as 0, 0 when the engine did not write it). -/
def AExec.span : AExec → Nat × Nat
  | .ok _ so eo => (so, eo)
  | _ => (0, 0)

/-- The test of line 594 on the result of the search of the record under the
ceiling `max_cost`: the record matches, or under `invert_match` it does not
match. -/
def qualifies (o : Opts) (preg : PatMatcher) (max_cost : Nat) (rec : List Nat) : Bool :=
  (!o.invert_match && (preg max_cost rec).is_ok) ||
    (o.invert_match && preg max_cost rec == .nomatch)

/-- The body of the record loop of `tre_agrep_handle_file` (lines 560-729),
entered with `recnum` already incremented. -/
def handle_record (o : Opts) (preg : PatMatcher) (filename : String) (recnum count : Nat)
    (r : Run) : Option (Ctl × Nat × Run) :=
  let r1 := set_ceiling r
  if r1.best_match = 1 ∧ r1.best_cost = 0 then some (.brk, count, r1)
  else
    let res := preg r1.max_cost r1.scan.record_bytes
    let pm : Nat × Nat := if o.color_option || o.print_position then res.span else (0, 0)
    if qualifies o preg r1.max_cost r1.scan.record_bytes = false then some (.next, count, r1)
    else if o.be_silent then some (.exit 0, count, r1)
    else
      let r2 : Run := { r1 with have_matches := true }
      if r2.best_match = 1 then
        some (.next, count + 1,
          if res.cost < r2.best_cost then { r2 with best_cost := res.cost } else r2)
      else if r2.best_match ≠ 0 ∧ res.cost > r2.best_cost then some (.next, count + 1, r2)
      else if o.list_files then
        some (.brk, count + 1, { r2 with out := r2.out ++ [Out.text (filename ++ "\n")] })
      else if o.count_matches = false then
        (render o preg filename recnum res.cost pm r2).map (fun r3 => (.next, count + 1, r3))
      else some (.next, count + 1, r2)

/-- The loop `while (!tre_agrep_get_next_record(fd, filename)) { ... }`, at
most `fuel` calls of the scanner.  The result tells whether the process
exits, and gives `count`. -/
def record_loop (o : Opts) (delim : DelimMatcher) (preg : PatMatcher) (filename : String) :
    Nat → Nat → Nat → Run → Fd → Option (Option Nat × Nat × Run)
  | 0, _, _, _, _ => none
  | fuel + 1, recnum, count, r, fd =>
    match tre_agrep_get_next_record delim r.scan fd with
    | none => none
    | some (.r0, sc, fd1) =>
      match handle_record o preg filename (recnum + 1) count { r with scan := sc } with
      | none => none
      | some (.next, count1, r1) => record_loop o delim preg filename fuel (recnum + 1) count1 r1 fd1
      | some (.brk, count1, r1) => some (none, count1, r1)
      | some (.exit c, count1, r1) => some (some c, count1, r1)
    | some (.r1, sc, _) => some (none, count, { r with scan := sc })
    | some (.exit2, sc, _) => some (some 2, count, { r with scan := sc })

/-- Lines 516-530 of `tre_agrep_handle_file`: the buffer is allocated when
`buf == NULL` (`cap` is `INITIAL_BUF_SIZE`), and the read buffer state is
reset. -/
def alloc_reset (cap : Nat) (s : Scan) : Scan :=
  let sc0 : Scan :=
    if s.buf_size = 0 then { s with buf := List.replicate cap 0, buf_size := cap }
    else s
  { sc0 with next_record := none, data_len := 0 }

/-- The function `tre_agrep_handle_file`; `cap` is `INITIAL_BUF_SIZE`. -/
def tre_agrep_handle_file (o : Opts) (cap : Nat) (delim : DelimMatcher) (preg : PatMatcher)
    (f : File) (r : Run) : Option (Flow × Run) :=
  let sc1 : Scan := alloc_reset cap r.scan
  let r1 : Run := { r with scan := sc1 }
  let is_stdin := f.filename = none ∨ f.filename = some "-"
  if is_stdin ∧ r1.best_match ≠ 0 then
    some (.ret 2, { r1 with err := r1.err ++ ["Cannot use -B when reading from standard input."] })
  else
    let filename := if is_stdin then "(standard input)" else f.filename.getD ""
    let fd_opt : Option Fd := if is_stdin then some (f.fd.getD ⟨[], []⟩) else f.fd
    match fd_opt with
    | none => some (.ret 1, { r1 with err := r1.err ++ [filename] })
    | some fd =>
      let r2 : Run := { r1 with scan := { sc1 with at_eof := false } }
      match record_loop o delim preg filename (scan_bound r2.scan fd) 0 0 r2 fd with
      | none => none
      | some (some c, _, r3) => some (.exit c, r3)
      | some (none, count, r3) =>
        if o.count_matches ∧ r3.best_match = 0 ∧ ¬ o.be_silent then
          some (.ret 0, { r3 with out := r3.out ++
            (if o.print_filename then [Out.text (filename ++ ":")] else []) ++
            [Out.text (toString count ++ "\n")] })
        else some (.ret 0, r3)

/-- A loop `while (optind < argc) tre_agrep_handle_file(argv[optind++]);` of
`main`: the return values are ignored; an `exit` ends the process. -/
def handle_files (o : Opts) (cap : Nat) (delim : DelimMatcher) (preg : PatMatcher) :
    List File → Run → Option (Option Nat × Run)
  | [], r => some (none, r)
  | f :: fs, r =>
    match tre_agrep_handle_file o cap delim preg f r with
    | none => none
    | some (.exit c, r1) => some (some c, r1)
    | some (.ret _, r1) => handle_files o cap delim preg fs r1

/-- What the option parsing of `main` leaves: the option variables
(`print_filename` is `none` for -1), whether -B was given, whether -E or a
digit option was given and the resulting `match_params.max_cost`, the file
arguments, and the stream of standard input. -/
structure Args where
  opts : Opts
  print_filename : Option Bool
  best_match : Bool
  max_cost_set : Bool
  max_cost : Nat
  files : List File
  stdin : Fd
deriving DecidableEq, Repr

/-- The static variables when the patterns have been compiled. -/
def start_run (a : Args) : Run :=
  { scan := static_scan, max_cost := a.max_cost, best_match := if a.best_match then 1 else 0,
    best_cost := 0, have_matches := false, prev_filename := none, out := [], err := [] }

/-- Lines 1069-1077 of `main`: when neither -h nor -H was given, file names
are printed if there is more than one file argument. -/
def main_opts (a : Args) : Opts :=
  { a.opts with print_filename :=
      match a.print_filename with
      | some b => b
      | none => decide (1 < a.files.length) }

/-- The value `have_matches == 0` that `main` returns. -/
def status (r : Run) : Nat := if r.have_matches then 0 else 1

/-- The static variables when the first best-match pass starts (lines
1089-1091). -/
def first_pass (a : Args) : Run :=
  { start_run a with max_cost := if a.max_cost_set then a.max_cost else INT_MAX, best_cost := INT_MAX }

/-- The static variables when the second best-match pass starts (lines
1105-1106), `r` being the state after the first pass. -/
def second_pass (r : Run) : Run :=
  { r with max_cost := r.best_cost, best_match := 2 }

/-- Lines 1067-1118 of `main`, after both patterns have been compiled and the
delimiter pattern accepted: the exit status of the process and the final
state.  `none` when a colour loop does not end. -/
def main_files (cap : Nat) (delim : DelimMatcher) (preg : PatMatcher) (a : Args) :
    Option (Nat × Run) :=
  if a.files = [] then
    match tre_agrep_handle_file (main_opts a) cap delim preg ⟨none, some a.stdin⟩ (start_run a) with
    | none => none
    | some (.exit c, r1) => some (c, r1)
    | some (.ret _, r1) => some (status r1, r1)
  else if a.best_match then
    match handle_files (main_opts a) cap delim preg a.files (first_pass a) with
    | none => none
    | some (some c, r2) => some (c, r2)
    | some (none, r2) =>
      if r2.best_cost = INT_MAX then some (1, r2)
      else
        match handle_files (main_opts a) cap delim preg a.files (second_pass r2) with
        | none => none
        | some (some c, r4) => some (c, r4)
        | some (none, r4) => some (status r4, r4)
  else
    match handle_files (main_opts a) cap delim preg a.files (start_run a) with
    | none => none
    | some (some c, r1) => some (c, r1)
    | some (none, r1) => some (status r1, r1)

/-! ## Concrete inputs -/

/-- The options when no option is given on the command line. -/
def default_opts : Opts :=
  { delim_after := 1, invert_match := false, print_filename := false, print_recnum := false,
    print_cost := false, count_matches := false, list_files := false, color_option := false,
    print_position := false, be_silent := false, indent := 0 }

/-- A pattern that matches every text exactly at its start with an empty
match, as `"x*"` does on a text without `x`. -/
def empty_match_preg : PatMatcher := fun _ _ => .ok 0 0 0

/-- A pattern whose least cost on every text is `c`: it matches, with cost
`c`, exactly when the ceiling allows `c`. -/
def cost_preg (c : Nat) : PatMatcher := fun max_cost _ =>
  if c ≤ max_cost then .ok c 0 0 else .nomatch

/-- The command line `agrep PATTERN f` for a file `f` with the given bytes. -/
def one_file_args (bytes : List Nat) : Args :=
  { opts := default_opts, print_filename := none, best_match := false, max_cost_set := false,
    max_cost := 0, files := [⟨some "f", some ⟨bytes, []⟩⟩], stdin := ⟨[], []⟩ }

/-! ## The run seen through the records that the scanner yields -/

/-- The record loop of `tre_agrep_handle_file` run on the successive scanner
states `ys` of the yielded records: the loop body for each record, until it
breaks or exits. -/
def fold_records (o : Opts) (preg : PatMatcher) (filename : String) :
    List Scan → Nat → Nat → Run → Option (Option Nat × Nat × Run)
  | [], _, count, r => some (none, count, r)
  | y :: ys, recnum, count, r =>
    match handle_record o preg filename (recnum + 1) count { r with scan := y } with
    | none => none
    | some (.next, count1, r1) => fold_records o preg filename ys (recnum + 1) count1 r1
    | some (.brk, count1, r1) => some (none, count1, r1)
    | some (.exit c, count1, r1) => some (some c, count1, r1)

/-- Whether the file argument stands for standard input. -/
def File.is_stdin (f : File) : Prop := f.filename = none ∨ f.filename = some "-"

instance (f : File) : Decidable f.is_stdin := by
  unfold File.is_stdin
  infer_instance

/-- The name under which `tre_agrep_handle_file` reports the file. -/
def File.shown_name (f : File) : String :=
  if f.is_stdin then "(standard input)" else f.filename.getD ""

/-- The descriptor that `tre_agrep_handle_file` reads: descriptor 0 for
standard input, the result of `open` otherwise. -/
def File.descriptor (f : File) : Option Fd :=
  if f.is_stdin then some (f.fd.getD ⟨[], []⟩) else f.fd

/-- The bytes of the file cannot make the buffer grow beyond `INT_MAX` bytes:
twice their number is within `INT_MAX`. -/
def File.Fits (f : File) : Prop :=
  ∀ fd, f.descriptor = some fd → 2 * fd.rest.length ≤ INT_MAX

/-- The function `tre_agrep_handle_file` run on the records `ys` of the file
instead of on the scanner: the static variables other than those of the
scanner change as in `tre_agrep_handle_file`. -/
def fold_file (o : Opts) (preg : PatMatcher) (f : File) (ys : List Scan) (r : Run) :
    Option (Flow × Run) :=
  if f.is_stdin ∧ r.best_match ≠ 0 then
    some (.ret 2, { r with err := r.err ++ ["Cannot use -B when reading from standard input."] })
  else
    match f.descriptor with
    | none => some (.ret 1, { r with err := r.err ++ [f.shown_name] })
    | some _ =>
      match fold_records o preg f.shown_name ys 0 0 r with
      | none => none
      | some (some c, _, r3) => some (.exit c, r3)
      | some (none, count, r3) =>
        if o.count_matches ∧ r3.best_match = 0 ∧ ¬ o.be_silent then
          some (.ret 0, { r3 with out := r3.out ++
            (if o.print_filename then [Out.text (f.shown_name ++ ":")] else []) ++
            [Out.text (toString count ++ "\n")] })
        else some (.ret 0, r3)

/-- The loop over the file arguments run on the records of each file. -/
def fold_files (o : Opts) (preg : PatMatcher) : List (File × List Scan) → Run →
    Option (Option Nat × Run)
  | [], r => some (none, r)
  | (f, ys) :: fs, r =>
    match fold_file o preg f ys r with
    | none => none
    | some (.exit c, r1) => some (some c, r1)
    | some (.ret _, r1) => fold_files o preg fs r1

/-- The run without the static variables of the scanner. -/
def Run.noscan (r : Run) : Run := { r with scan := static_scan }

/-- The records `ys` are records of the file `f` as the scanner yields them in
a run with `best_match` as given: none when the file is not scanned (it
cannot be opened, or it is standard input in best-match mode), else a
sequence of records of its stream. -/
def FileRecords (delim : DelimMatcher) (best_match : Nat) (f : File) (ys : List Scan) : Prop :=
  if f.is_stdin ∧ best_match ≠ 0 then ys = []
  else
    match f.descriptor with
    | none => ys = []
    | some fd => ∃ dl ndl, Yields delim (ReadStep.fail ∈ fd.sched) fd.rest dl ndl ys

/-- The matches of the pattern are inside the searched text and end after its
first byte, so that the highlight loop advances. -/
def PatAdvances (preg : PatMatcher) : Prop :=
  ∀ max_cost t c so eo, preg max_cost t = .ok c so eo → so ≤ eo ∧ 0 < eo ∧ eo ≤ t.length

/-- The state of the cost variables in a pass over the files, for the ceiling
`c0` under which a record is first examined: in normal mode the ceiling is
`max_cost = c0`; in the first best-match pass `best_cost` is still
`c0 = INT_MAX` as long as no record qualified, and below `INT_MAX` once one
did; in the second best-match pass a record has qualified. -/
def ModeInv (c0 : Nat) (r : Run) : Prop :=
  (r.best_match = 0 ∧ r.max_cost = c0) ∨
  (r.best_match = 1 ∧ c0 = INT_MAX ∧ (r.have_matches = false → r.best_cost = INT_MAX) ∧
    (r.have_matches = true → r.best_cost < INT_MAX)) ∨
  (r.best_match ≠ 0 ∧ r.best_match ≠ 1 ∧ r.have_matches = true)

/-- Every cost that the pattern matcher reports is below `INT_MAX`. -/
def CostsBelowMax (preg : PatMatcher) : Prop :=
  ∀ max_cost t c so eo, preg max_cost t = .ok c so eo → c < INT_MAX

/-! ## Best-match mode by the words of the specification -/

/-- A pattern matcher that reports the least cost of a text whenever that cost
is within the ceiling: `cost` gives the least cost of a text (`none` when
the pattern matches it at no cost), `span` the span of that match. -/
def least_cost_matcher (cost : List Nat → Option Nat) (span : List Nat → Nat × Nat) :
    PatMatcher := fun max_cost t =>
  match cost t with
  | some c => if c ≤ max_cost then .ok c (span t).1 (span t).2 else .nomatch
  | none => .nomatch

/-- The match costs of all records of all files, in order. -/
def all_costs (cost : List Nat → Option Nat) (fys : List (File × List Scan)) : List Nat :=
  fys.flatMap (fun p => p.2.filterMap (fun y => cost y.record_bytes))

/-- The minimum of the costs, `INT_MAX` when there is none below it. -/
def min_cost (costs : List Nat) : Nat := costs.foldr min INT_MAX

/-- The emitting pass over the records of one file by the words of the
specification: every record whose cost equals the minimum `m` is handed to
the renderer with cost `m`, every other record is passed over. -/
def emit_records (o : Opts) (preg : PatMatcher) (cost : List Nat → Option Nat)
    (span : List Nat → Nat × Nat) (filename : String) (m : Nat) :
    List Scan → Nat → Run → Option Run
  | [], _, r => some r
  | y :: ys, recnum, r =>
    if cost y.record_bytes = some m then
      match render o preg filename (recnum + 1) m
          (if o.color_option || o.print_position then span y.record_bytes else (0, 0))
          { r with scan := y } with
      | none => none
      | some r1 => emit_records o preg cost span filename m ys (recnum + 1) r1
    else emit_records o preg cost span filename m ys (recnum + 1) r

/-- The emitting pass over all files. -/
def emit_files (o : Opts) (preg : PatMatcher) (cost : List Nat → Option Nat)
    (span : List Nat → Nat × Nat) (m : Nat) : List (File × List Scan) → Run → Option Run
  | [], r => some r
  | (f, ys) :: fys, r =>
    match emit_records o preg cost span f.shown_name m ys 0 r with
    | none => none
    | some r1 => emit_files o preg cost span m fys r1

/-- The state in which the emitting pass starts: nothing written, the ceiling
at the minimum `m`. -/
def emit_start (m : Nat) : Run :=
  { scan := static_scan, max_cost := m, best_match := 2, best_cost := m, have_matches := true,
    prev_filename := none, out := [], err := [] }

/-- The run `ra` in the second best-match pass and the run `rs` of the
emitting pass by the words of the specification have written the same, with
the ceiling at the minimum `m`. -/
structure EmitRel (m : Nat) (ra rs : Run) : Prop where
  out : ra.out = rs.out
  prev : ra.prev_filename = rs.prev_filename
  best_match : ra.best_match = 2
  best_cost : ra.best_cost = m
  matched : ra.have_matches = true
  ceiling : rs.max_cost = m

/-- A least cost for concrete runs: the number of positions at which a record
of the length of `pat` differs from `pat`; a record of another length is not
matched at any cost. -/
def subst_cost (pat t : List Nat) : Option Nat :=
  if t.length = pat.length then
    some ((List.zipWith (fun x y => if x = y then 0 else 1) pat t).sum)
  else none

/-- The span of the match that `subst_cost` prices: the whole record. -/
def whole_span (t : List Nat) : Nat × Nat := (0, t.length)

/-- The command line `agrep -B --show-cost abc A B`, the file `A` holding the
record `abc` and the file `B` the record `axx`. -/
def two_file_args : Args :=
  { opts := { default_opts with print_cost := true }, print_filename := none, best_match := true,
    max_cost_set := false, max_cost := 0,
    files := [⟨some "A", some ⟨[97, 98, 99, 10], []⟩⟩, ⟨some "B", some ⟨[97, 120, 120, 10], []⟩⟩],
    stdin := ⟨[], []⟩ }

/-! ## The check of the delimiter pattern -/

/-- Whether `c` is a word character for the assertions `\<`, `\>` and `\b`:
a letter, a digit or the underscore. -/
def is_word_char (c : Nat) : Bool :=
  (48 ≤ c && c ≤ 57) || (65 ≤ c && c ≤ 90) || (97 ≤ c && c ≤ 122) || c == 95

/-- Position of the first word character. -/
def find_word : List Nat → Option Nat
  | [] => none
  | x :: xs => if is_word_char x then some 0 else (find_word xs).map (· + 1)

/-- The delimiter pattern `"\<"` (beginning of word): the empty match before
the first word character of the searched bytes; no match when there is no
word character, in particular on the empty string. -/
def bow_delim : DelimMatcher := fun t =>
  match find_word t with
  | some i => .ok i i
  | none => .nomatch

/-- The check of `main` (line 1062) that the delimiter pattern does not match
the empty string: `tre_regexec(&delim, "", 0, NULL, 0) == REG_OK` makes
`main` return 2. -/
def delim_accepted (delim : DelimMatcher) : Bool :=
  match delim [] with
  | .ok _ _ => false
  | _ => true

/-! ## The buffer invariant -/

/-- The buffer invariant: `buf` is allocated with `buf_size > 0` bytes,
`0 <= data_len <= buf_size`, and the cursor `next_record`, when it is set,
lies in `buf .. buf + data_len`. -/
structure BufInv (s : Scan) : Prop where
  size_pos : 0 < s.buf_size
  buf_len : s.buf.length = s.buf_size
  data_le : s.data_len ≤ s.buf_size
  cursor_le : ∀ nr, s.next_record = some nr → nr ≤ s.data_len

/-- What the scanner assumes of `tre_regnexec(&delim, text, len, ...)`: a
match ends inside the `len` bytes searched. -/
def DelimInRange (delim : DelimMatcher) : Prop :=
  ∀ t so eo, delim t = .ok so eo → eo ≤ t.length

/-- The scanner state in which the block `if (next_record == NULL)` or the
delimiter search ends. -/
def Fill.state : Fill → Scan
  | .ret _ s => s
  | .again s => s
  | .go s => s

/-- The buffer is full and cannot be doubled within `INT_MAX` bytes: the
block `if (read_size <= 0)` ends the process. -/
def GrowFails (s : Scan) : Prop := s.buf_size ≤ s.data_len ∧ INT_MAX < s.buf_size * 2

instance (s : Scan) : Decidable (GrowFails s) := by
  unfold GrowFails
  infer_instance

/-- The `read_size` with which `read` is called (line 337), for a scanner
state with `next_record == NULL`; when the buffer cannot grow the process
exits before the call, and the value is 0. -/
def read_size (s : Scan) : Nat :=
  match grow s with
  | some s1 => s1.buf_size - s1.data_len
  | none => 0

/-- A scanner state with a full buffer of 4 bytes in which no delimiter was
found: the cursor has been given up, the next read needs a larger buffer. -/
def full_scan : Scan :=
  { buf := [97, 98, 99, 100], buf_size := 4, data_len := 4, record := 0, next_record := none,
    record_len := 0, delim_len := 0, next_delim_len := 0, at_eof := false }

/-- A scanner state with a full buffer of `INITIAL_BUF_SIZE * 2 ^ 17` bytes
(the initial buffer doubled 17 times) in which no delimiter was found. -/
def limit_scan : Scan :=
  { buf := List.replicate (INITIAL_BUF_SIZE * 2 ^ 17) 97, buf_size := INITIAL_BUF_SIZE * 2 ^ 17,
    data_len := INITIAL_BUF_SIZE * 2 ^ 17, record := 0, next_record := none, record_len := 0,
    delim_len := 0, next_delim_len := 0, at_eof := false }

/-! ## Indented output by the words of the specification -/

/-- The lines of some bytes: the parts between the newlines (a newline at the
end is followed by an empty last line). -/
def split_lines : List Nat → List (List Nat)
  | [] => [[]]
  | c :: cs =>
    if c = 10 then [] :: split_lines cs
    else
      match split_lines cs with
      | [] => [[c]]
      | l :: ls => (c :: l) :: ls

/-- The lines put together again, a newline between every two of them. -/
def join_lines : List (List Nat) → List Nat
  | [] => []
  | [l] => l
  | l :: l1 :: ls => l ++ 10 :: join_lines (l1 :: ls)

/-- Indented output by the words of the claim: `n` spaces at the start of
every line. -/
def indent_every_line (n : Nat) (bytes : List Nat) : List Nat :=
  join_lines ((split_lines bytes).map (fun l => List.replicate n 32 ++ l))

/-- A line with `n` spaces at its start, when it is not empty. -/
def indent_line (n : Nat) (l : List Nat) : List Nat :=
  if l = [] then [] else List.replicate n 32 ++ l

/-- Indented output, amended: `n` spaces at the start of every line that is
not empty. -/
def indent_nonempty_lines (n : Nat) (bytes : List Nat) : List Nat :=
  join_lines ((split_lines bytes).map (indent_line n))

/-! ## The literal pattern of `-k` (lines 969-1019 of `main`) -/

/-- The call `strstr(hay, needle)` for C strings given by their bytes (the
terminating NUL left out): the offset of the first occurrence of `needle`,
`none` for `NULL`. -/
def strstr : List Nat → List Nat → Option Nat
  | [], needle => if needle = [] then some 0 else none
  | c :: cs, needle =>
    if needle.isPrefixOf (c :: cs) then some 0 else (strstr cs needle).map (· + 1)

/-- The first loop (lines 977-985): `next_pos` is an offset into `regexp`
(`none` for `NULL`), the result is `n`.  At most `fuel` tests of the loop
condition. -/
def count_loop (regexp : List Nat) : Nat → Option Nat → Nat → Option Nat
  | 0, _, _ => none
  | _ + 1, none, n => some n
  | fuel + 1, some pos, n =>
    match strstr (regexp.drop pos) [92, 69] with
    | some i => count_loop regexp fuel (some (pos + i + 2)) (n + 1)
    | none => count_loop regexp fuel none n

/-- The call `malloc(size)`: `size` bytes of indeterminate content, given by
`junk`. -/
def malloc (junk : Nat → Nat) (size : Nat) : List Nat := (List.range size).map junk

/-- Storing the bytes `bs` at offset `off` of the allocated region `m`; `none`
when they do not fit in the region. -/
def write (m : List Nat) (off : Nat) (bs : List Nat) : Option (List Nat) :=
  if off + bs.length ≤ m.length then some (store m off bs) else none

/-- The call `strcpy(m + off, src)`: the bytes of `src` and the terminating
NUL. -/
def strcpy (m : List Nat) (off : Nat) (src : List Nat) : Option (List Nat) :=
  write m off (src ++ [0])

/-- The call `strncpy(m + off, src, k)`: `k` bytes, those of `src` and then
NULs when `src` is shorter. -/
def strncpy (m : List Nat) (off : Nat) (src : List Nat) (k : Nat) : Option (List Nat) :=
  write m off (src.take k ++ List.replicate (k - src.length) 0)

/-- The second loop (lines 995-1012): `next_pos` is an offset into `regexp`,
`m` is the region `new_re`, `e` is `new_re_end - new_re`.  At most `fuel`
tests of the loop condition. -/
def rewrite_loop (regexp : List Nat) : Nat → Option Nat → List Nat → Nat →
    Option (List Nat × Nat)
  | 0, _, _, _ => none
  | _ + 1, none, m, e => some (m, e)
  | fuel + 1, some start, m, e =>
    match strstr (regexp.drop start) [92, 69] with
    | some i =>
      match strncpy m e (regexp.drop start) i with
      | none => none
      | some m1 =>
        match strcpy m1 (e + i) [92, 69, 92, 92, 69, 92, 81] with
        | none => none
        | some m2 => rewrite_loop regexp fuel (some (start + i + 2)) m2 (e + i + 7)
    | none =>
      match strcpy m e (regexp.drop start) with
      | none => none
      | some m1 => rewrite_loop regexp fuel none m1 (e + (regexp.drop start).length)

/-- Lines 969-1019 of `main` for the C string `regexp`: the region allocated
for `new_re` as it is when `regexp = new_re` is executed; `none` when a
write goes outside the region or a loop does not end. -/
def make_literal (junk : Nat → Nat) (regexp : List Nat) : Option (List Nat) :=
  match count_loop regexp (regexp.length + 2) (some 0) 0 with
  | none => none
  | some n =>
    match strcpy (malloc junk (regexp.length + 5 + n * 7)) 0 [92, 81] with
    | none => none
    | some m0 =>
      match rewrite_loop regexp (regexp.length + 2) (some 0) m0 2 with
      | none => none
      | some (m1, e) => strcpy m1 e [92, 69]

/-- The C string at the start of a region: the bytes before the first NUL. -/
def cstring (m : List Nat) : List Nat := m.takeWhile (· ≠ 0)

/-- The number of occurrences of `\E` found by a scan from left to right that
goes on after each occurrence. -/
def count_E : List Nat → Nat
  | [] => 0
  | [_] => 0
  | c :: d :: rest =>
    if c = 92 ∧ d = 69 then count_E rest + 1 else count_E (d :: rest)

/-- The pattern with each occurrence of `\E` counted by `count_E` replaced
by the 7 characters `\E\\E\Q`. -/
def replace_E : List Nat → List Nat
  | [] => []
  | [c] => [c]
  | c :: d :: rest =>
    if c = 92 ∧ d = 69 then [92, 69, 92, 92, 69, 92, 81] ++ replace_E rest
    else c :: replace_E (d :: rest)

/-! ## Properties of the scanner -/

theorem delimOK_nil {delim : DelimMatcher} (h : DelimOK delim) : delim [] = .nomatch := by
  rcases hd : delim [] with ⟨so, eo⟩ | _ | _
  · have := (h []).2 so eo hd
    simp at this
    omega
  · rfl
  · exact absurd hd (h []).1

theorem length_realloc (b : List Nat) (size : Nat) (h : b.length ≤ size) :
    (realloc b size).length = size := by
  simp [realloc]; omega

theorem take_realloc (b : List Nat) (size n : Nat) (h : b.length ≤ size) (hn : n ≤ b.length) :
    (realloc b size).take n = b.take n := by
  unfold realloc
  rw [List.take_of_length_le h, List.take_append_of_le_length hn]

theorem length_store (b bs : List Nat) (off : Nat) (h : off + bs.length ≤ b.length) :
    (store b off bs).length = b.length := by
  simp [store]; omega

theorem take_store (b bs : List Nat) (off : Nat) (h : off ≤ b.length) :
    (store b off bs).take (off + bs.length) = b.take off ++ bs := by
  unfold store
  have h1 : (b.take off ++ bs).length = off + bs.length := by simp [h]
  rw [← h1, List.take_left]

theorem length_memmove (b : List Nat) (src n : Nat) (h : src + n ≤ b.length) :
    (memmove b src n).length = b.length := by
  simp [memmove]; omega

theorem take_memmove (b : List Nat) (src n : Nat) (h : src + n ≤ b.length) :
    (memmove b src n).take n = (b.drop src).take n := by
  unfold memmove
  have h1 : ((b.drop src).take n).length = n := by simp; omega
  rw [List.take_append_of_le_length (by omega), List.take_take, Nat.min_self]

theorem length_pending {delim : DelimMatcher} {s : Scan} (h : s.Inv delim) :
    s.pending.length = s.data_len - s.next_record.getD 0 := by
  have h1 := h.buf_len
  have h2 := h.data_le
  unfold Scan.pending
  cases hn : s.next_record with
  | none => simp; omega
  | some nr =>
    have := h.cursor_le nr hn
    simp; omega

/-- The `REG_OK` case of the delimiter search. -/
theorem search_ok {delim : DelimMatcher} (hd : DelimOK delim) {s : Scan} (h : s.Inv delim)
    {nr : Nat} (hn : s.next_record = some nr) (fd : Fd) (heof : s.at_eof = false)
    {so eo : Nat} (hm : delim s.pending = .ok so eo) (mayfail : Prop) :
    ∃ s1, search delim s nr = .ret .r0 s1 ∧ s1.Inv delim ∧ s1.buf_size = s.buf_size ∧
      CallPost delim mayfail (unconsumed s fd) s.delim_len s.next_delim_len .r0 s1 fd := by
  have hp : s.pending = (s.buf.drop nr).take (s.data_len - nr) := by
    simp [Scan.pending, hn]
  have hlen := length_pending h
  rw [hn] at hlen
  simp only [Option.getD_some] at hlen
  obtain ⟨hlt, hle⟩ := (hd s.pending).2 so eo hm
  rw [hlen] at hle
  have hcur := h.cursor_le nr hn
  rw [hp] at hm
  refine ⟨{ s with record := nr, record_len := so, delim_len := s.next_delim_len,
                   next_delim_len := eo - so, next_record := some (nr + eo) },
    by simp only [search, hm], ?_, rfl, ?_⟩
  · exact ⟨h.size_pos, h.buf_len, h.data_le,
      by intro k hk; simp at hk; show k ≤ s.data_len; omega,
      by intro hk; simp at hk⟩
  · refine CallPost.found _ fd s.pending fd.rest so eo rfl (hp ▸ hm) heof ?_ rfl ?_ rfl rfl ?_
      (by simp)
    · simp only [Scan.record_bytes, hp, List.take_take]
      congr 1; omega
    · simp only [Scan.delim_after_bytes, heof, hp]
      simp only [Bool.false_eq_true, ↓reduceIte, List.drop_take, List.drop_drop, List.take_take]
      congr 1; omega
    · simp only [unconsumed, Scan.pending, hn, List.drop_take, List.drop_drop]
      congr 2
      omega

/-- The `REG_NOMATCH` case of the delimiter search. -/
theorem search_nomatch {delim : DelimMatcher} {s : Scan} (h : s.Inv delim)
    {nr : Nat} (hn : s.next_record = some nr) (hm : delim s.pending = .nomatch) :
    ∃ s1, search delim s nr = .again s1 ∧ s1.Inv delim ∧ s1.buf_size = s.buf_size ∧
      s1.next_record = none ∧ s1.pending = s.pending ∧ s1.at_eof = s.at_eof ∧
      s1.delim_len = s.delim_len ∧ s1.next_delim_len = s.next_delim_len := by
  have hp : s.pending = (s.buf.drop nr).take (s.data_len - nr) := by
    simp [Scan.pending, hn]
  have hcur := h.cursor_le nr hn
  have h1 := h.buf_len
  have h2 := h.data_le
  rw [hp] at hm
  by_cases h0 : nr = 0
  · subst h0
    refine ⟨{ s with next_record := none }, by simp only [search, hm, ↓reduceIte],
      ?_, rfl, rfl, ?_, rfl, rfl, rfl⟩
    · refine ⟨h.size_pos, h.buf_len, h.data_le, by intro k hk; simp at hk, ?_⟩
      intro _
      simpa [Scan.pending] using hm
    · simp [Scan.pending, hn]
  · have hpe : List.take (s.data_len - nr) (memmove s.buf nr (s.data_len - nr)) = s.pending := by
      rw [take_memmove _ _ _ (by omega), hp]
    refine ⟨{ s with buf := memmove s.buf nr (s.data_len - nr), data_len := s.data_len - nr,
                     next_record := none }, by simp only [search, hm, h0, ↓reduceIte],
      ?_, rfl, rfl, ?_, rfl, rfl, rfl⟩
    · refine ⟨h.size_pos, ?_, ?_, by intro k hk; simp at hk, ?_⟩
      · simp only
        rw [length_memmove _ _ _ (by omega)]; exact h1
      · simp only; omega
      · intro _
        simp only [Scan.pending]
        rw [hpe, hp]; exact hm
    · simp only [Scan.pending]
      exact hpe

theorem read_spec (fd : Fd) (n : Nat) (hn : 0 < n) :
    (∃ fd1, fd.read n = (.eintr, fd1) ∧ fd1.rest = fd.rest ∧
        fd1.sched.length < fd.sched.length ∧ (∀ st ∈ fd1.sched, st ∈ fd.sched)) ∨
    (∃ bs fd1, fd.read n = (.bytes bs, fd1) ∧ fd.rest = bs ++ fd1.rest ∧ bs.length ≤ n ∧
        (bs = [] → fd.rest = []) ∧ fd1.sched.length ≤ fd.sched.length ∧
        (∀ st ∈ fd1.sched, st ∈ fd.sched)) ∨
    (∃ fd1, fd.read n = (.error, fd1) ∧ ReadStep.fail ∈ fd.sched ∧
        (∀ st ∈ fd1.sched, st ∈ fd.sched)) := by
  obtain ⟨rest, sched⟩ := fd
  cases sched with
  | nil =>
    right; left
    refine ⟨rest.take n, ⟨rest.drop n, []⟩, rfl, by simp, by simp, ?_, by simp, ?_⟩
    · intro h
      cases rest with
      | nil => rfl
      | cons a t => simp at h; omega
    · intro st hst; simp at hst
  | cons st sc =>
    have hsc : ∀ x ∈ sc, x ∈ st :: sc := fun x hx => List.mem_cons_of_mem _ hx
    cases st with
    | chunk k =>
      right; left
      refine ⟨rest.take (min (max k 1) n), ⟨rest.drop (min (max k 1) n), sc⟩, rfl, by simp,
        ?_, ?_, by simp, hsc⟩
      · simp only [List.length_take]; omega
      · intro h
        cases rest with
        | nil => rfl
        | cons a t =>
          have : 0 < min (max k 1) n := by omega
          simp at h; omega
    | eintr =>
      left
      exact ⟨⟨rest, sc⟩, rfl, rfl, by simp, hsc⟩
    | fail =>
      right; right
      exact ⟨⟨rest, sc⟩, rfl, List.mem_cons_self _ _, hsc⟩

theorem grow_spec {delim : DelimMatcher} {s : Scan} (h : s.Inv delim) :
    (∃ s1, grow s = some s1 ∧ s1.Inv delim ∧ s1.data_len < s1.buf_size ∧
      s1.pending = s.pending ∧ s1.next_record = s.next_record ∧
      s1.data_len = s.data_len ∧ s1.at_eof = s.at_eof ∧
      s1.delim_len = s.delim_len ∧ s1.next_delim_len = s.next_delim_len ∧
      (s1.buf_size = s.buf_size ∨
        (s1.buf_size = s.buf_size * 2 ∧ s.buf_size ≤ s.data_len ∧
          s.buf_size * 2 ≤ INT_MAX))) ∨
    (grow s = none ∧ s.buf_size ≤ s.data_len ∧ INT_MAX < s.buf_size * 2) := by
  have h0 := h.size_pos
  have h1 := h.buf_len
  have h2 := h.data_le
  by_cases hc : s.buf_size ≤ s.data_len
  · by_cases hf : s.buf_size * 2 ≤ INT_MAX
    · left
      have hg : grow s = some { s with buf_size := s.buf_size * 2,
                                       buf := realloc s.buf (s.buf_size * 2) } := by
        simp [grow, hc, hf]
      have hl : (realloc s.buf (s.buf_size * 2)).length = s.buf_size * 2 :=
        length_realloc _ _ (by omega)
      have hp : ∀ nr, ((realloc s.buf (s.buf_size * 2)).drop nr).take (s.data_len - nr)
          = (s.buf.drop nr).take (s.data_len - nr) := by
        intro nr
        rw [← List.drop_take, ← List.drop_take, take_realloc _ _ _ (by omega) (by omega)]
      have hpe : ({ s with buf_size := s.buf_size * 2,
                           buf := realloc s.buf (s.buf_size * 2) } : Scan).pending
          = s.pending := by
        unfold Scan.pending
        cases hn : s.next_record with
        | none => simpa using hp 0
        | some nr => simpa using hp nr
      refine ⟨_, hg, ⟨by show 0 < s.buf_size * 2; omega, hl,
        by show s.data_len ≤ s.buf_size * 2; omega, h.cursor_le, ?_⟩,
        by show s.data_len < s.buf_size * 2; omega, hpe, rfl, rfl, rfl, rfl, rfl,
        Or.inr ⟨rfl, hc, hf⟩⟩
      intro hn
      rw [hpe]
      exact h.searched hn
    · right
      exact ⟨by simp [grow, hc, hf], hc, by omega⟩
  · left
    have hg : grow s = some s := by simp [grow, hc]
    exact ⟨s, hg, h, by omega, rfl, rfl, rfl, rfl, rfl, rfl, Or.inl rfl⟩

theorem GrowsTo.trans {delim : DelimMatcher} {u : List Nat} {B B1 B2 : Nat}
    (h1 : GrowsTo delim u B B1) (h2 : GrowsTo delim u B1 B2) : GrowsTo delim u B B2 := by
  induction h1 with
  | refl B => exact h2
  | step B B1 hneed hfit _ ih => exact GrowsTo.step _ _ hneed hfit (ih h2)

theorem GrowsTo.pow {delim : DelimMatcher} {u : List Nat} {B B1 : Nat}
    (h : GrowsTo delim u B B1) : ∃ k, B1 = B * 2 ^ k := by
  induction h with
  | refl B => exact ⟨0, by simp⟩
  | step B B1 _ _ _ ih =>
    obtain ⟨k, hk⟩ := ih
    exact ⟨k + 1, by rw [hk, Nat.pow_succ]; ring⟩

theorem GrowsTo.bound {delim : DelimMatcher} {u : List Nat} {B B1 : Nat}
    (h : GrowsTo delim u B B1) : B1 = B ∨ B1 ≤ INT_MAX := by
  induction h with
  | refl B => exact Or.inl rfl
  | step B B1 _ hfit _ ih =>
    rcases ih with ih | ih
    · right; rw [ih]; exact hfit
    · exact Or.inr ih

/-- A doubling happens only for bytes that are there. -/
theorem GrowsTo.le_length {delim : DelimMatcher} {u : List Nat} {B B1 : Nat}
    (h : GrowsTo delim u B B1) : B1 = B ∨ B1 ≤ 2 * u.length := by
  induction h with
  | refl B => exact Or.inl rfl
  | step B B1 hneed _ _ ih =>
    have := hneed.1
    rcases ih with ih | ih
    · right; rw [ih]; omega
    · exact Or.inr ih

/-- A full buffer in which the scanner has found no delimiter has to grow. -/
theorem needGrow_of_full {delim : DelimMatcher} {s : Scan} (h : s.Inv delim)
    (hn : s.next_record = none) (hc : s.buf_size ≤ s.data_len) (fd : Fd) :
    NeedGrow delim (unconsumed s fd) s.buf_size := by
  have hpl : s.pending.length = s.data_len := by
    have := length_pending h; rw [hn] at this; simpa using this
  have hd := h.data_le
  have hS : s.pending.length = s.buf_size := by omega
  refine ⟨by simp only [unconsumed, List.length_append]; omega, ?_⟩
  have ht : (unconsumed s fd).take s.buf_size = s.pending := by
    unfold unconsumed
    exact List.take_left' hS
  rw [ht]
  exact h.searched hn

theorem fill_none {delim : DelimMatcher} {s : Scan} (h : s.Inv delim)
    (hn : s.next_record = none) (heof : s.at_eof = false) (fd : Fd) :
    (∃ s1 fd1, fill s fd = (.again s1, fd1) ∧ s1.Inv delim ∧ s1.next_record = none ∧
        Carried s fd s1 fd1 ∧ GrowsTo delim (unconsumed s fd) s.buf_size s1.buf_size ∧
        fd1.sched.length + fd1.rest.length < fd.sched.length + fd.rest.length) ∨
    (∃ r s1 fd1, fill s fd = (.ret r s1, fd1) ∧ s1.Inv delim ∧
        (∀ st ∈ fd1.sched, st ∈ fd.sched) ∧
        CallEnd delim (ReadStep.fail ∈ fd.sched) (unconsumed s fd) s.delim_len
          s.next_delim_len s.buf_size r s1 fd1) ∨
    (∃ s1 fd1, fill s fd = (.go s1, fd1) ∧ s1.Inv delim ∧ s1.next_record = some 0 ∧
        Carried s fd s1 fd1 ∧ GrowsTo delim (unconsumed s fd) s.buf_size s1.buf_size ∧
        fd1.sched.length + fd1.rest.length < fd.sched.length + fd.rest.length) := by
  rcases grow_spec h with ⟨g, hg, gi, glt, gp, gn, gd, ge, gdl, gndl, gsz⟩ | ⟨hg, hfull, hover⟩
  rotate_left
  · right; left
    exact ⟨.exit2, s, fd, by simp only [fill, hn, hg], h, fun _ hx => hx,
      CallEnd.nomem s fd s.buf_size (GrowsTo.refl _) (needGrow_of_full h hn hfull fd) hover⟩
  have hgt : GrowsTo delim (unconsumed s fd) s.buf_size g.buf_size := by
    rcases gsz with e | ⟨e, hfull, hfit⟩
    · rw [e]; exact GrowsTo.refl _
    · rw [e]
      exact GrowsTo.step _ _ (needGrow_of_full h hn hfull fd) hfit (GrowsTo.refl _)
  have gk : ∃ k, g.buf_size = s.buf_size * 2 ^ k := hgt.pow
  have gbl := gi.buf_len
  have hpn : s.pending = s.buf.take s.data_len := by simp [Scan.pending, hn]
  have gpn : g.pending = g.buf.take g.data_len := by
    simp [Scan.pending, gn, hn]
  rcases read_spec fd _ (show 0 < g.buf_size - g.data_len by omega) with
    ⟨fd1, hr, hrest, hlen, hf1⟩ | ⟨bs, fd1, hr, hrest, hble, hnil, hlen, hf1⟩ |
    ⟨fd1, hr, hfail, hf1⟩
  rotate_left 2
  · right; left
    exact ⟨.r1, g, fd1, by simp only [fill, hn, hg, hr], gi, hf1,
      CallEnd.ok _ _ _ (CallPost.failed _ _ hfail (by rw [ge, heof])) hgt
        (by intro hr0; cases hr0)⟩
  · left
    refine ⟨g, fd1, by simp only [fill, hn, hg, hr], gi, by rw [gn, hn],
      ⟨by simp [unconsumed, gp, hrest], ge, gdl, gndl, gk, hf1⟩, hgt, by rw [hrest]; omega⟩
  · by_cases hb : bs.length = 0
    · right; left
      have hbs : bs = [] := List.length_eq_zero.mp hb
      have hr0 := hnil hbs
      have hr1 : fd1.rest = [] := by rw [hr0, hbs] at hrest; simpa using hrest.symm
      have hu : unconsumed s fd = s.pending := by simp [unconsumed, hr0]
      have hpl : s.pending.length = s.data_len := by
        have := length_pending h; rw [hn] at this; simpa using this
      have hsettled : Settled delim (unconsumed s fd) g.buf_size := by
        right
        rw [hu, hpl]
        omega
      refine ⟨if g.data_len = 0 then .r1 else .r0,
        { g with record := 0, record_len := g.data_len, at_eof := true }, fd1,
        by simp only [fill, hn, hg, hr, hb, ↓reduceIte], ?_, hf1, ?_⟩
      · exact ⟨gi.size_pos, gi.buf_len, gi.data_le, gi.cursor_le, gi.searched⟩
      · refine CallEnd.ok _ _ _ ?_ hgt (fun _ => hsettled)
        rw [hu]
        by_cases hz : g.data_len = 0
        · rw [if_pos hz]
          refine CallPost.done _ _ rfl ?_
          apply List.length_eq_zero.mp
          rw [hpl, ← gd]; exact hz
        · rw [if_neg hz]
          refine CallPost.last _ _ rfl ?_ ?_ ?_ hr1 gdl gndl ?_
          · show (g.buf.drop 0).take g.data_len = s.pending
            rw [← gp, gpn]; rfl
          · intro hc; rw [hc] at hpl; simp at hpl; omega
          · exact h.searched hn
          · show g.data_len = s.pending.length
            omega
    · right; right
      have hst : (store g.buf g.data_len bs).take (g.data_len + bs.length)
          = g.buf.take g.data_len ++ bs := take_store _ _ _ (by omega)
      refine ⟨{ g with buf := store g.buf g.data_len bs,
                       data_len := g.data_len + bs.length,
                       next_record := some 0 }, fd1,
        by simp only [fill, hn, hg, hr, hb, ↓reduceIte], ?_, rfl,
        ⟨?_, ge, gdl, gndl, gk, hf1⟩, hgt, ?_⟩
      · refine ⟨gi.size_pos, ?_, ?_, ?_, ?_⟩
        · show (store g.buf g.data_len bs).length = g.buf_size
          rw [length_store _ _ _ (by omega)]; exact gbl
        · show g.data_len + bs.length ≤ g.buf_size
          omega
        · intro nr hnr; simp at hnr; omega
        · intro hc; simp at hc
      · show ((store g.buf g.data_len bs).drop 0).take
            (g.data_len + bs.length - 0) ++ fd1.rest = s.pending ++ fd.rest
        rw [List.drop_zero, Nat.sub_zero, hst, ← gpn, gp, hrest, List.append_assoc]
      · have : fd.rest.length = bs.length + fd1.rest.length := by rw [hrest]; simp
        omega

theorem CallPost.carry {delim : DelimMatcher} {s s1 : Scan} {fd fd1 : Fd}
    (hc : Carried s fd s1 fd1) {r : Ret} {s2 : Scan} {fd2 : Fd}
    (h : CallPost delim (ReadStep.fail ∈ fd1.sched) (unconsumed s1 fd1) s1.delim_len
      s1.next_delim_len r s2 fd2) :
    CallPost delim (ReadStep.fail ∈ fd.sched) (unconsumed s fd) s.delim_len
      s.next_delim_len r s2 fd2 := by
  rw [hc.unc, hc.dl, hc.ndl] at h
  cases h with
  | found _ _ p q so eo hu hm heof hrec hlen hafter hdl hndl hrest hcur =>
    exact CallPost.found _ _ p q so eo hu hm heof hrec hlen hafter hdl hndl hrest hcur
  | last _ _ heof hrec hne hm hrest hdl hndl hlen =>
    exact CallPost.last _ _ heof hrec hne hm hrest hdl hndl hlen
  | done _ _ heof hu => exact CallPost.done _ _ heof hu
  | failed _ _ hfail heof => exact CallPost.failed _ _ (hc.sched _ hfail) heof

theorem CallEnd.carry_end {delim : DelimMatcher} {s s1 : Scan} {fd fd1 : Fd}
    (hc : Carried s fd s1 fd1)
    (hg : GrowsTo delim (unconsumed s fd) s.buf_size s1.buf_size) {r : Ret} {s2 : Scan}
    {fd2 : Fd}
    (h : CallEnd delim (ReadStep.fail ∈ fd1.sched) (unconsumed s1 fd1) s1.delim_len
      s1.next_delim_len s1.buf_size r s2 fd2) :
    CallEnd delim (ReadStep.fail ∈ fd.sched) (unconsumed s fd) s.delim_len
      s.next_delim_len s.buf_size r s2 fd2 := by
  have hu := hc.unc
  cases h with
  | ok _ _ _ hp hgrow hset =>
    refine CallEnd.ok _ _ _ (hp.carry hc) (hg.trans (by rw [← hu]; exact hgrow)) ?_
    intro hr
    rw [← hu]
    exact hset hr
  | nomem _ _ B1 hgrow hneed hover =>
    exact CallEnd.nomem _ _ B1 (hg.trans (by rw [← hu]; exact hgrow))
      (by rw [← hu]; exact hneed) hover

theorem search_some {delim : DelimMatcher} (hd : DelimOK delim) {s : Scan} (h : s.Inv delim)
    {nr : Nat} (hn : s.next_record = some nr) (fd : Fd) (heof : s.at_eof = false)
    (mayfail : Prop) :
    (∃ s1, search delim s nr = .ret .r0 s1 ∧ s1.Inv delim ∧ s1.buf_size = s.buf_size ∧
      CallPost delim mayfail (unconsumed s fd) s.delim_len s.next_delim_len .r0 s1 fd ∧
      Settled delim (unconsumed s fd) s.buf_size) ∨
    (∃ s1, search delim s nr = .again s1 ∧ s1.Inv delim ∧ s1.next_record = none ∧
      Carried s fd s1 fd ∧ s1.buf_size = s.buf_size) := by
  rcases hm : delim s.pending with ⟨so, eo⟩ | _ | _
  · obtain ⟨s1, h1, h2, h3, h4⟩ := search_ok hd h hn fd heof hm mayfail
    have hle : s.pending.length ≤ s.buf_size := by
      have := length_pending h
      have := h.data_le
      omega
    exact Or.inl ⟨s1, h1, h2, h3, h4, Or.inl ⟨s.pending, fd.rest, so, eo, rfl, hm, hle⟩⟩
  · obtain ⟨s1, h1, h2, h3, h4, h5, h6, h7, h8⟩ := search_nomatch h hn hm
    exact Or.inr ⟨s1, h1, h2, h4,
      ⟨by simp [unconsumed, h5], h6, h7, h8, ⟨0, by simp [h3]⟩, fun _ hx => hx⟩, h3⟩
  · exact absurd hm (hd _).1

/-- The loop of `tre_agrep_get_next_record` returns within the stated number
of iterations, and its result is as `CallEnd` says. -/
theorem loop_spec {delim : DelimMatcher} (hd : DelimOK delim) :
    ∀ (fuel : Nat) (s : Scan) (fd : Fd), s.Inv delim → s.at_eof = false →
      fd.sched.length + fd.rest.length + (if s.next_record = none then 1 else 2) ≤ fuel →
      ∃ r s1 fd1, get_next_record_loop delim fuel s fd = some (r, s1, fd1) ∧
        s1.Inv delim ∧ (∀ st ∈ fd1.sched, st ∈ fd.sched) ∧
        CallEnd delim (ReadStep.fail ∈ fd.sched) (unconsumed s fd) s.delim_len
          s.next_delim_len s.buf_size r s1 fd1 := by
  intro fuel
  induction fuel with
  | zero =>
    intro s fd _ _ hb
    split at hb <;> omega
  | succ fuel ih =>
    intro s fd h heof hb
    cases hn : s.next_record with
    | none =>
      rw [if_pos hn] at hb
      rcases fill_none h hn heof fd with
        ⟨s1, fd1, hfill, hi1, hn1, hc, hg, hlt⟩ | ⟨r, s1, fd1, hfill, hi1, hf1, hp⟩ |
        ⟨s1, fd1, hfill, hi1, hn1, hc, hg, hlt⟩
      · obtain ⟨r, s2, fd2, hl, hi2, hf2, hp⟩ :=
          ih s1 fd1 hi1 (by rw [hc.eof, heof]) (by rw [if_pos hn1]; omega)
        exact ⟨r, s2, fd2, by simp only [get_next_record_loop, hfill, hl], hi2,
          fun st hst => hc.sched st (hf2 st hst), hp.carry_end hc hg⟩
      · exact ⟨r, s1, fd1, by simp only [get_next_record_loop, hfill], hi1, hf1, hp⟩
      · have heof1 : s1.at_eof = false := by rw [hc.eof, heof]
        rcases search_some hd hi1 hn1 fd1 heof1 (ReadStep.fail ∈ fd1.sched) with
          ⟨s2, hs, hi2, hsz, hp, hset⟩ | ⟨s2, hs, hi2, hn2, hc2, hsz⟩
        · refine ⟨.r0, s2, fd1, by simp only [get_next_record_loop, hfill, hn1, hs], hi2,
            hc.sched, CallEnd.carry_end hc hg (CallEnd.ok _ _ _ hp ?_ ?_)⟩
          · rw [hsz]; exact GrowsTo.refl _
          · intro _; rw [hsz]; exact hset
        · obtain ⟨r, s3, fd3, hl, hi3, hf3, hp⟩ :=
            ih s2 fd1 hi2 (by rw [hc2.eof, heof1]) (by rw [if_pos hn2]; omega)
          refine ⟨r, s3, fd3, by simp only [get_next_record_loop, hfill, hn1, hs, hl], hi3,
            fun st hst => hc.sched st (hf3 st hst),
            CallEnd.carry_end hc hg (CallEnd.carry_end hc2 (by rw [hsz]; exact GrowsTo.refl _) hp)⟩
    | some nr =>
      have hfill : fill s fd = (.go s, fd) := by simp only [fill, hn]
      rw [if_neg (by simp [hn])] at hb
      rcases search_some hd h hn fd heof (ReadStep.fail ∈ fd.sched) with
        ⟨s2, hs, hi2, hsz, hp, hset⟩ | ⟨s2, hs, hi2, hn2, hc2, hsz⟩
      · refine ⟨.r0, s2, fd, by simp only [get_next_record_loop, hfill, hn, hs], hi2,
          fun _ hx => hx, CallEnd.ok _ _ _ hp ?_ ?_⟩
        · rw [hsz]; exact GrowsTo.refl _
        · intro _; rw [hsz]; exact hset
      · obtain ⟨r, s3, fd3, hl, hi3, hf3, hp⟩ :=
          ih s2 fd hi2 (by rw [hc2.eof, heof]) (by rw [if_pos hn2]; omega)
        exact ⟨r, s3, fd3, by simp only [get_next_record_loop, hfill, hn, hs, hl], hi3, hf3,
          CallEnd.carry_end hc2 (by rw [hsz]; exact GrowsTo.refl _) hp⟩

/-- A call of `tre_agrep_get_next_record` returns, and its result is as
`CallEnd` says. -/
theorem call_end {delim : DelimMatcher} (hd : DelimOK delim) {s : Scan} (fd : Fd)
    (h : s.Inv delim) (heof : s.at_eof = false) :
    ∃ r s1 fd1, tre_agrep_get_next_record delim s fd = some (r, s1, fd1) ∧
      s1.Inv delim ∧ (∀ st ∈ fd1.sched, st ∈ fd.sched) ∧
      CallEnd delim (ReadStep.fail ∈ fd.sched) (unconsumed s fd) s.delim_len
        s.next_delim_len s.buf_size r s1 fd1 := by
  have := loop_spec hd (loop_bound fd) s fd h heof (by unfold loop_bound; split <;> omega)
  simpa only [tre_agrep_get_next_record, heof, Bool.false_eq_true, ↓reduceIte] using this

/-- When the bytes not consumed yet cannot force the buffer beyond `INT_MAX`
bytes, a call of `tre_agrep_get_next_record` returns as `CallPost` says. -/
theorem call_spec {delim : DelimMatcher} (hd : DelimOK delim) {s : Scan} (fd : Fd)
    (h : s.Inv delim) (heof : s.at_eof = false)
    (hfit : 2 * (unconsumed s fd).length ≤ INT_MAX) :
    ∃ r s1 fd1, tre_agrep_get_next_record delim s fd = some (r, s1, fd1) ∧
      s1.Inv delim ∧ (∀ st ∈ fd1.sched, st ∈ fd.sched) ∧
      (∃ k, s1.buf_size = s.buf_size * 2 ^ k) ∧
      CallPost delim (ReadStep.fail ∈ fd.sched) (unconsumed s fd) s.delim_len
        s.next_delim_len r s1 fd1 := by
  obtain ⟨r, s1, fd1, hc, hi, hf, he⟩ := call_end hd fd h heof
  cases he with
  | ok _ _ _ hp hgrow _ => exact ⟨r, s1, fd1, hc, hi, hf, hgrow.pow, hp⟩
  | nomem _ _ B1 hgrow hneed hover =>
    exfalso
    have := hneed.1
    omega

theorem length_pending_le {delim : DelimMatcher} {s : Scan} (h : s.Inv delim) :
    s.pending.length ≤ s.data_len := by
  rw [length_pending h]; omega

theorem Yields.mono {delim : DelimMatcher} {P Q : Prop} (hpq : P → Q) {u : List Nat}
    {dl ndl : Nat} {ys : List Scan} (h : Yields delim P u dl ndl ys) :
    Yields delim Q u dl ndl ys := by
  induction h with
  | done u dl ndl hu => exact Yields.done _ _ _ hu
  | failed u dl ndl hfail => exact Yields.failed _ _ _ (hpq hfail)
  | last u dl ndl y heof hrec hne hm hdl hndl hlen =>
    exact Yields.last _ _ _ y heof hrec hne hm hdl hndl hlen
  | found u dl ndl y ys p q so eo hu hm heof hrec hlen hafter hdl hndl _ ih =>
    exact Yields.found _ _ _ y ys p q so eo hu hm heof hrec hlen hafter hdl hndl ih

theorem Scans.weaken {delim : DelimMatcher} {P Q : Prop} (hpq : P → Q) {B : Nat} {u : List Nat}
    {dl ndl : Nat} {ys : List Scan} {r : Ret} (h : Scans delim P B u dl ndl ys r) :
    Scans delim Q B u dl ndl ys r := by
  induction h with
  | done B u dl ndl hu => exact Scans.done _ _ _ _ hu
  | failed B u dl ndl hfail => exact Scans.failed _ _ _ _ (hpq hfail)
  | nomem B u dl ndl B1 hgrow hneed hover => exact Scans.nomem _ _ _ _ B1 hgrow hneed hover
  | last B u dl ndl y heof hrec hne hm hdl hndl hlen hgrow hset =>
    exact Scans.last _ _ _ _ y heof hrec hne hm hdl hndl hlen hgrow hset
  | found B u dl ndl y ys p q so eo r hu hm heof hrec hlen hafter hdl hndl hgrow hset _ ih =>
    exact Scans.found _ _ _ _ y ys p q so eo r hu hm heof hrec hlen hafter hdl hndl hgrow
      hset ih

/-- The records of `Scans` are records of `Yields`, where an end by `exit(2)`
counts as an end of the records. -/
theorem Scans.yields {delim : DelimMatcher} {P : Prop} {B : Nat} {u : List Nat}
    {dl ndl : Nat} {ys : List Scan} {r : Ret} (h : Scans delim P B u dl ndl ys r) :
    Yields delim (P ∨ r = .exit2) u dl ndl ys := by
  induction h with
  | done B u dl ndl hu => exact Yields.done _ _ _ hu
  | failed B u dl ndl hfail => exact Yields.failed _ _ _ (Or.inl hfail)
  | nomem B u dl ndl B1 hgrow hneed hover => exact Yields.failed _ _ _ (Or.inr rfl)
  | last B u dl ndl y heof hrec hne hm hdl hndl hlen hgrow hset =>
    exact Yields.last _ _ _ y heof hrec hne hm hdl hndl hlen
  | found B u dl ndl y ys p q so eo r hu hm heof hrec hlen hafter hdl hndl hgrow hset _ ih =>
    exact Yields.found _ _ _ y ys p q so eo hu hm heof hrec hlen hafter hdl hndl ih

/-- The last return value of `Scans` is 1 or the exit with status 2. -/
theorem Scans.ret {delim : DelimMatcher} {P : Prop} {B : Nat} {u : List Nat}
    {dl ndl : Nat} {ys : List Scan} {r : Ret} (h : Scans delim P B u dl ndl ys r) :
    r = .r1 ∨ r = .exit2 := by
  induction h with
  | done => exact Or.inl rfl
  | failed => exact Or.inl rfl
  | nomem => exact Or.inr rfl
  | last => exact Or.inl rfl
  | found B u dl ndl y ys p q so eo r hu hm heof hrec hlen hafter hdl hndl hgrow hset _ ih =>
    exact ih

/-- The buffer that is large enough for the next record does not have to
grow. -/
theorem settled_not_need {delim : DelimMatcher} (hst : DelimStable delim) {u : List Nat}
    {S : Nat} (hs : Settled delim u S) (hn : NeedGrow delim u S) : False := by
  obtain ⟨hle, hm⟩ := hn
  rcases hs with ⟨p, q, so, eo, hu, hp, hpl⟩ | hlt
  · have ht : u.take S = p ++ q.take (S - p.length) := by
      rw [hu, List.take_append_eq_append_take, List.take_of_length_le hpl]
    rw [ht, hst p _ so eo hp] at hm
    cases hm
  · omega

/-- The size at which the buffer is large enough is determined by the bytes. -/
theorem GrowsTo.settled_eq {delim : DelimMatcher} (hst : DelimStable delim) {u : List Nat}
    {B B1 : Nat} (h1 : GrowsTo delim u B B1) :
    ∀ {B2 : Nat}, GrowsTo delim u B B2 → Settled delim u B1 → Settled delim u B2 →
      B1 = B2 := by
  induction h1 with
  | refl B =>
    intro B2 h2 hs1 _
    cases h2 with
    | refl => rfl
    | step _ _ hneed _ _ => exact (settled_not_need hst hs1 hneed).elim
  | step B B1 hneed hfit _ ih =>
    intro B2 h2 hs1 hs2
    cases h2 with
    | refl => exact (settled_not_need hst hs2 hneed).elim
    | step _ _ _ _ h => exact ih h hs1 hs2

/-- The buffer does not both become large enough and have to grow beyond
`INT_MAX` bytes. -/
theorem GrowsTo.not_over {delim : DelimMatcher} (hst : DelimStable delim) {u : List Nat}
    {B B1 : Nat} (h1 : GrowsTo delim u B B1) :
    ∀ {B2 : Nat}, GrowsTo delim u B B2 → Settled delim u B1 → NeedGrow delim u B2 →
      INT_MAX < B2 * 2 → False := by
  induction h1 with
  | refl B =>
    intro B2 h2 hs1 hn2 _
    cases h2 with
    | refl => exact settled_not_need hst hs1 hn2
    | step _ _ hneed _ _ => exact settled_not_need hst hs1 hneed
  | step B B1 hneed hfit _ ih =>
    intro B2 h2 hs1 hn2 hover
    cases h2 with
    | refl => omega
    | step _ _ _ _ h => exact ih h hs1 hn2 hover

/-- Repeated calls come to an end within the stated number of calls, and the
records and the last return value are as `Scans` says. -/
theorem scan_all_end {delim : DelimMatcher} (hd : DelimOK delim) :
    ∀ (fuel : Nat) (s : Scan) (fd : Fd), s.Inv delim → s.at_eof = false →
      (unconsumed s fd).length + 2 ≤ fuel →
      ∃ ys r s1 fd1, scan_all delim fuel s fd = some (ys, r, s1, fd1) ∧
        s1.Inv delim ∧
        Scans delim (ReadStep.fail ∈ fd.sched) s.buf_size (unconsumed s fd) s.delim_len
          s.next_delim_len ys r := by
  intro fuel
  induction fuel with
  | zero => intro s fd _ _ hb; omega
  | succ fuel ih =>
    intro s fd h heof hb
    obtain ⟨r, s1, fd1, hc, hi1, hf1, he⟩ := call_end hd fd h heof
    cases he with
    | nomem _ _ B1 hgrow hneed hover =>
      exact ⟨[], .exit2, s1, fd1, by simp only [scan_all, hc], hi1,
        Scans.nomem _ _ _ _ B1 hgrow hneed hover⟩
    | ok _ _ _ hp hgrow hset =>
      cases hp with
      | found _ _ p q so eo hu hm heof1 hrec hlen hafter hdl hndl hrest hcur =>
        obtain ⟨hlt, hle⟩ := (hd p).2 so eo hm
        have hlen1 : (unconsumed s1 fd1).length + 2 ≤ fuel := by
          rw [hrest]; rw [hu] at hb; simp only [List.length_append, List.length_drop] at hb ⊢
          omega
        obtain ⟨ys, r2, s2, fd2, hsc, hi2, hy⟩ := ih s1 fd1 hi1 heof1 hlen1
        refine ⟨s1 :: ys, r2, s2, fd2, by simp only [scan_all, hc, hsc], hi2, ?_⟩
        rw [hrest] at hy
        exact Scans.found _ _ _ _ s1 ys p q so eo r2 hu hm heof1 hrec hlen hafter hdl hndl
          hgrow (hset rfl) (hy.weaken (hf1 _))
      | last _ _ heof1 hrec hne hm hrest hdl hndl hlen =>
        have hfuel : ∃ f, fuel = f + 1 := ⟨fuel - 1, by omega⟩
        obtain ⟨f, rfl⟩ := hfuel
        have hnext : tre_agrep_get_next_record delim s1 fd1 = some (.r1, s1, fd1) := by
          simp [tre_agrep_get_next_record, heof1]
        refine ⟨[s1], .r1, s1, fd1, by simp only [scan_all, hc, hnext], hi1, ?_⟩
        exact Scans.last _ _ _ _ s1 heof1 hrec hne hm hdl hndl hlen hgrow (hset rfl)
      | done _ _ heof1 hu =>
        exact ⟨[], .r1, s1, fd1, by simp only [scan_all, hc], hi1, Scans.done _ _ _ _ hu⟩
      | failed _ _ hfail heof1 =>
        exact ⟨[], .r1, s1, fd1, by simp only [scan_all, hc], hi1,
          Scans.failed _ _ _ _ hfail⟩

/-- The whole stream is scanned by `scan_stream`, up to its end or up to the
exit with status 2. -/
theorem scan_stream_end {delim : DelimMatcher} (hd : DelimOK delim) {s : Scan} (fd : Fd)
    (h : s.Inv delim) (heof : s.at_eof = false) :
    ∃ ys r s1 fd1, scan_stream delim s fd = some (ys, r, s1, fd1) ∧
      s1.Inv delim ∧
      Scans delim (ReadStep.fail ∈ fd.sched) s.buf_size (unconsumed s fd) s.delim_len
        s.next_delim_len ys r := by
  apply scan_all_end hd _ s fd h heof
  have := length_pending_le h
  simp only [unconsumed, scan_bound, List.length_append]
  omega

/-- When the bytes cannot force the buffer beyond `INT_MAX` bytes, repeated
calls reach the end of the stream within the stated number of calls, and the
records are as `Yields` says. -/
theorem scan_all_spec {delim : DelimMatcher} (hd : DelimOK delim) :
    ∀ (fuel : Nat) (s : Scan) (fd : Fd), s.Inv delim → s.at_eof = false →
      2 * (unconsumed s fd).length ≤ INT_MAX →
      (unconsumed s fd).length + 2 ≤ fuel →
      ∃ ys s1 fd1, scan_all delim fuel s fd = some (ys, .r1, s1, fd1) ∧
        s1.Inv delim ∧ (∃ k, s1.buf_size = s.buf_size * 2 ^ k) ∧
        Yields delim (ReadStep.fail ∈ fd.sched) (unconsumed s fd) s.delim_len
          s.next_delim_len ys := by
  intro fuel
  induction fuel with
  | zero => intro s fd _ _ _ hb; omega
  | succ fuel ih =>
    intro s fd h heof hfit hb
    obtain ⟨r, s1, fd1, hc, hi1, hf1, ⟨k1, hk1⟩, hp⟩ := call_spec hd fd h heof hfit
    cases hp with
    | found _ _ p q so eo hu hm heof1 hrec hlen hafter hdl hndl hrest hcur =>
      obtain ⟨hlt, hle⟩ := (hd p).2 so eo hm
      have hlen1 : (unconsumed s1 fd1).length + 2 ≤ fuel := by
        rw [hrest]; rw [hu] at hb; simp only [List.length_append, List.length_drop] at hb ⊢
        omega
      have hfit1 : 2 * (unconsumed s1 fd1).length ≤ INT_MAX := by
        rw [hrest]; rw [hu] at hfit
        simp only [List.length_append, List.length_drop] at hfit ⊢
        omega
      obtain ⟨ys, s2, fd2, hsc, hi2, ⟨k2, hk2⟩, hy⟩ := ih s1 fd1 hi1 heof1 hfit1 hlen1
      refine ⟨s1 :: ys, s2, fd2, by simp only [scan_all, hc, hsc], hi2,
        ⟨k1 + k2, by rw [hk2, hk1, pow_add, Nat.mul_assoc]⟩, ?_⟩
      rw [hrest] at hy
      exact Yields.found _ _ _ s1 ys p q so eo hu hm heof1 hrec hlen hafter hdl hndl
        (hy.mono (hf1 _))
    | last _ _ heof1 hrec hne hm hrest hdl hndl hlen =>
      have hfuel : ∃ f, fuel = f + 1 := ⟨fuel - 1, by omega⟩
      obtain ⟨f, rfl⟩ := hfuel
      have hnext : tre_agrep_get_next_record delim s1 fd1 = some (.r1, s1, fd1) := by
        simp [tre_agrep_get_next_record, heof1]
      refine ⟨[s1], s1, fd1, by simp only [scan_all, hc, hnext], hi1, ⟨k1, hk1⟩, ?_⟩
      exact Yields.last _ _ _ s1 heof1 hrec hne hm hdl hndl hlen
    | done _ _ heof1 hu =>
      exact ⟨[], s1, fd1, by simp only [scan_all, hc], hi1, ⟨k1, hk1⟩, Yields.done _ _ _ hu⟩
    | failed _ _ hfail heof1 =>
      exact ⟨[], s1, fd1, by simp only [scan_all, hc], hi1, ⟨k1, hk1⟩,
        Yields.failed _ _ _ hfail⟩

/-- The whole stream is scanned by `scan_stream` when its bytes cannot force
the buffer beyond `INT_MAX` bytes. -/
theorem scan_stream_spec {delim : DelimMatcher} (hd : DelimOK delim) {s : Scan} (fd : Fd)
    (h : s.Inv delim) (heof : s.at_eof = false)
    (hfit : 2 * (unconsumed s fd).length ≤ INT_MAX) :
    ∃ ys s1 fd1, scan_stream delim s fd = some (ys, .r1, s1, fd1) ∧
      s1.Inv delim ∧ (∃ k, s1.buf_size = s.buf_size * 2 ^ k) ∧
      Yields delim (ReadStep.fail ∈ fd.sched) (unconsumed s fd) s.delim_len
        s.next_delim_len ys := by
  apply scan_all_spec hd _ s fd h heof hfit
  have := length_pending_le h
  simp only [unconsumed, scan_bound, List.length_append]
  omega

/-- When no read fails, the records of `Yields`, each followed by its
delimiter, make up the bytes scanned. -/
theorem Yields.join_eq {delim : DelimMatcher} (hd : DelimOK delim) {P : Prop} (hP : ¬ P)
    {u : List Nat} {dl ndl : Nat} {ys : List Scan} (h : Yields delim P u dl ndl ys) :
    (ys.map (fun y => y.record_bytes ++ y.delim_after_bytes)).flatten = u := by
  induction h with
  | done u dl ndl hu => simp [hu]
  | failed u dl ndl hfail => exact absurd hfail hP
  | last u dl ndl y heof hrec hne hm hdl hndl hlen =>
    simp [Scan.delim_after_bytes, heof, hrec]
  | found u dl ndl y ys p q so eo hu hm heof hrec hlen hafter hdl hndl htail ih =>
    obtain ⟨hlt, hle⟩ := (hd p).2 so eo hm
    simp only [List.map_cons, List.flatten_cons, ih, hrec, hafter, hu]
    rw [← List.append_assoc]
    congr 1
    have h1 : List.take so p ++ List.take (eo - so) (List.drop so p) = List.take eo p := by
      rw [← List.drop_take]
      conv_rhs => rw [← List.take_append_drop so (List.take eo p)]
      rw [List.take_take, Nat.min_eq_left (by omega)]
    rw [h1, List.take_append_drop]

/-- A record of `Yields` that was ended by end of file is not empty. -/
theorem Yields.eof_nonempty {delim : DelimMatcher} {P : Prop} {u : List Nat} {dl ndl : Nat}
    {ys : List Scan} (h : Yields delim P u dl ndl ys) :
    ∀ y ∈ ys, y.at_eof = true → y.record_bytes ≠ [] := by
  induction h with
  | done => intro y hy; simp at hy
  | failed => intro y hy; simp at hy
  | last u dl ndl y heof hrec hne hm hdl hndl hlen =>
    intro z hz _
    simp at hz
    subst hz
    rw [hrec]; exact hne
  | found u dl ndl y ys p q so eo hu hm heof hrec hlen hafter hdl hndl htail ih =>
    intro z hz hzeof
    simp at hz
    rcases hz with rfl | hz
    · rw [heof] at hzeof; cases hzeof
    · exact ih z hz hzeof

theorem find_byte_lt {b : Nat} : ∀ {t : List Nat} {i : Nat}, find_byte b t = some i → i < t.length
  | [], _, h => by simp [find_byte] at h
  | x :: xs, i, h => by
    unfold find_byte at h
    by_cases hx : x = b
    · simp [hx] at h; subst h; simp
    · simp only [hx, ↓reduceIte, Option.map_eq_some'] at h
      obtain ⟨j, hj, rfl⟩ := h
      have := find_byte_lt hj
      simp; omega

theorem find_byte_append {b : Nat} : ∀ {t : List Nat} (u : List Nat) {i : Nat},
    find_byte b t = some i → find_byte b (t ++ u) = some i
  | [], _, _, h => by simp [find_byte] at h
  | x :: xs, u, i, h => by
    unfold find_byte at h
    simp only [List.cons_append, find_byte]
    by_cases hx : x = b
    · simpa [hx] using h
    · simp only [hx, ↓reduceIte, Option.map_eq_some'] at h ⊢
      obtain ⟨j, hj, rfl⟩ := h
      exact ⟨j, find_byte_append u hj, rfl⟩

/-- The default delimiter `"\n"` meets the assumptions on delimiters. -/
theorem newline_delim_ok : DelimOK newline_delim := by
  intro t
  unfold newline_delim
  cases h : find_byte 10 t with
  | none => simp
  | some i =>
    have := find_byte_lt h
    refine ⟨by simp, ?_⟩
    intro so eo heq
    simp only [RegExec.ok.injEq] at heq
    omega

/-- The default delimiter `"\n"` is stable under later bytes. -/
theorem newline_delim_stable : DelimStable newline_delim := by
  intro t u so eo h
  unfold newline_delim at h ⊢
  cases hf : find_byte 10 t with
  | none => simp [hf] at h
  | some i =>
    rw [hf] at h
    rw [find_byte_append u hf]
    exact h

theorem init_scan_inv {delim : DelimMatcher} (hd : DelimOK delim) {cap : Nat} (hcap : 0 < cap) :
    (init_scan cap).Inv delim :=
  ⟨hcap, by simp [init_scan], Nat.zero_le _, by intro nr h; simp [init_scan] at h,
    by intro _; simpa [init_scan, Scan.pending] using delimOK_nil hd⟩

theorem run_length_le (b : Nat) : ∀ t : List Nat, run_length b t ≤ t.length
  | [] => by simp [run_length]
  | x :: xs => by
    unfold run_length
    have := run_length_le b xs
    split <;> (simp; try omega)

theorem find_byte_drop {b : Nat} : ∀ {t : List Nat} {i : Nat}, find_byte b t = some i →
    ∃ r, t.drop i = b :: r
  | [], _, h => by simp [find_byte] at h
  | x :: xs, i, h => by
    unfold find_byte at h
    by_cases hx : x = b
    · simp [hx] at h; subst h; exact ⟨xs, by simp [hx]⟩
    · simp only [hx, ↓reduceIte, Option.map_eq_some'] at h
      obtain ⟨j, hj, rfl⟩ := h
      obtain ⟨r, hr⟩ := find_byte_drop hj
      exact ⟨r, by simpa using hr⟩

/-- The delimiter `"\n+"` meets the assumptions on delimiters. -/
theorem newlines_delim_ok : DelimOK newlines_delim := by
  intro t
  unfold newlines_delim
  cases h : find_byte 10 t with
  | none => simp
  | some i =>
    have hlt := find_byte_lt h
    obtain ⟨r, hr⟩ := find_byte_drop h
    have hle := run_length_le 10 (t.drop i)
    have hpos : 0 < run_length 10 (t.drop i) := by rw [hr]; simp [run_length]
    simp only [List.length_drop] at hle
    refine ⟨by simp, ?_⟩
    intro so eo heq
    simp only [RegExec.ok.injEq] at heq
    omega

/-- For a stable delimiter, the records yielded for given bytes do not depend
on how the bytes came into the buffer. -/
theorem Yields.view_unique {delim : DelimMatcher} (hd : DelimOK delim) (hst : DelimStable delim)
    {P Q : Prop} (hP : ¬ P) (hQ : ¬ Q)
    {u : List Nat} {dl ndl : Nat} {ys : List Scan} (h : Yields delim P u dl ndl ys) :
    ∀ {zs : List Scan}, Yields delim Q u dl ndl zs → ys.map Scan.view = zs.map Scan.view := by
  induction h with
  | done u dl ndl hu =>
    intro zs hz
    cases hz with
    | done _ _ _ _ => rfl
    | failed _ _ _ hfail => exact absurd hfail hQ
    | last _ _ _ z heof hrec hne _ _ _ _ => exact absurd hu hne
    | found _ _ _ z zs p q so eo hu2 hm _ _ _ _ _ _ _ =>
      have hp : p = [] := by
        rw [hu] at hu2
        exact (List.append_eq_nil.mp hu2.symm).1
      rw [hp, delimOK_nil hd] at hm
      cases hm
  | failed u dl ndl hfail => exact absurd hfail hP
  | last u dl ndl y heof hrec hne hm hdl hndl hlen =>
    intro zs hz
    cases hz with
    | done _ _ _ hu => exact absurd hu hne
    | failed _ _ _ hfail => exact absurd hfail hQ
    | last _ _ _ z heof2 hrec2 _ _ hdl2 hndl2 hlen2 =>
      simp [Scan.view, hrec, hrec2, hdl, hdl2, hndl, hndl2, hlen, hlen2]
    | found _ _ _ z zs p q so eo hu2 hm2 _ _ _ _ _ _ _ =>
      have := hst p q so eo hm2
      rw [← hu2, hm] at this
      cases this
  | found u dl ndl y ys p q so eo hu hm heof hrec hlen hafter hdl hndl htail ih =>
    intro zs hz
    have hfull := hst p q so eo hm
    rw [← hu] at hfull
    obtain ⟨_, hle⟩ := (hd p).2 so eo hm
    cases hz with
    | failed _ _ _ hfail => exact absurd hfail hQ
    | done _ _ _ hu2 =>
      rw [hu2, delimOK_nil hd] at hfull
      cases hfull
    | last _ _ _ z _ _ _ hm2 _ _ _ =>
      rw [hm2] at hfull
      cases hfull
    | found _ _ _ z zs p2 q2 so2 eo2 hu2 hm2 heof2 hrec2 hlen2 hafter2 hdl2 hndl2 htail2 =>
      have hfull2 := hst p2 q2 so2 eo2 hm2
      rw [← hu2, hfull] at hfull2
      simp only [RegExec.ok.injEq] at hfull2
      obtain ⟨rfl, rfl⟩ := hfull2
      obtain ⟨hlt2, hle2⟩ := (hd p2).2 so eo hm2
      have htake : p.take so = p2.take so := by
        have e1 : (p ++ q).take so = p.take so := List.take_append_of_le_length (by omega)
        have e2 : (p2 ++ q2).take so = p2.take so := List.take_append_of_le_length (by omega)
        rw [← e1, ← e2, ← hu, ← hu2]
      have hdrop : p.drop eo ++ q = p2.drop eo ++ q2 := by
        have e1 : (p ++ q).drop eo = p.drop eo ++ q := List.drop_append_of_le_length hle
        have e2 : (p2 ++ q2).drop eo = p2.drop eo ++ q2 := List.drop_append_of_le_length hle2
        rw [← e1, ← e2, ← hu, ← hu2]
      have hdl12 : y.delim_len = z.delim_len := by rw [hdl, hdl2]
      have hndl12 : y.next_delim_len = z.next_delim_len := by rw [hndl, hndl2]
      rw [← hdrop, ← hdl12, ← hndl12] at htail2
      have := ih htail2
      simp only [List.map_cons, this]
      congr 1
      simp [Scan.view, hrec, hrec2, htake, hlen, hlen2, hdl12, hndl12]

/-- For a stable delimiter, the records and the last return value of `Scans`
depend only on the bytes and on the size of the buffer at the start, not on
how the bytes came into the buffer. -/
theorem Scans.unique {delim : DelimMatcher} (hd : DelimOK delim) (hst : DelimStable delim)
    {P Q : Prop} (hP : ¬ P) (hQ : ¬ Q) {B : Nat}
    {u : List Nat} {dl ndl : Nat} {ys : List Scan} {r : Ret}
    (h : Scans delim P B u dl ndl ys r) :
    ∀ {zs : List Scan} {r2 : Ret}, Scans delim Q B u dl ndl zs r2 →
      r = r2 ∧ ys.map Scan.view = zs.map Scan.view := by
  induction h with
  | done B u dl ndl hu =>
    intro zs r2 hz
    cases hz with
    | done _ _ _ _ _ => exact ⟨rfl, rfl⟩
    | failed _ _ _ _ hfail => exact absurd hfail hQ
    | nomem _ _ _ _ B1 _ hneed hover =>
      have := hneed.1
      rw [hu] at this
      simp at this
      omega
    | last _ _ _ _ z heof hrec hne _ _ _ _ _ _ => exact absurd hu hne
    | found _ _ _ _ z zs p q so eo _ hu2 hm _ _ _ _ _ _ _ _ _ =>
      have hp : p = [] := by
        rw [hu] at hu2
        exact (List.append_eq_nil.mp hu2.symm).1
      rw [hp, delimOK_nil hd] at hm
      cases hm
  | failed B u dl ndl hfail => exact absurd hfail hP
  | nomem B u dl ndl B1 hgrow hneed hover =>
    intro zs r2 hz
    cases hz with
    | done _ _ _ _ hu =>
      have := hneed.1
      rw [hu] at this
      simp at this
      omega
    | failed _ _ _ _ hfail => exact absurd hfail hQ
    | nomem _ _ _ _ _ _ _ _ => exact ⟨rfl, rfl⟩
    | last _ _ _ _ z _ _ _ _ _ _ _ hgrow2 hset2 =>
      exact (GrowsTo.not_over hst hgrow2 hgrow hset2 hneed hover).elim
    | found _ _ _ _ z zs p q so eo _ _ _ _ _ _ _ _ _ hgrow2 hset2 _ =>
      exact (GrowsTo.not_over hst hgrow2 hgrow hset2 hneed hover).elim
  | last B u dl ndl y heof hrec hne hm hdl hndl hlen hgrow hset =>
    intro zs r2 hz
    cases hz with
    | done _ _ _ _ hu => exact absurd hu hne
    | failed _ _ _ _ hfail => exact absurd hfail hQ
    | nomem _ _ _ _ B1 hgrow2 hneed2 hover2 =>
      exact (GrowsTo.not_over hst hgrow hgrow2 hset hneed2 hover2).elim
    | last _ _ _ _ z heof2 hrec2 _ _ hdl2 hndl2 hlen2 _ _ =>
      refine ⟨rfl, ?_⟩
      simp [Scan.view, hrec, hrec2, hdl, hdl2, hndl, hndl2, hlen, hlen2]
    | found _ _ _ _ z zs p q so eo _ hu2 hm2 _ _ _ _ _ _ _ _ _ =>
      have := hst p q so eo hm2
      rw [← hu2, hm] at this
      cases this
  | found B u dl ndl y ys p q so eo r hu hm heof hrec hlen hafter hdl hndl hgrow hset htail ih =>
    intro zs r2 hz
    have hfull := hst p q so eo hm
    rw [← hu] at hfull
    obtain ⟨_, hle⟩ := (hd p).2 so eo hm
    cases hz with
    | failed _ _ _ _ hfail => exact absurd hfail hQ
    | done _ _ _ _ hu2 =>
      rw [hu2, delimOK_nil hd] at hfull
      cases hfull
    | nomem _ _ _ _ B1 hgrow2 hneed2 hover2 =>
      exact (GrowsTo.not_over hst hgrow hgrow2 hset hneed2 hover2).elim
    | last _ _ _ _ z _ _ _ hm2 _ _ _ _ _ =>
      rw [hm2] at hfull
      cases hfull
    | found _ _ _ _ z zs p2 q2 so2 eo2 _ hu2 hm2 heof2 hrec2 hlen2 hafter2 hdl2 hndl2 hgrow2
        hset2 htail2 =>
      have hfull2 := hst p2 q2 so2 eo2 hm2
      rw [← hu2, hfull] at hfull2
      simp only [RegExec.ok.injEq] at hfull2
      obtain ⟨rfl, rfl⟩ := hfull2
      obtain ⟨hlt2, hle2⟩ := (hd p2).2 so eo hm2
      have htake : p.take so = p2.take so := by
        have e1 : (p ++ q).take so = p.take so := List.take_append_of_le_length (by omega)
        have e2 : (p2 ++ q2).take so = p2.take so := List.take_append_of_le_length (by omega)
        rw [← e1, ← e2, ← hu, ← hu2]
      have hdrop : p.drop eo ++ q = p2.drop eo ++ q2 := by
        have e1 : (p ++ q).drop eo = p.drop eo ++ q := List.drop_append_of_le_length hle
        have e2 : (p2 ++ q2).drop eo = p2.drop eo ++ q2 := List.drop_append_of_le_length hle2
        rw [← e1, ← e2, ← hu, ← hu2]
      have hdl12 : y.delim_len = z.delim_len := by rw [hdl, hdl2]
      have hndl12 : y.next_delim_len = z.next_delim_len := by rw [hndl, hndl2]
      have hsz : y.buf_size = z.buf_size := GrowsTo.settled_eq hst hgrow hgrow2 hset hset2
      rw [← hdrop, ← hdl12, ← hndl12, ← hsz] at htail2
      obtain ⟨hr, hv⟩ := ih htail2
      refine ⟨hr, ?_⟩
      simp only [List.map_cons, hv]
      congr 1
      simp [Scan.view, hrec, hrec2, htake, hlen, hlen2, hdl12, hndl12]

/-- A buffer has to grow only while it is shorter than a prefix of the bytes
in which the delimiter is found. -/
theorem needGrow_lt_of_match {delim : DelimMatcher} (hst : DelimStable delim) {u p q : List Nat}
    {so eo : Nat} (hu : u = p ++ q) (hm : delim p = .ok so eo) {S : Nat}
    (hn : NeedGrow delim u S) : S < p.length := by
  by_contra hc
  exact settled_not_need hst (Or.inl ⟨p, q, so, eo, hu, hm, by omega⟩) hn

/-- When the delimiter is not found in some first bytes, it is not found in
fewer of them. -/
theorem prefix_nomatch {delim : DelimMatcher} (hd : DelimOK delim) (hst : DelimStable delim)
    {u : List Nat} {S n : Nat} (h : delim (u.take S) = .nomatch) (hn : n ≤ S) :
    delim (u.take n) = .nomatch := by
  rcases hm : delim (u.take n) with ⟨so, eo⟩ | _ | _
  · have e : u.take S = u.take n ++ (u.take S).drop n := by
      conv_lhs => rw [← List.take_append_drop n (u.take S)]
      rw [List.take_take, Nat.min_eq_left hn]
    rw [e, hst _ _ so eo hm] at h
    cases h
  · rfl
  · exact absurd hm (hd _).1

/-- The doublings of a buffer of `B` bytes up to `B * 2 ^ k` bytes, when the
delimiter is not found in the first `B * 2 ^ k` bytes. -/
theorem growsTo_doublings {delim : DelimMatcher} (hd : DelimOK delim) (hst : DelimStable delim)
    {u : List Nat} : ∀ (k B : Nat), B * 2 ^ k ≤ u.length → B * 2 ^ k ≤ INT_MAX →
      delim (u.take (B * 2 ^ k)) = .nomatch → GrowsTo delim u B (B * 2 ^ k) := by
  intro k
  induction k with
  | zero =>
    intro B _ _ _
    rw [pow_zero, Nat.mul_one]
    exact GrowsTo.refl B
  | succ k ih =>
    intro B hlen hfit hm
    have e : B * 2 ^ (k + 1) = B * 2 * 2 ^ k := by rw [pow_succ]; ring
    have hp : 0 < 2 ^ k := Nat.pow_pos (by decide)
    have h1 : B * 2 ≤ B * 2 * 2 ^ k := Nat.le_mul_of_pos_right _ hp
    rw [e] at hlen hfit hm ⊢
    refine GrowsTo.step _ _ ⟨by omega, prefix_nomatch hd hst hm (by omega)⟩ (by omega) ?_
    exact ih (B * 2) hlen hfit hm

/-- When the buffer has to grow beyond `INT_MAX` bytes, the call ends the
process. -/
theorem CallEnd.exit_at_limit {delim : DelimMatcher} (hst : DelimStable delim) {P : Prop}
    (hP : ¬ P) {u : List Nat} {dl ndl B : Nat} {r : Ret} {s1 : Scan} {fd1 : Fd}
    (h : CallEnd delim P u dl ndl B r s1 fd1) {B1 : Nat} (hg : GrowsTo delim u B B1)
    (hneed : NeedGrow delim u B1) (hover : INT_MAX < B1 * 2) : r = .exit2 := by
  cases h with
  | nomem _ _ _ _ _ _ => rfl
  | ok _ _ _ hp hgrow hset =>
    cases hp with
    | found _ _ p q so eo hu hm heof hrec hlen hafter hdl hndl hrest hcur =>
      exact (GrowsTo.not_over hst hgrow hg (hset rfl) hneed hover).elim
    | last _ _ heof hrec hne hm hrest hdl hndl hlen =>
      exact (GrowsTo.not_over hst hgrow hg (hset rfl) hneed hover).elim
    | done _ _ heof hu =>
      have := hneed.1
      rw [hu] at this
      simp at this
      omega
    | failed _ _ hfail _ => exact absurd hfail hP

/-- When the buffer has to grow beyond `INT_MAX` bytes for the first record,
no record is yielded and the process ends. -/
theorem Scans.exit_first {delim : DelimMatcher} (hst : DelimStable delim) {P : Prop}
    (hP : ¬ P) {u : List Nat} {dl ndl B : Nat} {ys : List Scan} {r : Ret}
    (h : Scans delim P B u dl ndl ys r) {B1 : Nat} (hg : GrowsTo delim u B B1)
    (hneed : NeedGrow delim u B1) (hover : INT_MAX < B1 * 2) : ys = [] ∧ r = .exit2 := by
  cases h with
  | nomem _ _ _ _ _ _ _ _ => exact ⟨rfl, rfl⟩
  | done _ _ _ _ hu =>
    have := hneed.1
    rw [hu] at this
    simp at this
    omega
  | failed _ _ _ _ hfail => exact absurd hfail hP
  | last _ _ _ _ y _ _ _ _ _ _ _ hgrow hset =>
    exact (GrowsTo.not_over hst hgrow hg hset hneed hover).elim
  | found _ _ _ _ y ys p q so eo _ _ _ _ _ _ _ _ _ hgrow hset _ =>
    exact (GrowsTo.not_over hst hgrow hg hset hneed hover).elim

/-- When the scan ends with the exit, the records yielded until then, each
followed by its delimiter, are followed in the bytes scanned by bytes `v`
for which the buffer, doubled `k` times to `S` bytes, has to grow beyond
`INT_MAX` bytes. -/
theorem Scans.exit_split {delim : DelimMatcher} (hd : DelimOK delim) {P : Prop} {B : Nat}
    {u : List Nat} {dl ndl : Nat} {ys : List Scan} {r : Ret}
    (h : Scans delim P B u dl ndl ys r) (hr : r = .exit2) :
    ∃ v S k, (ys.map (fun y => y.record_bytes ++ y.delim_after_bytes)).flatten ++ v = u ∧
      S = B * 2 ^ k ∧ S ≤ v.length ∧ delim (v.take S) = .nomatch ∧ INT_MAX < S * 2 := by
  induction h with
  | done B u dl ndl hu => cases hr
  | failed B u dl ndl hfail => cases hr
  | nomem B u dl ndl B1 hgrow hneed hover =>
    obtain ⟨k, hk⟩ := hgrow.pow
    exact ⟨u, B1, k, by simp, hk, hneed.1, hneed.2, hover⟩
  | last B u dl ndl y heof hrec hne hm hdl hndl hlen hgrow hset => cases hr
  | found B u dl ndl y ys p q so eo r hu hm heof hrec hlen hafter hdl hndl hgrow hset _ ih =>
    obtain ⟨v, S, k, hv, hS, hle, hnm, hover⟩ := ih hr
    obtain ⟨k1, hk1⟩ := hgrow.pow
    obtain ⟨hlt, hle2⟩ := (hd p).2 so eo hm
    refine ⟨v, S, k1 + k, ?_, by rw [hS, hk1, pow_add, Nat.mul_assoc], hle, hnm, hover⟩
    simp only [List.map_cons, List.flatten_cons, hrec, hafter, hu, List.append_assoc]
    rw [hv]
    rw [← List.append_assoc, ← List.append_assoc]
    congr 1
    have h1 : List.take so p ++ List.take (eo - so) (List.drop so p) = List.take eo p := by
      rw [← List.drop_take]
      conv_rhs => rw [← List.take_append_drop so (List.take eo p)]
      rw [List.take_take, Nat.min_eq_left (by omega)]
    rw [h1, List.take_append_drop]

theorem find_byte_replicate (n : Nat) : find_byte 10 (List.replicate n 97) = none := by
  induction n with
  | zero => rfl
  | succ n ih => simp [List.replicate_succ, find_byte, ih]

/-- The default delimiter is not found in bytes that are all `a`. -/
theorem newline_delim_replicate (n : Nat) : newline_delim (List.replicate n 97) = .nomatch := by
  simp [newline_delim, find_byte_replicate]

/-- A stream that starts with `n` bytes `a` makes a buffer of `B * 2 ^ k`
bytes, `B * 2 ^ k ≤ n`, full without a newline. -/
theorem replicate_doublings {n B k : Nat} (hn : B * 2 ^ k ≤ n) (hfit : B * 2 ^ k ≤ INT_MAX)
    (v : List Nat) :
    GrowsTo newline_delim (List.replicate n 97 ++ v) B (B * 2 ^ k) ∧
      NeedGrow newline_delim (List.replicate n 97 ++ v) (B * 2 ^ k) := by
  have hlen : B * 2 ^ k ≤ (List.replicate n 97 ++ v).length := by
    simp only [List.length_append, List.length_replicate]
    omega
  have hm : newline_delim ((List.replicate n 97 ++ v).take (B * 2 ^ k)) = .nomatch := by
    rw [List.take_append_of_le_length (by simpa using hn), List.take_replicate,
      newline_delim_replicate]
  exact ⟨growsTo_doublings newline_delim_ok newline_delim_stable k B hlen hfit hm, hlen, hm⟩

/-- A stream that starts with so many bytes `a` that the buffer, doubled `k`
times, is full of them and cannot be doubled again within `INT_MAX`: the
scan ends with the exit before any record is yielded. -/
theorem scan_long_exits (cap n k : Nat) (hcap : 0 < cap) (hn : cap * 2 ^ k ≤ n)
    (hfit : cap * 2 ^ k ≤ INT_MAX) (hover : INT_MAX < cap * 2 ^ k * 2) (v : List Nat)
    (sched : List ReadStep) (hs : ∀ st ∈ sched, st ≠ ReadStep.fail) :
    ∃ s1 fd1, scan_stream newline_delim (init_scan cap) ⟨List.replicate n 97 ++ v, sched⟩
      = some ([], .exit2, s1, fd1) := by
  obtain ⟨ys, r, s1, fd1, hsc, _, hy⟩ :=
    scan_stream_end newline_delim_ok ⟨List.replicate n 97 ++ v, sched⟩
      (init_scan_inv newline_delim_ok hcap) rfl
  have e : unconsumed (init_scan cap) ⟨List.replicate n 97 ++ v, sched⟩
      = List.replicate n 97 ++ v := by
    simp [unconsumed, Scan.pending, init_scan]
  rw [e] at hy
  obtain ⟨hg, hneed⟩ := replicate_doublings hn hfit v
  obtain ⟨rfl, rfl⟩ := hy.exit_first newline_delim_stable (fun hfail => hs _ hfail rfl)
    hg hneed hover
  exact ⟨s1, fd1, hsc⟩

/-- The same for one call of the scanner. -/
theorem call_long_exits (cap n k : Nat) (hcap : 0 < cap) (hn : cap * 2 ^ k ≤ n)
    (hfit : cap * 2 ^ k ≤ INT_MAX) (hover : INT_MAX < cap * 2 ^ k * 2) (v : List Nat)
    (sched : List ReadStep) (hs : ∀ st ∈ sched, st ≠ ReadStep.fail) :
    ∃ s1 fd1, tre_agrep_get_next_record newline_delim (init_scan cap)
        ⟨List.replicate n 97 ++ v, sched⟩ = some (.exit2, s1, fd1) := by
  obtain ⟨r, s1, fd1, hc, _, _, he⟩ :=
    call_end newline_delim_ok ⟨List.replicate n 97 ++ v, sched⟩
      (init_scan_inv newline_delim_ok hcap) rfl
  have e : unconsumed (init_scan cap) ⟨List.replicate n 97 ++ v, sched⟩
      = List.replicate n 97 ++ v := by
    simp [unconsumed, Scan.pending, init_scan]
  rw [e] at he
  obtain ⟨hg, hneed⟩ := replicate_doublings hn hfit v
  have hr := he.exit_at_limit newline_delim_stable (fun hfail => hs _ hfail rfl) hg hneed hover
  subst hr
  exact ⟨s1, fd1, hc⟩

theorem nil_flatten_ne (n : Nat) (v : List Nat) :
    (([] : List Scan).map (fun y => y.record_bytes ++ y.delim_after_bytes)).flatten
      ≠ List.replicate n 97 ++ 10 :: v := by
  intro h
  have := congrArg List.length h
  simp at this
  omega

theorem split_read_counterexample :
    DelimOK newlines_delim ∧
    (scan_stream newlines_delim (init_scan 4)
        ⟨[97, 10, 10, 98], [ReadStep.chunk 1, ReadStep.chunk 1, ReadStep.chunk 1,
          ReadStep.chunk 1]⟩).map (fun r => r.1.map Scan.view)
      = some [([97], 1, 0, 1), ([], 0, 1, 1), ([98], 1, 1, 1)] ∧
    (scan_stream newlines_delim (init_scan 4) ⟨[97, 10, 10, 98], []⟩).map
        (fun r => r.1.map Scan.view)
      = some [([97], 1, 0, 2), ([98], 1, 0, 2)] ∧
    (scan_stream newlines_delim (init_scan 4)
        ⟨[97, 10, 10, 98], [ReadStep.chunk 1, ReadStep.chunk 1, ReadStep.chunk 1,
          ReadStep.chunk 1]⟩).map (fun r => r.1.map Scan.view)
      ≠ (scan_stream newlines_delim (init_scan 4) ⟨[97, 10, 10, 98], []⟩).map
        (fun r => r.1.map Scan.view) :=
  ⟨newlines_delim_ok, by decide, by decide, by decide⟩

/-- C2 (split-read resilience), amended: for a delimiter matcher whose answer
on some bytes is not changed by bytes that arrive later (such as the default
newline), the scans of a stream come to an end for every delivery of the
stream by successive reads, and the sequence of records yielded, each with
its length and the delimiter lengths before and after it, and the way the
scan ends (end of stream, or the exit with status 2 when the buffer cannot
grow) are the same for every two deliveries; this holds for one buffer
capacity, and between two buffer capacities when twice the length of the
stream is within `INT_MAX`, in which case the scans reach end of stream. -/
theorem split_read_resilience (delim : DelimMatcher) (hd : DelimOK delim)
    (hst : DelimStable delim) (cap1 cap2 : Nat) (hc1 : 0 < cap1) (hc2 : 0 < cap2)
    (stream : List Nat) (sched1 sched2 : List ReadStep)
    (hs1 : ∀ st ∈ sched1, st ≠ ReadStep.fail) (hs2 : ∀ st ∈ sched2, st ≠ ReadStep.fail) :
    ∃ ys1 ra e1 ys2 rb e2,
      scan_stream delim (init_scan cap1) ⟨stream, sched1⟩ = some (ys1, ra, e1) ∧
      scan_stream delim (init_scan cap2) ⟨stream, sched2⟩ = some (ys2, rb, e2) ∧
      (cap1 = cap2 ∨ 2 * stream.length ≤ INT_MAX →
        ra = rb ∧ ys1.map Scan.view = ys2.map Scan.view) ∧
      (2 * stream.length ≤ INT_MAX → ra = .r1 ∧ rb = .r1) := by
  obtain ⟨ys1, ra, s1, fd1, hsc1, _, hy1⟩ :=
    scan_stream_end hd ⟨stream, sched1⟩ (init_scan_inv hd hc1) rfl
  obtain ⟨ys2, rb, s2, fd2, hsc2, _, hy2⟩ :=
    scan_stream_end hd ⟨stream, sched2⟩ (init_scan_inv hd hc2) rfl
  have e1 : unconsumed (init_scan cap1) ⟨stream, sched1⟩ = stream := by
    simp [unconsumed, Scan.pending, init_scan]
  have e2 : unconsumed (init_scan cap2) ⟨stream, sched2⟩ = stream := by
    simp [unconsumed, Scan.pending, init_scan]
  have eb1 : (init_scan cap1).buf_size = cap1 := rfl
  have eb2 : (init_scan cap2).buf_size = cap2 := rfl
  rw [e1, eb1] at hy1
  rw [e2, eb2] at hy2
  have hnf1 : ¬ ReadStep.fail ∈ sched1 := fun hfail => hs1 _ hfail rfl
  have hnf2 : ¬ ReadStep.fail ∈ sched2 := fun hfail => hs2 _ hfail rfl
  have hfit : ∀ {cap : Nat} {P : Prop} {ys : List Scan} {r : Ret},
      Scans delim P cap stream 0 0 ys r → 2 * stream.length ≤ INT_MAX → r = .r1 := by
    intro cap P ys r hy hle
    rcases hy.ret with hr | hr
    · exact hr
    · obtain ⟨v, S, k, hv, _, hlen, _, hover⟩ := hy.exit_split hd hr
      have := congrArg List.length hv
      simp only [List.length_append] at this
      omega
  refine ⟨ys1, ra, (s1, fd1), ys2, rb, (s2, fd2), hsc1, hsc2, ?_, ?_⟩
  · rintro (hcap | hle)
    · subst hcap
      exact hy1.unique hd hst hnf1 hnf2 hy2
    · have hr1 := hfit hy1 hle
      have hr2 := hfit hy2 hle
      refine ⟨by rw [hr1, hr2], ?_⟩
      refine hy1.yields.view_unique hd hst ?_ ?_ hy2.yields
      · rintro (hp | he)
        · exact hnf1 hp
        · rw [hr1] at he; cases he
      · rintro (hp | he)
        · exact hnf2 hp
        · rw [hr2] at he; cases he
  · intro hle
    exact ⟨hfit hy1 hle, hfit hy2 hle⟩

theorem split_read_resilience_witness :
    DelimOK newline_delim ∧ DelimStable newline_delim ∧ 0 < 4 ∧ 0 < 16 ∧
    (∀ st ∈ [ReadStep.chunk 1, ReadStep.chunk 1, ReadStep.chunk 1], st ≠ ReadStep.fail) ∧
    (∀ st ∈ ([] : List ReadStep), st ≠ ReadStep.fail) ∧
    ∃ ys1 ra e1 ys2 rb e2,
      scan_stream newline_delim (init_scan 4)
        ⟨[97, 10, 98], [ReadStep.chunk 1, ReadStep.chunk 1, ReadStep.chunk 1]⟩
        = some (ys1, ra, e1) ∧
      scan_stream newline_delim (init_scan 16) ⟨[97, 10, 98], []⟩ = some (ys2, rb, e2) ∧
      (4 = 16 ∨ 2 * [97, 10, 98].length ≤ INT_MAX →
        ra = rb ∧ ys1.map Scan.view = ys2.map Scan.view) ∧
      (2 * [97, 10, 98].length ≤ INT_MAX → ra = .r1 ∧ rb = .r1) :=
  ⟨newline_delim_ok, newline_delim_stable, by decide, by decide, by decide, by decide,
    split_read_resilience newline_delim newline_delim_ok newline_delim_stable 4 16
      (by decide) (by decide) [97, 10, 98]
      [ReadStep.chunk 1, ReadStep.chunk 1, ReadStep.chunk 1] [] (by decide) (by decide)⟩

theorem inv_set_record {delim : DelimMatcher} {s : Scan} (h : s.Inv delim) (a b : Nat) :
    ({ s with record := a, record_len := b } : Scan).Inv delim :=
  ⟨h.size_pos, h.buf_len, h.data_le, h.cursor_le, h.searched⟩

theorem set_ceiling_fields (r : Run) :
    (set_ceiling r).scan = r.scan ∧ (set_ceiling r).best_match = r.best_match ∧
      (set_ceiling r).best_cost = r.best_cost ∧ (set_ceiling r).have_matches = r.have_matches ∧
      (set_ceiling r).prev_filename = r.prev_filename ∧ (set_ceiling r).out = r.out ∧
      (set_ceiling r).err = r.err ∧
      (set_ceiling r).max_cost = (if r.best_match ≠ 0 then r.best_cost else r.max_cost) := by
  unfold set_ceiling
  split <;> exact ⟨rfl, rfl, rfl, rfl, rfl, rfl, rfl, rfl⟩

theorem render_fields {o : Opts} {preg : PatMatcher} {filename : String} {recnum cost : Nat}
    {pm : Nat × Nat} {r r1 : Run} (h : render o preg filename recnum cost pm r = some r1) :
    (∃ a b, r1.scan = { r.scan with record := a, record_len := b }) ∧
      r1.best_match = r.best_match ∧ r1.best_cost = r.best_cost ∧ r1.max_cost = r.max_cost ∧
      r1.have_matches = r.have_matches ∧ r1.err = r.err := by
  unfold render at h
  simp only at h
  have hsc : ∀ (pmv : Nat × Nat), ∃ a b,
      (if o.delim_after ≠ 0 then
        (({ r.scan with record_len := r.scan.record_len + r.scan.next_delim_len } : Scan),
          pmv.1, pmv.2)
      else if r.scan.delim_len ≤ r.scan.record then
        (({ r.scan with record := r.scan.record - r.scan.delim_len,
                        record_len := r.scan.record_len + r.scan.delim_len } : Scan),
          pmv.1 + r.scan.delim_len, pmv.2 + r.scan.delim_len)
      else (r.scan, pmv.1, pmv.2)).1 = { r.scan with record := a, record_len := b } := by
    intro pmv
    split
    · exact ⟨_, _, rfl⟩
    · split
      · exact ⟨_, _, rfl⟩
      · exact ⟨_, _, rfl⟩
  split at h
  · split at h
    · cases h
    · simp only [Option.some.injEq] at h
      subst h
      exact ⟨hsc pm, rfl, rfl, rfl, rfl, rfl⟩
  · simp only [Option.some.injEq] at h
    subst h
    exact ⟨hsc pm, rfl, rfl, rfl, rfl, rfl⟩

/-! Equations of `handle_record`, one for each way through the loop body. -/

theorem handle_record_brk (o : Opts) (preg : PatMatcher) (filename : String)
    (recnum count : Nat) (r : Run)
    (hB : (set_ceiling r).best_match = 1 ∧ (set_ceiling r).best_cost = 0) :
    handle_record o preg filename recnum count r = some (.brk, count, set_ceiling r) := by
  unfold handle_record
  simp only []
  rw [if_pos hB]

theorem handle_record_skip (o : Opts) (preg : PatMatcher) (filename : String)
    (recnum count : Nat) (r : Run)
    (hB : ¬ ((set_ceiling r).best_match = 1 ∧ (set_ceiling r).best_cost = 0))
    (hQ : qualifies o preg (set_ceiling r).max_cost (set_ceiling r).scan.record_bytes = false) :
    handle_record o preg filename recnum count r = some (.next, count, set_ceiling r) := by
  unfold handle_record
  simp only []
  rw [if_neg hB, if_pos hQ]

theorem handle_record_silent (o : Opts) (preg : PatMatcher) (filename : String)
    (recnum count : Nat) (r : Run)
    (hB : ¬ ((set_ceiling r).best_match = 1 ∧ (set_ceiling r).best_cost = 0))
    (hQ : qualifies o preg (set_ceiling r).max_cost (set_ceiling r).scan.record_bytes = true)
    (hs : o.be_silent = true) :
    handle_record o preg filename recnum count r = some (.exit 0, count, set_ceiling r) := by
  unfold handle_record
  simp only []
  rw [if_neg hB, if_neg (by rw [hQ]; decide), if_pos hs]

theorem handle_record_pass1 (o : Opts) (preg : PatMatcher) (filename : String)
    (recnum count : Nat) (r : Run)
    (hB : ¬ ((set_ceiling r).best_match = 1 ∧ (set_ceiling r).best_cost = 0))
    (hQ : qualifies o preg (set_ceiling r).max_cost (set_ceiling r).scan.record_bytes = true)
    (hs : o.be_silent = false) (h1 : (set_ceiling r).best_match = 1) :
    handle_record o preg filename recnum count r = some (.next, count + 1,
      if (preg (set_ceiling r).max_cost (set_ceiling r).scan.record_bytes).cost
          < (set_ceiling r).best_cost then
        { set_ceiling r with have_matches := true, best_cost := (preg (set_ceiling r).max_cost (set_ceiling r).scan.record_bytes).cost }
      else { set_ceiling r with have_matches := true }) := by
  unfold handle_record
  simp only []
  rw [if_neg hB, if_neg (by rw [hQ]; decide), if_neg (by rw [hs]; decide), if_pos h1]

theorem handle_record_worse (o : Opts) (preg : PatMatcher) (filename : String)
    (recnum count : Nat) (r : Run)
    (hB : ¬ ((set_ceiling r).best_match = 1 ∧ (set_ceiling r).best_cost = 0))
    (hQ : qualifies o preg (set_ceiling r).max_cost (set_ceiling r).scan.record_bytes = true)
    (hs : o.be_silent = false) (h1 : ¬ (set_ceiling r).best_match = 1)
    (hw : (set_ceiling r).best_match ≠ 0 ∧
      (preg (set_ceiling r).max_cost (set_ceiling r).scan.record_bytes).cost
        > (set_ceiling r).best_cost) :
    handle_record o preg filename recnum count r
      = some (.next, count + 1, { set_ceiling r with have_matches := true }) := by
  unfold handle_record
  simp only []
  rw [if_neg hB, if_neg (by rw [hQ]; decide), if_neg (by rw [hs]; decide), if_neg h1, if_pos hw]

theorem handle_record_list (o : Opts) (preg : PatMatcher) (filename : String)
    (recnum count : Nat) (r : Run)
    (hB : ¬ ((set_ceiling r).best_match = 1 ∧ (set_ceiling r).best_cost = 0))
    (hQ : qualifies o preg (set_ceiling r).max_cost (set_ceiling r).scan.record_bytes = true)
    (hs : o.be_silent = false) (h1 : ¬ (set_ceiling r).best_match = 1)
    (hw : ¬ ((set_ceiling r).best_match ≠ 0 ∧
      (preg (set_ceiling r).max_cost (set_ceiling r).scan.record_bytes).cost
        > (set_ceiling r).best_cost))
    (hl : o.list_files = true) :
    handle_record o preg filename recnum count r
      = some (.brk, count + 1, { set_ceiling r with have_matches := true, out := (set_ceiling r).out ++ [Out.text (filename ++ "\n")] }) := by
  unfold handle_record
  simp only []
  rw [if_neg hB, if_neg (by rw [hQ]; decide), if_neg (by rw [hs]; decide), if_neg h1, if_neg hw,
    if_pos hl]

theorem handle_record_render (o : Opts) (preg : PatMatcher) (filename : String)
    (recnum count : Nat) (r : Run)
    (hB : ¬ ((set_ceiling r).best_match = 1 ∧ (set_ceiling r).best_cost = 0))
    (hQ : qualifies o preg (set_ceiling r).max_cost (set_ceiling r).scan.record_bytes = true)
    (hs : o.be_silent = false) (h1 : ¬ (set_ceiling r).best_match = 1)
    (hw : ¬ ((set_ceiling r).best_match ≠ 0 ∧
      (preg (set_ceiling r).max_cost (set_ceiling r).scan.record_bytes).cost
        > (set_ceiling r).best_cost))
    (hl : o.list_files = false) (hc : o.count_matches = false) :
    handle_record o preg filename recnum count r
      = (render o preg filename recnum
          (preg (set_ceiling r).max_cost (set_ceiling r).scan.record_bytes).cost
          (if o.color_option || o.print_position then
            (preg (set_ceiling r).max_cost (set_ceiling r).scan.record_bytes).span else (0, 0))
          { set_ceiling r with have_matches := true }).map
        (fun r3 => (.next, count + 1, r3)) := by
  unfold handle_record
  simp only []
  rw [if_neg hB, if_neg (by rw [hQ]; decide), if_neg (by rw [hs]; decide), if_neg h1, if_neg hw,
    if_neg (by rw [hl]; decide), if_pos hc]

theorem handle_record_count (o : Opts) (preg : PatMatcher) (filename : String)
    (recnum count : Nat) (r : Run)
    (hB : ¬ ((set_ceiling r).best_match = 1 ∧ (set_ceiling r).best_cost = 0))
    (hQ : qualifies o preg (set_ceiling r).max_cost (set_ceiling r).scan.record_bytes = true)
    (hs : o.be_silent = false) (h1 : ¬ (set_ceiling r).best_match = 1)
    (hw : ¬ ((set_ceiling r).best_match ≠ 0 ∧
      (preg (set_ceiling r).max_cost (set_ceiling r).scan.record_bytes).cost
        > (set_ceiling r).best_cost))
    (hl : o.list_files = false) (hc : o.count_matches = true) :
    handle_record o preg filename recnum count r
      = some (.next, count + 1, { set_ceiling r with have_matches := true }) := by
  unfold handle_record
  simp only []
  rw [if_neg hB, if_neg (by rw [hQ]; decide), if_neg (by rw [hs]; decide), if_neg h1, if_neg hw,
    if_neg (by rw [hl]; decide), if_neg (by rw [hc]; decide)]

/-- Case analysis of the loop body: a property of its result holds when it
holds on each way through the body. -/
theorem handle_record_cases (o : Opts) (preg : PatMatcher) (filename : String)
    (recnum count : Nat) (r : Run) (P : Option (Ctl × Nat × Run) → Prop)
    (h_brk : (set_ceiling r).best_match = 1 → (set_ceiling r).best_cost = 0 →
      P (some (.brk, count, set_ceiling r)))
    (h_skip : ¬ ((set_ceiling r).best_match = 1 ∧ (set_ceiling r).best_cost = 0) →
      qualifies o preg (set_ceiling r).max_cost (set_ceiling r).scan.record_bytes = false →
      P (some (.next, count, set_ceiling r)))
    (h_silent : ¬ ((set_ceiling r).best_match = 1 ∧ (set_ceiling r).best_cost = 0) →
      qualifies o preg (set_ceiling r).max_cost (set_ceiling r).scan.record_bytes = true →
      o.be_silent = true → P (some (.exit 0, count, set_ceiling r)))
    (h_pass1 : ¬ ((set_ceiling r).best_match = 1 ∧ (set_ceiling r).best_cost = 0) →
      qualifies o preg (set_ceiling r).max_cost (set_ceiling r).scan.record_bytes = true →
      o.be_silent = false → (set_ceiling r).best_match = 1 →
      P (some (.next, count + 1,
        if (preg (set_ceiling r).max_cost (set_ceiling r).scan.record_bytes).cost
            < (set_ceiling r).best_cost then
          { set_ceiling r with have_matches := true, best_cost := (preg (set_ceiling r).max_cost (set_ceiling r).scan.record_bytes).cost }
        else { set_ceiling r with have_matches := true })))
    (h_worse : qualifies o preg (set_ceiling r).max_cost (set_ceiling r).scan.record_bytes = true →
      o.be_silent = false → ¬ (set_ceiling r).best_match = 1 →
      (set_ceiling r).best_match ≠ 0 →
      (preg (set_ceiling r).max_cost (set_ceiling r).scan.record_bytes).cost
        > (set_ceiling r).best_cost →
      P (some (.next, count + 1, { set_ceiling r with have_matches := true })))
    (h_list : qualifies o preg (set_ceiling r).max_cost (set_ceiling r).scan.record_bytes = true →
      o.be_silent = false → ¬ (set_ceiling r).best_match = 1 →
      ¬ ((set_ceiling r).best_match ≠ 0 ∧
        (preg (set_ceiling r).max_cost (set_ceiling r).scan.record_bytes).cost
          > (set_ceiling r).best_cost) →
      o.list_files = true →
      P (some (.brk, count + 1, { set_ceiling r with have_matches := true, out := (set_ceiling r).out ++ [Out.text (filename ++ "\n")] })))
    (h_render : qualifies o preg (set_ceiling r).max_cost (set_ceiling r).scan.record_bytes = true →
      o.be_silent = false → ¬ (set_ceiling r).best_match = 1 →
      ¬ ((set_ceiling r).best_match ≠ 0 ∧
        (preg (set_ceiling r).max_cost (set_ceiling r).scan.record_bytes).cost
          > (set_ceiling r).best_cost) →
      o.list_files = false → o.count_matches = false →
      P ((render o preg filename recnum
          (preg (set_ceiling r).max_cost (set_ceiling r).scan.record_bytes).cost
          (if o.color_option || o.print_position then
            (preg (set_ceiling r).max_cost (set_ceiling r).scan.record_bytes).span else (0, 0))
          { set_ceiling r with have_matches := true }).map
        (fun r3 => (.next, count + 1, r3))))
    (h_count : qualifies o preg (set_ceiling r).max_cost (set_ceiling r).scan.record_bytes = true →
      o.be_silent = false → ¬ (set_ceiling r).best_match = 1 →
      ¬ ((set_ceiling r).best_match ≠ 0 ∧
        (preg (set_ceiling r).max_cost (set_ceiling r).scan.record_bytes).cost
          > (set_ceiling r).best_cost) →
      o.list_files = false → o.count_matches = true →
      P (some (.next, count + 1, { set_ceiling r with have_matches := true }))) :
    P (handle_record o preg filename recnum count r) := by
  by_cases hB : (set_ceiling r).best_match = 1 ∧ (set_ceiling r).best_cost = 0
  · rw [handle_record_brk o preg filename recnum count r hB]
    exact h_brk hB.1 hB.2
  cases hQ : qualifies o preg (set_ceiling r).max_cost (set_ceiling r).scan.record_bytes with
  | false =>
    rw [handle_record_skip o preg filename recnum count r hB hQ]
    exact h_skip hB hQ
  | true =>
    cases hs : o.be_silent with
    | true =>
      rw [handle_record_silent o preg filename recnum count r hB hQ hs]
      exact h_silent hB hQ hs
    | false =>
      by_cases h1 : (set_ceiling r).best_match = 1
      · rw [handle_record_pass1 o preg filename recnum count r hB hQ hs h1]
        exact h_pass1 hB hQ hs h1
      by_cases hw : (set_ceiling r).best_match ≠ 0 ∧
          (preg (set_ceiling r).max_cost (set_ceiling r).scan.record_bytes).cost
            > (set_ceiling r).best_cost
      · rw [handle_record_worse o preg filename recnum count r hB hQ hs h1 hw]
        exact h_worse hQ hs h1 hw.1 hw.2
      cases hl : o.list_files with
      | true =>
        rw [handle_record_list o preg filename recnum count r hB hQ hs h1 hw hl]
        exact h_list hQ hs h1 hw hl
      | false =>
        cases hc : o.count_matches with
        | false =>
          rw [handle_record_render o preg filename recnum count r hB hQ hs h1 hw hl hc]
          exact h_render hQ hs h1 hw hl hc
        | true =>
          rw [handle_record_count o preg filename recnum count r hB hQ hs h1 hw hl hc]
          exact h_count hQ hs h1 hw hl hc

/-- The loop body changes the static variables of the scanner only in `record`
and `record_len`, and never changes `best_match`. -/
theorem handle_record_keeps {o : Opts} {preg : PatMatcher} {filename : String}
    {recnum count : Nat} {r : Run} {ctl : Ctl} {c1 : Nat} {r1 : Run}
    (h : handle_record o preg filename recnum count r = some (ctl, c1, r1)) :
    (∃ a b, r1.scan = { r.scan with record := a, record_len := b }) ∧
      r1.best_match = r.best_match ∧ r1.err = r.err := by
  obtain ⟨f1, f2, f3, f4, f5, f6, f7, f8⟩ := set_ceiling_fields r
  have base : ∀ x : Run, x.scan = r.scan → x.best_match = r.best_match → x.err = r.err →
      ∀ (ct : Ctl) (c : Nat), some (ct, c, x) = some (ctl, c1, r1) →
      (∃ a b, r1.scan = { r.scan with record := a, record_len := b }) ∧
        r1.best_match = r.best_match ∧ r1.err = r.err := by
    intro x hx hb he ct c heq
    simp only [Option.some.injEq, Prod.mk.injEq] at heq
    rw [← heq.2.2]
    exact ⟨⟨r.scan.record, r.scan.record_len, by rw [hx]⟩, hb, he⟩
  revert h
  apply handle_record_cases o preg filename recnum count r
    (fun x => x = some (ctl, c1, r1) →
      (∃ a b, r1.scan = { r.scan with record := a, record_len := b }) ∧
        r1.best_match = r.best_match ∧ r1.err = r.err)
  · intro _ _ h; exact base _ f1 f2 f7 _ _ h
  · intro _ _ h; exact base _ f1 f2 f7 _ _ h
  · intro _ _ _ h; exact base _ f1 f2 f7 _ _ h
  · intro _ _ _ _ h
    refine base _ ?_ ?_ ?_ _ _ h
    · split <;> exact f1
    · split <;> exact f2
    · split <;> exact f7
  · intro _ _ _ _ _ h; exact base _ (by exact f1) (by exact f2) (by exact f7) _ _ h
  · intro _ _ _ _ _ h; exact base _ (by exact f1) (by exact f2) (by exact f7) _ _ h
  · intro _ _ _ _ _ _ h
    simp only [Option.map_eq_some'] at h
    obtain ⟨r3, hr3, heq⟩ := h
    simp only [Prod.mk.injEq] at heq
    obtain ⟨⟨a, b, hab⟩, g2, _, _, _, g6⟩ := render_fields hr3
    rw [← heq.2.2]
    refine ⟨⟨a, b, ?_⟩, ?_, ?_⟩
    · rw [hab]; simp only; rw [f1]
    · rw [g2]; exact f2
    · rw [g6]; exact f7
  · intro _ _ _ _ _ _ h; exact base _ (by exact f1) (by exact f2) (by exact f7) _ _ h

theorem handle_record_scan {o : Opts} {preg : PatMatcher} {filename : String}
    {recnum count : Nat} {r : Run} {ctl : Ctl} {c1 : Nat} {r1 : Run}
    (h : handle_record o preg filename recnum count r = some (ctl, c1, r1)) :
    ∃ a b, r1.scan = { r.scan with record := a, record_len := b } :=
  (handle_record_keeps h).1

theorem handle_record_best_match {o : Opts} {preg : PatMatcher} {filename : String}
    {recnum count : Nat} {r : Run} {ctl : Ctl} {c1 : Nat} {r1 : Run}
    (h : handle_record o preg filename recnum count r = some (ctl, c1, r1)) :
    r1.best_match = r.best_match :=
  (handle_record_keeps h).2.1

theorem with_scan_eq {r r1 : Run} (h : r.noscan = r1.noscan) (y : Scan) :
    ({ r with scan := y } : Run) = { r1 with scan := y } := by
  cases r; cases r1
  simp only [Run.noscan, Run.mk.injEq, true_and] at h ⊢
  exact h

theorem yields_exists {delim : DelimMatcher} (hd : DelimOK delim) {s : Scan} (fd : Fd)
    (h : s.Inv delim) (heof : s.at_eof = false)
    (hfit : 2 * (unconsumed s fd).length ≤ INT_MAX) :
    ∃ ys, Yields delim (ReadStep.fail ∈ fd.sched) (unconsumed s fd) s.delim_len
      s.next_delim_len ys := by
  obtain ⟨ys, _, _, _, _, _, hy⟩ := scan_all_spec hd _ s fd h heof hfit (Nat.le_refl _)
  exact ⟨ys, hy⟩

theorem noscan_with_scan (r : Run) (s : Scan) : ({ r with scan := s } : Run).noscan = r.noscan :=
  rfl

/-- When the bytes cannot force the buffer beyond `INT_MAX` bytes, the record
loop of `tre_agrep_handle_file` is the loop body run on the records that the
scanner yields: records as `Yields` says, the same result up to the
static variables of the scanner, and no result for the one when there is
none for the other. -/
theorem record_loop_fold {delim : DelimMatcher} (hd : DelimOK delim) (o : Opts)
    (preg : PatMatcher) (filename : String) :
    ∀ (fuel : Nat) (r r' : Run) (fd : Fd) (recnum count : Nat),
      r.scan.Inv delim → r.scan.at_eof = false →
      2 * (unconsumed r.scan fd).length ≤ INT_MAX →
      (unconsumed r.scan fd).length + 2 ≤ fuel →
      r.noscan = r'.noscan →
      ∃ ys, Yields delim (ReadStep.fail ∈ fd.sched) (unconsumed r.scan fd) r.scan.delim_len
          r.scan.next_delim_len ys ∧
        ((fold_records o preg filename ys recnum count r' = none ∧
            record_loop o delim preg filename fuel recnum count r fd = none) ∨
          ∃ ex c rf rl, fold_records o preg filename ys recnum count r' = some (ex, c, rf) ∧
            record_loop o delim preg filename fuel recnum count r fd = some (ex, c, rl) ∧
            rl.noscan = rf.noscan ∧ rl.scan.Inv delim) := by
  intro fuel
  induction fuel with
  | zero => intro r r' fd _ _ _ _ _ hb; omega
  | succ fuel ih =>
    intro r r' fd recnum count h heof hfit hb hns
    obtain ⟨ret, s1, fd1, hc, hi1, hf1, _, hp⟩ := call_spec hd fd h heof hfit
    have hw := with_scan_eq hns s1
    cases hp with
    | found _ _ p q so eo hu hm heof1 hrec hlen hafter hdl hndl hrest hcur =>
      obtain ⟨hlt, hle⟩ := (hd p).2 so eo hm
      have hlen1 : (unconsumed s1 fd1).length + 2 ≤ fuel := by
        rw [hrest]; rw [hu] at hb; simp only [List.length_append, List.length_drop] at hb ⊢
        omega
      have hfit1 : 2 * (unconsumed s1 fd1).length ≤ INT_MAX := by
        rw [hrest]; rw [hu] at hfit
        simp only [List.length_append, List.length_drop] at hfit ⊢
        omega
      have mk : ∀ ys, Yields delim (ReadStep.fail ∈ fd1.sched) (unconsumed s1 fd1) s1.delim_len
          s1.next_delim_len ys →
          Yields delim (ReadStep.fail ∈ fd.sched) (unconsumed r.scan fd) r.scan.delim_len
            r.scan.next_delim_len (s1 :: ys) := by
        intro ys hy
        rw [hrest] at hy
        exact Yields.found _ _ _ s1 ys p q so eo hu hm heof1 hrec hlen hafter hdl hndl
          (hy.mono (hf1 _))
      cases hh : handle_record o preg filename (recnum + 1) count { r with scan := s1 } with
      | none =>
        obtain ⟨ys, hy⟩ := yields_exists hd fd1 hi1 heof1 hfit1
        refine ⟨s1 :: ys, mk ys hy, Or.inl ⟨?_, ?_⟩⟩
        · rw [hw] at hh
          simp only [fold_records, hh]
        · simp only [record_loop, hc, hh]
      | some res =>
        obtain ⟨ctl, c1, r1⟩ := res
        obtain ⟨a, b, hab⟩ := handle_record_scan hh
        simp only at hab
        have hi2 : r1.scan.Inv delim := by rw [hab]; exact inv_set_record hi1 a b
        have hun : unconsumed r1.scan fd1 = unconsumed s1 fd1 := by rw [hab]; rfl
        cases ctl with
        | next =>
          obtain ⟨ys, hy, hres⟩ := ih r1 r1 fd1 (recnum + 1) c1 hi2 (by rw [hab]; exact heof1)
            (by rw [hun]; exact hfit1) (by rw [hun]; exact hlen1) rfl
          rw [hun] at hy
          have hy' : Yields delim (ReadStep.fail ∈ fd1.sched) (unconsumed s1 fd1) s1.delim_len
              s1.next_delim_len ys := by
            have e1 : r1.scan.delim_len = s1.delim_len := by rw [hab]
            have e2 : r1.scan.next_delim_len = s1.next_delim_len := by rw [hab]
            rw [e1, e2] at hy
            exact hy
          refine ⟨s1 :: ys, mk ys hy', ?_⟩
          rw [hw] at hh
          rcases hres with ⟨hf, hl⟩ | ⟨ex, c, rf, rl, hf, hl, hn, hinv⟩
          · left
            refine ⟨by simp only [fold_records, hh, hf], ?_⟩
            rw [← hw] at hh
            simp only [record_loop, hc, hh, hl]
          · right
            refine ⟨ex, c, rf, rl, by simp only [fold_records, hh, hf], ?_, hn, hinv⟩
            rw [← hw] at hh
            simp only [record_loop, hc, hh, hl]
        | brk =>
          obtain ⟨ys, hy⟩ := yields_exists hd fd1 hi1 heof1 hfit1
          refine ⟨s1 :: ys, mk ys hy, Or.inr ⟨none, c1, r1, r1, ?_, ?_, rfl, hi2⟩⟩
          · rw [hw] at hh
            simp only [fold_records, hh]
          · simp only [record_loop, hc, hh]
        | exit code =>
          obtain ⟨ys, hy⟩ := yields_exists hd fd1 hi1 heof1 hfit1
          refine ⟨s1 :: ys, mk ys hy, Or.inr ⟨some code, c1, r1, r1, ?_, ?_, rfl, hi2⟩⟩
          · rw [hw] at hh
            simp only [fold_records, hh]
          · simp only [record_loop, hc, hh]
    | last _ _ heof1 hrec hne hm hrest hdl hndl hlen =>
      have hfuel : ∃ f, fuel = f + 1 := ⟨fuel - 1, by omega⟩
      obtain ⟨f, rfl⟩ := hfuel
      have hy : Yields delim (ReadStep.fail ∈ fd.sched) (unconsumed r.scan fd) r.scan.delim_len
          r.scan.next_delim_len [s1] :=
        Yields.last _ _ _ s1 heof1 hrec hne hm hdl hndl hlen
      refine ⟨[s1], hy, ?_⟩
      cases hh : handle_record o preg filename (recnum + 1) count { r with scan := s1 } with
      | none =>
        left
        refine ⟨?_, by simp only [record_loop, hc, hh]⟩
        rw [hw] at hh
        simp only [fold_records, hh]
      | some res =>
        obtain ⟨ctl, c1, r1⟩ := res
        obtain ⟨a, b, hab⟩ := handle_record_scan hh
        simp only at hab
        have hi2 : r1.scan.Inv delim := by rw [hab]; exact inv_set_record hi1 a b
        have heof2 : r1.scan.at_eof = true := by rw [hab]; exact heof1
        have hnext : tre_agrep_get_next_record delim r1.scan fd1 = some (.r1, r1.scan, fd1) := by
          simp [tre_agrep_get_next_record, heof2]
        right
        cases ctl with
        | next =>
          refine ⟨none, c1, r1, r1, ?_, ?_, rfl, hi2⟩
          · rw [hw] at hh
            simp only [fold_records, hh]
          · simp only [record_loop, hc, hh, hnext]
        | brk =>
          refine ⟨none, c1, r1, r1, ?_, ?_, rfl, hi2⟩
          · rw [hw] at hh
            simp only [fold_records, hh]
          · simp only [record_loop, hc, hh]
        | exit code =>
          refine ⟨some code, c1, r1, r1, ?_, ?_, rfl, hi2⟩
          · rw [hw] at hh
            simp only [fold_records, hh]
          · simp only [record_loop, hc, hh]
    | done _ _ heof1 hu =>
      refine ⟨[], Yields.done _ _ _ hu, Or.inr ⟨none, count, r', { r with scan := s1 }, rfl,
        by simp only [record_loop, hc], ?_, hi1⟩⟩
      rw [noscan_with_scan]; exact hns
    | failed _ _ hfail heof1 =>
      refine ⟨[], Yields.failed _ _ _ hfail, Or.inr ⟨none, count, r', { r with scan := s1 }, rfl,
        by simp only [record_loop, hc], ?_, hi1⟩⟩
      rw [noscan_with_scan]; exact hns

theorem fold_records_best_match {o : Opts} {preg : PatMatcher} {filename : String} :
    ∀ (ys : List Scan) (recnum count : Nat) (r : Run) {ex : Option Nat} {c : Nat} {r1 : Run},
      fold_records o preg filename ys recnum count r = some (ex, c, r1) →
      r1.best_match = r.best_match
  | [], _, _, r, _, _, _, h => by
    simp only [fold_records, Option.some.injEq, Prod.mk.injEq] at h
    rw [← h.2.2]
  | y :: ys, recnum, count, r, ex, c, r1, h => by
    unfold fold_records at h
    cases hh : handle_record o preg filename (recnum + 1) count { r with scan := y } with
    | none => rw [hh] at h; cases h
    | some res =>
      obtain ⟨ctl, c2, r2⟩ := res
      rw [hh] at h
      have hb := handle_record_best_match hh
      cases ctl with
      | next =>
        simp only at h
        rw [fold_records_best_match ys _ _ r2 h, hb]
      | brk =>
        simp only [Option.some.injEq, Prod.mk.injEq] at h
        rw [← h.2.2, hb]
      | exit code =>
        simp only [Option.some.injEq, Prod.mk.injEq] at h
        rw [← h.2.2, hb]

theorem fold_file_best_match {o : Opts} {preg : PatMatcher} {f : File} {ys : List Scan}
    {r : Run} {fl : Flow} {r1 : Run} (h : fold_file o preg f ys r = some (fl, r1)) :
    r1.best_match = r.best_match := by
  unfold fold_file at h
  split at h
  · simp only [Option.some.injEq, Prod.mk.injEq] at h
    rw [← h.2]
  · split at h
    · simp only [Option.some.injEq, Prod.mk.injEq] at h
      rw [← h.2]
    · split at h
      · cases h
      · rename_i hfr
        simp only [Option.some.injEq, Prod.mk.injEq] at h
        rw [← h.2]
        exact fold_records_best_match _ _ _ _ hfr
      · rename_i hfr
        have := fold_records_best_match _ _ _ _ hfr
        split at h
        · simp only [Option.some.injEq, Prod.mk.injEq] at h
          rw [← h.2]
          exact this
        · simp only [Option.some.injEq, Prod.mk.injEq] at h
          rw [← h.2]
          exact this

/-- At the start of a file the scanner state has the buffer invariant. -/
theorem file_start_inv {delim : DelimMatcher} (hd : DelimOK delim) {cap : Nat} (hcap : 0 < cap)
    {s : Scan} (hb : s.buf.length = s.buf_size) :
    ({ alloc_reset cap s with at_eof := false } : Scan).Inv delim := by
  unfold alloc_reset
  by_cases h0 : s.buf_size = 0
  · simp only [if_pos h0]
    exact ⟨hcap, by simp, Nat.zero_le _, by intro nr h; simp at h,
      by intro _; simpa [Scan.pending] using delimOK_nil hd⟩
  · simp only [if_neg h0]
    exact ⟨Nat.pos_of_ne_zero h0, hb, Nat.zero_le _, by intro nr h; simp at h,
      by intro _; simpa [Scan.pending] using delimOK_nil hd⟩

theorem alloc_reset_buf {cap : Nat} (hcap : 0 < cap) {s : Scan}
    (hb : s.buf.length = s.buf_size) :
    (alloc_reset cap s).buf.length = (alloc_reset cap s).buf_size ∧
      0 < (alloc_reset cap s).buf_size := by
  unfold alloc_reset
  by_cases h0 : s.buf_size = 0
  · simp only [if_pos h0]
    exact ⟨by simp, hcap⟩
  · simp only [if_neg h0]
    exact ⟨hb, Nat.pos_of_ne_zero h0⟩

theorem handle_file_stdin_best (o : Opts) (cap : Nat) (delim : DelimMatcher) (preg : PatMatcher)
    (f : File) (r : Run) (h : f.is_stdin ∧ r.best_match ≠ 0) :
    tre_agrep_handle_file o cap delim preg f r = some (.ret 2,
      { r with scan := alloc_reset cap r.scan, err := r.err ++ ["Cannot use -B when reading from standard input."] }) := by
  unfold File.is_stdin at h
  unfold tre_agrep_handle_file
  simp only []
  rw [if_pos h]

theorem handle_file_noopen (o : Opts) (cap : Nat) (delim : DelimMatcher) (preg : PatMatcher)
    (f : File) (r : Run) (h : ¬ (f.is_stdin ∧ r.best_match ≠ 0)) (hd : f.descriptor = none) :
    tre_agrep_handle_file o cap delim preg f r = some (.ret 1,
      { r with scan := alloc_reset cap r.scan, err := r.err ++ [f.shown_name] }) := by
  unfold File.is_stdin at h
  unfold File.descriptor File.is_stdin at hd
  unfold tre_agrep_handle_file
  simp only []
  rw [if_neg h, hd]
  rfl

theorem handle_file_open (o : Opts) (cap : Nat) (delim : DelimMatcher) (preg : PatMatcher)
    (f : File) (r : Run) (h : ¬ (f.is_stdin ∧ r.best_match ≠ 0)) {fd : Fd}
    (hd : f.descriptor = some fd) :
    tre_agrep_handle_file o cap delim preg f r =
      match record_loop o delim preg f.shown_name
          (scan_bound { alloc_reset cap r.scan with at_eof := false } fd) 0 0
          { r with scan := { alloc_reset cap r.scan with at_eof := false } } fd with
      | none => none
      | some (some c, _, r3) => some (.exit c, r3)
      | some (none, count, r3) =>
        if o.count_matches ∧ r3.best_match = 0 ∧ ¬ o.be_silent then
          some (.ret 0, { r3 with out := r3.out ++
            (if o.print_filename then [Out.text (f.shown_name ++ ":")] else []) ++
            [Out.text (toString count ++ "\n")] })
        else some (.ret 0, r3) := by
  unfold File.is_stdin at h
  unfold File.descriptor File.is_stdin at hd
  unfold tre_agrep_handle_file
  simp only []
  rw [if_neg h, hd]
  rfl

theorem fold_file_open (o : Opts) (preg : PatMatcher)
    (f : File) (ys : List Scan) (r : Run) (h : ¬ (f.is_stdin ∧ r.best_match ≠ 0)) {fd : Fd}
    (hd : f.descriptor = some fd) :
    fold_file o preg f ys r =
      match fold_records o preg f.shown_name ys 0 0 r with
      | none => none
      | some (some c, _, r3) => some (.exit c, r3)
      | some (none, count, r3) =>
        if o.count_matches ∧ r3.best_match = 0 ∧ ¬ o.be_silent then
          some (.ret 0, { r3 with out := r3.out ++
            (if o.print_filename then [Out.text (f.shown_name ++ ":")] else []) ++
            [Out.text (toString count ++ "\n")] })
        else some (.ret 0, r3) := by
  unfold fold_file
  rw [if_neg h, hd]
  try rfl

theorem fold_file_stdin_best (o : Opts) (preg : PatMatcher) (f : File) (ys : List Scan)
    (r : Run) (h : f.is_stdin ∧ r.best_match ≠ 0) :
    fold_file o preg f ys r = some (.ret 2,
      { r with err := r.err ++ ["Cannot use -B when reading from standard input."] }) := by
  unfold fold_file
  rw [if_pos h]

theorem fold_file_noopen (o : Opts) (preg : PatMatcher) (f : File) (ys : List Scan)
    (r : Run) (h : ¬ (f.is_stdin ∧ r.best_match ≠ 0)) (hd : f.descriptor = none) :
    fold_file o preg f ys r = some (.ret 1, { r with err := r.err ++ [f.shown_name] }) := by
  unfold fold_file
  rw [if_neg h, hd]
  try rfl

theorem fileRecords_stdin_best {delim : DelimMatcher} {bm : Nat} {f : File}
    (h : f.is_stdin ∧ bm ≠ 0) (ys : List Scan) : FileRecords delim bm f ys ↔ ys = [] := by
  unfold FileRecords
  rw [if_pos h]

theorem fileRecords_noopen {delim : DelimMatcher} {bm : Nat} {f : File}
    (h : ¬ (f.is_stdin ∧ bm ≠ 0)) (hd : f.descriptor = none) (ys : List Scan) :
    FileRecords delim bm f ys ↔ ys = [] := by
  unfold FileRecords
  rw [if_neg h, hd]

theorem fileRecords_open {delim : DelimMatcher} {bm : Nat} {f : File}
    (h : ¬ (f.is_stdin ∧ bm ≠ 0)) {fd : Fd} (hd : f.descriptor = some fd) (ys : List Scan) :
    FileRecords delim bm f ys ↔
      ∃ dl ndl, Yields delim (ReadStep.fail ∈ fd.sched) fd.rest dl ndl ys := by
  unfold FileRecords
  rw [if_neg h, hd]

theorem noscan_eq_fields {r r1 : Run} (h : r.noscan = r1.noscan) :
    r.max_cost = r1.max_cost ∧ r.best_match = r1.best_match ∧ r.best_cost = r1.best_cost ∧
      r.have_matches = r1.have_matches ∧ r.prev_filename = r1.prev_filename ∧
      r.out = r1.out ∧ r.err = r1.err := by
  cases r; cases r1
  simp only [Run.noscan, Run.mk.injEq, true_and] at h
  exact h

theorem noscan_of_fields {r r1 : Run} (h1 : r.max_cost = r1.max_cost)
    (h2 : r.best_match = r1.best_match) (h3 : r.best_cost = r1.best_cost)
    (h4 : r.have_matches = r1.have_matches) (h5 : r.prev_filename = r1.prev_filename)
    (h6 : r.out = r1.out) (h7 : r.err = r1.err) : r.noscan = r1.noscan := by
  cases r; cases r1
  simp only at h1 h2 h3 h4 h5 h6 h7
  simp only [Run.noscan, Run.mk.injEq, true_and]
  exact ⟨h1, h2, h3, h4, h5, h6, h7⟩

/-- For a file whose bytes cannot force the buffer beyond `INT_MAX` bytes, the
function `tre_agrep_handle_file` is `fold_file` on records of the file that
the scanner yields. -/
theorem handle_file_fold {delim : DelimMatcher} (hd : DelimOK delim) (o : Opts) {cap : Nat}
    (hcap : 0 < cap) (preg : PatMatcher) (f : File) (hfit : f.Fits) (r r' : Run)
    (hb : r.scan.buf.length = r.scan.buf_size) (hns : r.noscan = r'.noscan) :
    ∃ ys, FileRecords delim r'.best_match f ys ∧
      ((fold_file o preg f ys r' = none ∧
          tre_agrep_handle_file o cap delim preg f r = none) ∨
        ∃ fl rf rl, fold_file o preg f ys r' = some (fl, rf) ∧
          tre_agrep_handle_file o cap delim preg f r = some (fl, rl) ∧
          rl.noscan = rf.noscan ∧ rl.scan.buf.length = rl.scan.buf_size) := by
  obtain ⟨e1, e2, e3, e4, e5, e6, e7⟩ := noscan_eq_fields hns
  have hinv := file_start_inv hd hcap hb
  have hb1 := (alloc_reset_buf hcap hb).1
  by_cases hs : f.is_stdin ∧ r'.best_match ≠ 0
  · have hs' : f.is_stdin ∧ r.best_match ≠ 0 := by rw [e2]; exact hs
    refine ⟨[], (fileRecords_stdin_best hs _).2 rfl, Or.inr
      ⟨.ret 2, _, _, fold_file_stdin_best o preg f [] r' hs,
        handle_file_stdin_best o cap delim preg f r hs', ?_, hb1⟩⟩
    exact noscan_of_fields e1 e2 e3 e4 e5 e6 (by show r.err ++ _ = r'.err ++ _; rw [e7])
  · have hs' : ¬ (f.is_stdin ∧ r.best_match ≠ 0) := by rw [e2]; exact hs
    cases hdsc : f.descriptor with
    | none =>
      refine ⟨[], (fileRecords_noopen hs hdsc _).2 rfl, Or.inr
        ⟨.ret 1, _, _, fold_file_noopen o preg f [] r' hs hdsc,
          handle_file_noopen o cap delim preg f r hs' hdsc, ?_, hb1⟩⟩
      exact noscan_of_fields e1 e2 e3 e4 e5 e6 (by show r.err ++ _ = r'.err ++ _; rw [e7])
    | some fd =>
      have hun : unconsumed { alloc_reset cap r.scan with at_eof := false } fd = fd.rest := by
        simp [unconsumed, Scan.pending, alloc_reset]
      obtain ⟨ys, hy, hres⟩ := record_loop_fold hd o preg f.shown_name
        (scan_bound { alloc_reset cap r.scan with at_eof := false } fd)
        { r with scan := { alloc_reset cap r.scan with at_eof := false } } r'
        fd 0 0 hinv rfl
        (by rw [hun]; exact hfit fd hdsc)
        (by simp [unconsumed, Scan.pending, scan_bound, alloc_reset])
        (by rw [noscan_with_scan]; exact hns)
      simp only [hun] at hy
      refine ⟨ys, (fileRecords_open hs hdsc _).2 ⟨_, _, hy⟩, ?_⟩
      rw [fold_file_open o preg f ys r' hs hdsc, handle_file_open o cap delim preg f r hs' hdsc]
      rcases hres with ⟨hf, hl⟩ | ⟨ex, c, rf, rl, hf, hl, hn, hinv2⟩
      · left
        rw [hf, hl]
        exact ⟨rfl, rfl⟩
      · right
        rw [hf, hl]
        obtain ⟨g1, g2, g3, g4, g5, g6, g7⟩ := noscan_eq_fields hn
        cases ex with
        | some code => exact ⟨.exit code, rf, rl, rfl, rfl, hn, hinv2.buf_len⟩
        | none =>
          simp only
          by_cases hcm : o.count_matches ∧ rf.best_match = 0 ∧ ¬ o.be_silent
          · have hcm' : o.count_matches ∧ rl.best_match = 0 ∧ ¬ o.be_silent := by
              rw [g2]; exact hcm
            rw [if_pos hcm, if_pos hcm']
            refine ⟨.ret 0, _, _, rfl, rfl, ?_, hinv2.buf_len⟩
            exact noscan_of_fields g1 g2 g3 g4 g5
              (by show rl.out ++ _ ++ _ = rf.out ++ _ ++ _; rw [g6]) g7
          · have hcm' : ¬ (o.count_matches ∧ rl.best_match = 0 ∧ ¬ o.be_silent) := by
              rw [g2]; exact hcm
            rw [if_neg hcm, if_neg hcm']
            exact ⟨.ret 0, rf, rl, rfl, rfl, hn, hinv2.buf_len⟩

theorem fileRecords_exists {delim : DelimMatcher} (hd : DelimOK delim) (bm : Nat) (f : File)
    (hfit : f.Fits) : ∃ ys, FileRecords delim bm f ys := by
  by_cases hs : f.is_stdin ∧ bm ≠ 0
  · exact ⟨[], (fileRecords_stdin_best hs _).2 rfl⟩
  · cases hdsc : f.descriptor with
    | none => exact ⟨[], (fileRecords_noopen hs hdsc _).2 rfl⟩
    | some fd =>
      obtain ⟨ys, hy⟩ := yields_exists hd fd (init_scan_inv hd (Nat.succ_pos 0)) rfl
        (by simpa [unconsumed, Scan.pending, init_scan] using hfit fd hdsc)
      refine ⟨ys, (fileRecords_open hs hdsc _).2 ⟨0, 0, ?_⟩⟩
      simpa [unconsumed, Scan.pending, init_scan] using hy

theorem fileRecords_exists_list {delim : DelimMatcher} (hd : DelimOK delim) (bm : Nat) :
    ∀ files : List File, (∀ f ∈ files, f.Fits) →
      ∃ fys : List (File × List Scan), fys.map Prod.fst = files ∧
        ∀ p ∈ fys, FileRecords delim bm p.1 p.2
  | [], _ => ⟨[], rfl, by intro p hp; simp at hp⟩
  | f :: fs, hfit => by
    obtain ⟨ys, hy⟩ := fileRecords_exists hd bm f (hfit f (List.mem_cons_self _ _))
    obtain ⟨fys, h1, h2⟩ := fileRecords_exists_list hd bm fs
      (fun g hg => hfit g (List.mem_cons_of_mem _ hg))
    refine ⟨(f, ys) :: fys, by simp [h1], ?_⟩
    intro p hp
    simp only [List.mem_cons] at hp
    rcases hp with rfl | hp
    · exact hy
    · exact h2 p hp

/-- For files whose bytes cannot force the buffer beyond `INT_MAX` bytes, the
loop over the file arguments is `fold_files` on records of the files that
the scanner yields. -/
theorem handle_files_fold {delim : DelimMatcher} (hd : DelimOK delim) (o : Opts) {cap : Nat}
    (hcap : 0 < cap) (preg : PatMatcher) :
    ∀ (files : List File) (r r' : Run), (∀ f ∈ files, f.Fits) →
      r.scan.buf.length = r.scan.buf_size → r.noscan = r'.noscan →
      ∃ fys : List (File × List Scan), fys.map Prod.fst = files ∧
        (∀ p ∈ fys, FileRecords delim r'.best_match p.1 p.2) ∧
        ((fold_files o preg fys r' = none ∧ handle_files o cap delim preg files r = none) ∨
          ∃ ex rf rl, fold_files o preg fys r' = some (ex, rf) ∧
            handle_files o cap delim preg files r = some (ex, rl) ∧
            rl.noscan = rf.noscan ∧ rl.scan.buf.length = rl.scan.buf_size)
  | [], r, r', _, hb, hns =>
    ⟨[], rfl, by intro p hp; simp at hp, Or.inr ⟨none, r', r, rfl, rfl, hns, hb⟩⟩
  | f :: fs, r, r', hfit, hb, hns => by
    have hfs : ∀ g ∈ fs, g.Fits := fun g hg => hfit g (List.mem_cons_of_mem _ hg)
    obtain ⟨ys, hy, hres⟩ := handle_file_fold hd o hcap preg f
      (hfit f (List.mem_cons_self _ _)) r r' hb hns
    have hmem : ∀ (fys : List (File × List Scan)),
        (∀ p ∈ fys, FileRecords delim r'.best_match p.1 p.2) →
        ∀ p ∈ (f, ys) :: fys, FileRecords delim r'.best_match p.1 p.2 := by
      intro fys h p hp
      simp only [List.mem_cons] at hp
      rcases hp with rfl | hp
      · exact hy
      · exact h p hp
    rcases hres with ⟨hf, hl⟩ | ⟨fl, rf, rl, hf, hl, hn, hb2⟩
    · obtain ⟨fys, h1, h2⟩ := fileRecords_exists_list hd r'.best_match fs hfs
      exact ⟨(f, ys) :: fys, by simp [h1], hmem fys h2,
        Or.inl ⟨by simp only [fold_files, hf], by simp only [handle_files, hl]⟩⟩
    · cases fl with
      | exit code =>
        obtain ⟨fys, h1, h2⟩ := fileRecords_exists_list hd r'.best_match fs hfs
        exact ⟨(f, ys) :: fys, by simp [h1], hmem fys h2,
          Or.inr ⟨some code, rf, rl, by simp only [fold_files, hf],
            by simp only [handle_files, hl], hn, hb2⟩⟩
      | ret code =>
        obtain ⟨fys, h1, h2, hrest⟩ := handle_files_fold hd o hcap preg fs rl rf hfs hb2 hn
        rw [fold_file_best_match hf] at h2
        refine ⟨(f, ys) :: fys, by simp [h1], hmem fys h2, ?_⟩
        rcases hrest with ⟨hf2, hl2⟩ | ⟨ex, rf2, rl2, hf2, hl2, hn2, hb3⟩
        · exact Or.inl ⟨by simp only [fold_files, hf, hf2], by simp only [handle_files, hl, hl2]⟩
        · exact Or.inr ⟨ex, rf2, rl2, by simp only [fold_files, hf, hf2],
            by simp only [handle_files, hl, hl2], hn2, hb3⟩

/-! ## Exit status -/

theorem colour_loop_some {preg : PatMatcher} (hpa : PatAdvances preg) (mc indent : Nat) :
    ∀ (fuel : Nat) (tail : List Nat) (so eo col : Nat), 0 < eo → tail.length + 1 ≤ fuel →
      ∃ w, colour_loop preg mc indent fuel tail so eo col = some w := by
  intro fuel
  induction fuel with
  | zero => intro tail so eo col _ hb; omega
  | succ fuel ih =>
    intro tail so eo col heo hb
    unfold colour_loop
    simp only []
    by_cases h0 : (tail.drop eo).length = 0
    · rw [if_pos h0]; exact ⟨_, rfl⟩
    · rw [if_neg h0]
      have hlen : (tail.drop eo).length + 1 ≤ fuel := by
        simp only [List.length_drop] at h0 ⊢
        omega
      rcases hp : preg mc (tail.drop eo) with ⟨c, so1, eo1⟩ | _ | _
      · obtain ⟨_, hpos, _⟩ := hpa mc _ c so1 eo1 hp
        obtain ⟨w, hw⟩ := ih (tail.drop eo) so1 eo1
          (print_record_indent indent ((tail.drop so).take (eo - so))
            (print_record_indent indent (tail.take so) col).2).2 hpos hlen
        simp only []
        rw [hw]
        exact ⟨_, rfl⟩
      · exact ⟨_, rfl⟩
      · exact ⟨_, rfl⟩

theorem render_some (o : Opts) (preg : PatMatcher) (filename : String) (recnum cost : Nat)
    (pm : Nat × Nat) (r : Run)
    (hcol : o.color_option = true → o.invert_match = false → PatAdvances preg ∧ 0 < pm.2) :
    ∃ r1, render o preg filename recnum cost pm r = some r1 := by
  unfold render
  simp only []
  split
  · rename_i hc
    simp only [Bool.and_eq_true, Bool.not_eq_true'] at hc
    obtain ⟨hpa, hpos⟩ := hcol hc.1 hc.2
    have key : ∀ (sc : Scan) (so eo : Nat), 0 < eo →
        ∃ w, colour_loop preg r.max_cost o.indent (sc.record_len + 1) sc.record_bytes so eo 0
          = some w := by
      intro sc so eo heo
      apply colour_loop_some hpa _ _ _ _ _ _ _ heo
      simp only [Scan.record_bytes, List.length_take]
      omega
    split
    · rename_i hnone
      exfalso
      revert hnone
      split
      · intro hnone
        obtain ⟨w, hw⟩ := key { r.scan with record_len := r.scan.record_len + r.scan.next_delim_len }
          pm.1 pm.2 hpos
        rw [hw] at hnone; cases hnone
      · split
        · intro hnone
          obtain ⟨w, hw⟩ := key { r.scan with record := r.scan.record - r.scan.delim_len, record_len := r.scan.record_len + r.scan.delim_len }
            (pm.1 + r.scan.delim_len) (pm.2 + r.scan.delim_len) (by omega)
          rw [hw] at hnone; cases hnone
        · intro hnone
          obtain ⟨w, hw⟩ := key r.scan pm.1 pm.2 hpos
          rw [hw] at hnone; cases hnone
    · exact ⟨_, rfl⟩
  · exact ⟨_, rfl⟩

theorem qualifies_span_pos {o : Opts} {preg : PatMatcher} {mc : Nat} {rec : List Nat}
    (hpa : PatAdvances preg) (hQ : qualifies o preg mc rec = true)
    (hinv : o.invert_match = false) : 0 < (preg mc rec).span.2 := by
  unfold qualifies at hQ
  rw [hinv] at hQ
  rcases hp : preg mc rec with ⟨c, so, eo⟩ | _ | _
  · exact (hpa mc rec c so eo hp).2.1
  · rw [hp] at hQ; simp [AExec.is_ok] at hQ
  · rw [hp] at hQ; simp [AExec.is_ok] at hQ

theorem cost_below_max {preg : PatMatcher} (hbm : CostsBelowMax preg) (mc : Nat)
    (rec : List Nat) : (preg mc rec).cost < INT_MAX := by
  rcases hp : preg mc rec with ⟨c, so, eo⟩ | _ | _
  · exact hbm mc rec c so eo hp
  · simp [AExec.cost, INT_MAX]
  · simp [AExec.cost, INT_MAX]

/-- One pass of the loop body keeps `ModeInv`, exits only with code 0, and
sets `have_matches` (or exits) exactly when the record qualifies under the
ceiling `c0` or a record had qualified before. -/
theorem step_mode (o : Opts) (preg : PatMatcher) (filename : String) (recnum count : Nat)
    (c0 : Nat) (r : Run) (hM : ModeInv c0 r)
    (hcol : o.color_option = true → o.invert_match = false → PatAdvances preg)
    (hbm : r.best_match = 1 → CostsBelowMax preg) :
    ∃ ctl c1 r1, handle_record o preg filename recnum count r = some (ctl, c1, r1) ∧
      ModeInv c0 r1 ∧ (∀ code, ctl = .exit code → code = 0) ∧
      ((ctl = .exit 0 ∨ r1.have_matches = true) ↔
        (r.have_matches = true ∨ qualifies o preg c0 r.scan.record_bytes = true)) ∧
      (ctl = .brk → r1.have_matches = true) := by
  obtain ⟨f1, f2, f3, f4, f5, f6, f7, f8⟩ := set_ceiling_fields r
  have key1 : r.have_matches = true ∨ (set_ceiling r).max_cost = c0 := by
    rcases hM with ⟨h0, hmc⟩ | ⟨h1, hc0, hJ, _⟩ | ⟨_, _, hh⟩
    · right; rw [f8, if_neg (by simp [h0])]; exact hmc
    · cases hh : r.have_matches with
      | true => left; rfl
      | false =>
        right
        rw [f8, if_pos (by simp [h1]), hJ hh, hc0]
    · left; exact hh
  have keyT : qualifies o preg (set_ceiling r).max_cost (set_ceiling r).scan.record_bytes = true →
      (r.have_matches = true ∨ qualifies o preg c0 r.scan.record_bytes = true) := by
    intro hQ
    rcases key1 with h | h
    · exact Or.inl h
    · right; rw [h, f1] at hQ; exact hQ
  have keyF : qualifies o preg (set_ceiling r).max_cost (set_ceiling r).scan.record_bytes = false →
      (r.have_matches = true ∨ qualifies o preg c0 r.scan.record_bytes = true) →
      r.have_matches = true := by
    intro hQ h
    rcases h with h | h
    · exact h
    · rcases key1 with h1 | h1
      · exact h1
      · rw [h1, f1, h] at hQ; cases hQ
  have minv_same : ∀ r1 : Run, r1.best_match = r.best_match → r1.best_cost = r.best_cost →
      r1.have_matches = r.have_matches → r1.max_cost = (set_ceiling r).max_cost →
      ModeInv c0 r1 := by
    intro r1 e1 e2 e3 e4
    rcases hM with ⟨h0, hmc⟩ | ⟨h1, hc0, hJ, hJ2⟩ | ⟨h0, h1, hh⟩
    · left
      refine ⟨by rw [e1]; exact h0, ?_⟩
      rw [e4, f8, if_neg (by simp [h0])]; exact hmc
    · right; left
      exact ⟨by rw [e1]; exact h1, hc0, by rw [e2, e3]; exact hJ, by rw [e2, e3]; exact hJ2⟩
    · right; right
      exact ⟨by rw [e1]; exact h0, by rw [e1]; exact h1, by rw [e3]; exact hh⟩
  have minv_true : ∀ r1 : Run, r1.best_match = r.best_match → r.best_match ≠ 1 →
      r1.have_matches = true → r1.max_cost = (set_ceiling r).max_cost → ModeInv c0 r1 := by
    intro r1 e1 hn1 e3 e4
    rcases hM with ⟨h0, hmc⟩ | ⟨h1, _⟩ | ⟨h0, h1, hh⟩
    · left
      refine ⟨by rw [e1]; exact h0, ?_⟩
      rw [e4, f8, if_neg (by simp [h0])]; exact hmc
    · exact absurd h1 hn1
    · right; right
      exact ⟨by rw [e1]; exact h0, by rw [e1]; exact h1, e3⟩
  apply handle_record_cases o preg filename recnum count r
    (fun x => ∃ ctl c1 r1, x = some (ctl, c1, r1) ∧
      ModeInv c0 r1 ∧ (∀ code, ctl = .exit code → code = 0) ∧
      ((ctl = .exit 0 ∨ r1.have_matches = true) ↔
        (r.have_matches = true ∨ qualifies o preg c0 r.scan.record_bytes = true)) ∧
      (ctl = .brk → r1.have_matches = true))
  · -- break of the first pass
    intro hb1 hb0
    rw [f2] at hb1
    rw [f3] at hb0
    have hh : r.have_matches = true := by
      rcases hM with ⟨h0, _⟩ | ⟨_, _, hJ, _⟩ | ⟨_, h1, _⟩
      · rw [h0] at hb1; cases hb1
      · cases hh : r.have_matches with
        | true => rfl
        | false =>
          have := hJ hh
          rw [hb0] at this
          simp [INT_MAX] at this
      · exact absurd hb1 h1
    refine ⟨.brk, count, set_ceiling r, rfl, minv_same _ f2 f3 f4 rfl, ?_, ?_, ?_⟩
    · intro code h; cases h
    · rw [f4]
      exact ⟨fun _ => Or.inl hh, fun _ => Or.inr hh⟩
    · intro _; rw [f4]; exact hh
  · intro _ hQ
    refine ⟨.next, count, set_ceiling r, rfl, minv_same _ f2 f3 f4 rfl, ?_, ?_, ?_⟩
    · intro code h; cases h
    · rw [f4]
      constructor
      · intro h
        rcases h with h | h
        · cases h
        · exact Or.inl h
      · intro h; exact Or.inr (keyF hQ h)
    · intro h; cases h
  · intro _ hQ _
    refine ⟨.exit 0, count, set_ceiling r, rfl, minv_same _ f2 f3 f4 rfl, ?_, ?_, ?_⟩
    · intro code h; cases h; rfl
    · exact ⟨fun _ => keyT hQ, fun _ => Or.inl rfl⟩
    · intro h; cases h
  · -- first pass, the record qualifies
    intro _ hQ _ h1
    rw [f2] at h1
    have hcb := cost_below_max (hbm h1) (set_ceiling r).max_cost (set_ceiling r).scan.record_bytes
    rcases hM with ⟨h0, _⟩ | ⟨_, hc0, hJ, hJ2⟩ | ⟨_, hn1, _⟩
    · rw [h0] at h1; cases h1
    · refine ⟨.next, count + 1, _, rfl, ?_, ?_, ?_, ?_⟩
      · right; left
        split
        · exact ⟨by show (set_ceiling r).best_match = 1; rw [f2]; exact h1, hc0,
            (by intro h; cases h), fun _ => hcb⟩
        · rename_i hlt
          refine ⟨by show (set_ceiling r).best_match = 1; rw [f2]; exact h1, hc0,
            (by intro h; cases h), ?_⟩
          intro _
          show (set_ceiling r).best_cost < INT_MAX
          rw [f3]
          cases hh : r.have_matches with
          | true => exact hJ2 hh
          | false =>
            exfalso
            apply hlt
            rw [f3, hJ hh]
            exact hcb
      · intro code h; cases h
      · constructor
        · intro _; exact keyT hQ
        · intro _
          right
          split <;> rfl
      · intro h; cases h
    · exact absurd h1 hn1
  · -- second pass, the record is worse than the best
    intro _ _ h1 hne0 _
    rw [f2] at h1 hne0
    refine ⟨.next, count + 1, _, rfl, minv_true _ (by exact f2) h1 rfl rfl, ?_, ?_, ?_⟩
    · intro code h; cases h
    · constructor
      · intro _
        rcases hM with ⟨h0, _⟩ | ⟨hb, _⟩ | ⟨_, _, hh⟩
        · exact absurd h0 hne0
        · exact absurd hb h1
        · exact Or.inl hh
      · intro _; exact Or.inr rfl
    · intro h; cases h
  · intro hQ _ h1 _ _
    rw [f2] at h1
    refine ⟨.brk, count + 1, _, rfl, minv_true _ (by exact f2) h1 rfl rfl, ?_, ?_, ?_⟩
    · intro code h; cases h
    · exact ⟨fun _ => keyT hQ, fun _ => Or.inr rfl⟩
    · intro _; rfl
  · intro hQ _ h1 _ _ _
    rw [f2] at h1
    obtain ⟨r3, hr3⟩ := render_some o preg filename recnum
      (preg (set_ceiling r).max_cost (set_ceiling r).scan.record_bytes).cost
      (if o.color_option || o.print_position then
        (preg (set_ceiling r).max_cost (set_ceiling r).scan.record_bytes).span else (0, 0))
      { set_ceiling r with have_matches := true }
      (by
        intro hc hi
        refine ⟨hcol hc hi, ?_⟩
        rw [hc]
        simp only [Bool.true_or, ↓reduceIte]
        exact qualifies_span_pos (hcol hc hi) hQ hi)
    obtain ⟨_, g2, g3, g4, g5, _⟩ := render_fields hr3
    refine ⟨.next, count + 1, r3, by rw [hr3]; rfl,
      minv_true _ (by rw [g2]; exact f2) h1 (by rw [g5]) (by rw [g4]), ?_, ?_, ?_⟩
    · intro code h; cases h
    · exact ⟨fun _ => keyT hQ, fun _ => Or.inr (by rw [g5])⟩
    · intro h; cases h
  · intro hQ _ h1 _ _ _
    rw [f2] at h1
    refine ⟨.next, count + 1, _, rfl, minv_true _ (by exact f2) h1 rfl rfl, ?_, ?_, ?_⟩
    · intro code h; cases h
    · exact ⟨fun _ => keyT hQ, fun _ => Or.inr rfl⟩
    · intro h; cases h

theorem modeInv_scan {c0 : Nat} {r : Run} (h : ModeInv c0 r) (y : Scan) :
    ModeInv c0 { r with scan := y } := h

theorem modeInv_err {c0 : Nat} {r : Run} (h : ModeInv c0 r) (e : List String) :
    ModeInv c0 { r with err := e } := h

theorem modeInv_out {c0 : Nat} {r : Run} (h : ModeInv c0 r) (w : List Out) :
    ModeInv c0 { r with out := w } := h

/-- The record loop on the records `ys`: it keeps `ModeInv`, exits only with
code 0, and ends with `have_matches` set (or exits) exactly when a record
had qualified before or one of `ys` qualifies under the ceiling `c0`. -/
theorem fold_records_mode (o : Opts) (preg : PatMatcher) (filename : String) (c0 : Nat)
    (hcol : o.color_option = true → o.invert_match = false → PatAdvances preg) :
    ∀ (ys : List Scan) (recnum count : Nat) (r : Run), ModeInv c0 r →
      (r.best_match = 1 → CostsBelowMax preg) →
      ∃ ex c1 r1, fold_records o preg filename ys recnum count r = some (ex, c1, r1) ∧
        ModeInv c0 r1 ∧ r1.best_match = r.best_match ∧ (ex = none ∨ ex = some 0) ∧
        ((ex = some 0 ∨ r1.have_matches = true) ↔
          (r.have_matches = true ∨
            ∃ y ∈ ys, qualifies o preg c0 y.record_bytes = true))
  | [], recnum, count, r, hM, _ =>
    ⟨none, count, r, rfl, hM, rfl, Or.inl rfl, by simp⟩
  | y :: ys, recnum, count, r, hM, hbm => by
    obtain ⟨ctl, c1, r1, hh, hM1, hex, hiff, hbrk⟩ :=
      step_mode o preg filename (recnum + 1) count c0 { r with scan := y } (modeInv_scan hM y)
        hcol hbm
    have hb1 : r1.best_match = r.best_match := by
      have := handle_record_best_match hh
      exact this
    simp only at hiff
    cases ctl with
    | next =>
      obtain ⟨ex, c2, r2, hf, hM2, hb2, hex2, hiff2⟩ :=
        fold_records_mode o preg filename c0 hcol ys (recnum + 1) c1 r1 hM1
          (by rw [hb1]; exact hbm)
      refine ⟨ex, c2, r2, by simp only [fold_records, hh, hf], hM2, by rw [hb2, hb1], hex2, ?_⟩
      rw [hiff2]
      have h1 : r1.have_matches = true ↔
          (r.have_matches = true ∨ qualifies o preg c0 y.record_bytes = true) := by
        rw [← hiff]
        simp
      rw [h1]
      simp only [List.mem_cons, exists_eq_or_imp]
      exact or_assoc
    | brk =>
      refine ⟨none, c1, r1, by simp only [fold_records, hh], hM1, hb1, Or.inl rfl, ?_⟩
      have hh1 := hbrk rfl
      constructor
      · intro _
        rcases hiff.1 (Or.inr hh1) with h | h
        · exact Or.inl h
        · exact Or.inr ⟨y, List.mem_cons_self _ _, h⟩
      · intro _; exact Or.inr hh1
    | exit code =>
      have hc := hex code rfl
      subst hc
      refine ⟨some 0, c1, r1, by simp only [fold_records, hh], hM1, hb1, Or.inr rfl, ?_⟩
      constructor
      · intro _
        rcases hiff.1 (Or.inl rfl) with h | h
        · exact Or.inl h
        · exact Or.inr ⟨y, List.mem_cons_self _ _, h⟩
      · intro _; exact Or.inl rfl

/-- The same for one file. -/
theorem fold_file_mode (delim : DelimMatcher) (o : Opts) (preg : PatMatcher) (c0 : Nat)
    (hcol : o.color_option = true → o.invert_match = false → PatAdvances preg)
    (f : File) (ys : List Scan) (r : Run) (hM : ModeInv c0 r)
    (hbm : r.best_match = 1 → CostsBelowMax preg)
    (hy : FileRecords delim r.best_match f ys) :
    ∃ fl r1, fold_file o preg f ys r = some (fl, r1) ∧
      ModeInv c0 r1 ∧ r1.best_match = r.best_match ∧ (∀ code, fl = .exit code → code = 0) ∧
      ((fl = .exit 0 ∨ r1.have_matches = true) ↔
        (r.have_matches = true ∨ ∃ y ∈ ys, qualifies o preg c0 y.record_bytes = true)) := by
  by_cases hs : f.is_stdin ∧ r.best_match ≠ 0
  · have hnil := (fileRecords_stdin_best hs ys).1 hy
    subst hnil
    refine ⟨.ret 2, _, fold_file_stdin_best o preg f [] r hs, modeInv_err hM _, rfl, ?_, ?_⟩
    · intro code h; cases h
    · simp
  · cases hdsc : f.descriptor with
    | none =>
      have hnil := (fileRecords_noopen hs hdsc ys).1 hy
      subst hnil
      refine ⟨.ret 1, _, fold_file_noopen o preg f [] r hs hdsc, modeInv_err hM _, rfl, ?_, ?_⟩
      · intro code h; cases h
      · simp
    | some fd =>
      obtain ⟨ex, c1, r1, hf, hM1, hb1, hex, hiff⟩ :=
        fold_records_mode o preg f.shown_name c0 hcol ys 0 0 r hM hbm
      rw [fold_file_open o preg f ys r hs hdsc, hf]
      rcases hex with rfl | rfl
      · simp only
        split
        · refine ⟨.ret 0, _, rfl, modeInv_out hM1 _, hb1, ?_, ?_⟩
          · intro code h; cases h
          · rw [← hiff]; simp
        · refine ⟨.ret 0, _, rfl, hM1, hb1, ?_, ?_⟩
          · intro code h; cases h
          · rw [← hiff]; simp
      · refine ⟨.exit 0, r1, rfl, hM1, hb1, ?_, ?_⟩
        · intro code h; cases h; rfl
        · rw [← hiff]; simp

/-- The same for the loop over the files. -/
theorem fold_files_mode (delim : DelimMatcher) (o : Opts) (preg : PatMatcher) (c0 : Nat)
    (hcol : o.color_option = true → o.invert_match = false → PatAdvances preg) :
    ∀ (fys : List (File × List Scan)) (r : Run), ModeInv c0 r →
      (r.best_match = 1 → CostsBelowMax preg) →
      (∀ p ∈ fys, FileRecords delim r.best_match p.1 p.2) →
      ∃ ex r1, fold_files o preg fys r = some (ex, r1) ∧
        ModeInv c0 r1 ∧ r1.best_match = r.best_match ∧ (ex = none ∨ ex = some 0) ∧
        ((ex = some 0 ∨ r1.have_matches = true) ↔
          (r.have_matches = true ∨
            ∃ p ∈ fys, ∃ y ∈ p.2, qualifies o preg c0 y.record_bytes = true))
  | [], r, hM, _, _ => ⟨none, r, rfl, hM, rfl, Or.inl rfl, by simp⟩
  | (f, ys) :: fys, r, hM, hbm, hy => by
    obtain ⟨fl, r1, hf, hM1, hb1, hex, hiff⟩ :=
      fold_file_mode delim o preg c0 hcol f ys r hM hbm (hy (f, ys) (List.mem_cons_self _ _))
    cases fl with
    | exit code =>
      have hc := hex code rfl
      subst hc
      refine ⟨some 0, r1, by simp only [fold_files, hf], hM1, hb1, Or.inr rfl, ?_⟩
      constructor
      · intro _
        rcases hiff.1 (Or.inl rfl) with h | ⟨y, hy1, hy2⟩
        · exact Or.inl h
        · exact Or.inr ⟨(f, ys), List.mem_cons_self _ _, y, hy1, hy2⟩
      · intro _; exact Or.inl rfl
    | ret code =>
      obtain ⟨ex, r2, hf2, hM2, hb2, hex2, hiff2⟩ :=
        fold_files_mode delim o preg c0 hcol fys r1 hM1 (by rw [hb1]; exact hbm)
          (by
            intro p hp
            rw [hb1]
            exact hy p (List.mem_cons_of_mem _ hp))
      refine ⟨ex, r2, by simp only [fold_files, hf, hf2], hM2, by rw [hb2, hb1], hex2, ?_⟩
      rw [hiff2]
      have h1 : r1.have_matches = true ↔
          (r.have_matches = true ∨ ∃ y ∈ ys, qualifies o preg c0 y.record_bytes = true) := by
        rw [← hiff]
        simp
      rw [h1]
      simp only [List.mem_cons, exists_eq_or_imp]
      exact or_assoc

theorem static_buf : static_scan.buf.length = static_scan.buf_size := rfl

theorem qualifies_main_opts (a : Args) (preg : PatMatcher) (mc : Nat) (rec : List Nat) :
    qualifies (main_opts a) preg mc rec = qualifies a.opts preg mc rec := rfl

theorem status_eq_zero (r : Run) : status r = 0 ↔ r.have_matches = true := by
  unfold status
  cases r.have_matches <;> simp

theorem status_cases (r : Run) : status r = 0 ∨ status r = 1 := by
  unfold status
  cases r.have_matches <;> simp

/-- Where the exit status is as the usage text says: when the delimiter
matcher cannot match empty and does not run out of memory, the bytes of no
file can force the buffer beyond `INT_MAX` bytes, the highlight loops end
(no colour, or matches that advance), and in best-match mode the matcher
reports only costs below `INT_MAX`, `main` returns, with status 0 if and
only if some record of some scanned file qualified under the ceiling under
which it was first examined (`max_cost` in normal mode, `INT_MAX` in
best-match mode), and with status 1 otherwise; files that cannot be opened,
or whose reads fail, contribute no record or the records read before the
failure, and the other files are still scanned. -/
theorem status_below_int_max (delim : DelimMatcher) (hd : DelimOK delim) (cap : Nat)
    (hcap : 0 < cap) (preg : PatMatcher) (a : Args)
    (hcol : a.opts.color_option = true → a.opts.invert_match = false → PatAdvances preg)
    (hbm : a.best_match = true → CostsBelowMax preg)
    (hfit : ∀ f ∈ (if a.files = [] then [⟨none, some a.stdin⟩] else a.files), f.Fits) :
    ∃ (code : Nat) (r : Run) (fys : List (File × List Scan)),
      main_files cap delim preg a = some (code, r) ∧
      fys.map Prod.fst = (if a.files = [] then [⟨none, some a.stdin⟩] else a.files) ∧
      (∀ p ∈ fys, FileRecords delim (if a.best_match then 1 else 0) p.1 p.2) ∧
      (code = 0 ↔ ∃ p ∈ fys, ∃ y ∈ p.2,
        qualifies a.opts preg (if a.best_match then INT_MAX else a.max_cost) y.record_bytes
          = true) ∧
      (code = 0 ∨ code = 1) := by
  have hcol' : (main_opts a).color_option = true → (main_opts a).invert_match = false →
      PatAdvances preg := hcol
  have hbm0 : (start_run a).best_match = (if a.best_match then 1 else 0) := rfl
  by_cases hfiles : a.files = []
  · -- standard input
    obtain ⟨ys, hy, hres⟩ := handle_file_fold hd (main_opts a) hcap preg ⟨none, some a.stdin⟩
      (hfit _ (by rw [if_pos hfiles]; exact List.mem_singleton.mpr rfl))
      (start_run a) (start_run a) static_buf rfl
    rw [hbm0] at hy
    have hmain : main_files cap delim preg a =
        match tre_agrep_handle_file (main_opts a) cap delim preg ⟨none, some a.stdin⟩
          (start_run a) with
        | none => none
        | some (.exit c, r1) => some (c, r1)
        | some (.ret _, r1) => some (status r1, r1) := by
      unfold main_files
      rw [if_pos hfiles]
      all_goals rfl
    rw [hmain, if_pos hfiles]
    cases hb : a.best_match with
    | true =>
      have hs : File.is_stdin ⟨none, some a.stdin⟩ ∧ (start_run a).best_match ≠ 0 := by
        refine ⟨Or.inl rfl, ?_⟩
        rw [hbm0, hb]; decide
      rw [hb] at hy
      have hnil : ys = [] := (fileRecords_stdin_best (by
        refine ⟨Or.inl rfl, ?_⟩
        decide) ys).1 hy
      rw [handle_file_stdin_best (main_opts a) cap delim preg _ _ hs]
      refine ⟨_, _, [(⟨none, some a.stdin⟩, ys)], rfl, rfl, ?_, ?_, Or.inr rfl⟩
      · intro p hp
        simp only [List.mem_singleton] at hp
        subst hp
        exact hy
      · subst hnil
        show status _ = 0 ↔ _
        rw [status_eq_zero]
        simp [start_run]
    | false =>
      rw [hb] at hy
      have hM : ModeInv a.max_cost (start_run a) := Or.inl ⟨by rw [hbm0, hb]; rfl, rfl⟩
      obtain ⟨fl, rf, hf, hM1, _, hex, hiff⟩ :=
        fold_file_mode delim (main_opts a) preg a.max_cost hcol'
          ⟨none, some a.stdin⟩ ys
          (start_run a) hM (by rw [hbm0, hb]; intro h; cases h) (by rw [hbm0, hb]; exact hy)
      rcases hres with ⟨hf0, _⟩ | ⟨fl2, rf2, rl, hf2, hl, hn, _⟩
      · rw [hf] at hf0; cases hf0
      · rw [hf] at hf2
        simp only [Option.some.injEq, Prod.mk.injEq] at hf2
        obtain ⟨rfl, rfl⟩ := hf2
        have hhave : rl.have_matches = rf.have_matches := (noscan_eq_fields hn).2.2.2.1
        rw [hl]
        have hfys : ∀ p ∈ [((⟨none, some a.stdin⟩ : File), ys)],
            FileRecords delim 0 p.1 p.2 := by
          intro p hp
          simp only [List.mem_singleton] at hp
          subst hp
          exact hy
        have hstart : (start_run a).have_matches = false := rfl
        rw [hstart] at hiff
        cases fl with
        | exit code =>
          have hc := hex code rfl
          subst hc
          refine ⟨0, rl, [(⟨none, some a.stdin⟩, ys)], rfl, rfl, hfys, ?_, Or.inl rfl⟩
          simp only [List.mem_singleton, exists_eq_left, true_iff, Bool.false_eq_true, ↓reduceIte]
          have := hiff.1 (Or.inl rfl)
          simpa [qualifies_main_opts] using this
        | ret code =>
          refine ⟨status rl, rl, [(⟨none, some a.stdin⟩, ys)], rfl, rfl, hfys, ?_,
            status_cases rl⟩
          rw [status_eq_zero, hhave]
          simp only [List.mem_singleton, exists_eq_left, Bool.false_eq_true, ↓reduceIte]
          have := hiff
          simpa [qualifies_main_opts] using this
  · rw [if_neg hfiles]
    cases hb : a.best_match with
    | false =>
      have hmain : main_files cap delim preg a =
          match handle_files (main_opts a) cap delim preg a.files (start_run a) with
          | none => none
          | some (some c, r1) => some (c, r1)
          | some (none, r1) => some (status r1, r1) := by
        unfold main_files
        rw [if_neg hfiles, hb]
        rfl
      obtain ⟨fys, hmap, hy, hres⟩ := handle_files_fold hd (main_opts a) hcap preg a.files
        (start_run a) (start_run a) (by rw [if_neg hfiles] at hfit; exact hfit) static_buf rfl
      rw [hbm0, hb] at hy
      have hM : ModeInv a.max_cost (start_run a) := Or.inl ⟨by rw [hbm0, hb]; rfl, rfl⟩
      obtain ⟨ex, rf, hf, hM1, _, hex, hiff⟩ :=
        fold_files_mode delim (main_opts a) preg a.max_cost hcol' fys
          (start_run a) hM (by rw [hbm0, hb]; intro h; cases h) (by rw [hbm0, hb]; exact hy)
      have hstart : (start_run a).have_matches = false := rfl
      rw [hstart] at hiff
      rcases hres with ⟨hf0, _⟩ | ⟨ex2, rf2, rl, hf2, hl, hn, _⟩
      · rw [hf] at hf0; cases hf0
      · rw [hf] at hf2
        simp only [Option.some.injEq, Prod.mk.injEq] at hf2
        obtain ⟨rfl, rfl⟩ := hf2
        have hhave : rl.have_matches = rf.have_matches := (noscan_eq_fields hn).2.2.2.1
        rw [hmain, hl]
        rcases hex with rfl | rfl
        · refine ⟨status rl, rl, fys, rfl, hmap, hy, ?_, status_cases rl⟩
          rw [status_eq_zero, hhave]
          simpa [qualifies_main_opts] using hiff
        · refine ⟨0, rl, fys, rfl, hmap, hy, ?_, Or.inl rfl⟩
          have := hiff.1 (Or.inl rfl)
          simpa [qualifies_main_opts] using this
    | true =>
      have hmain : main_files cap delim preg a =
          match handle_files (main_opts a) cap delim preg a.files (first_pass a) with
          | none => none
          | some (some c, r2) => some (c, r2)
          | some (none, r2) =>
            if r2.best_cost = INT_MAX then some (1, r2)
            else
              match handle_files (main_opts a) cap delim preg a.files (second_pass r2) with
              | none => none
              | some (some c, r4) => some (c, r4)
              | some (none, r4) => some (status r4, r4) := by
        unfold main_files
        rw [if_neg hfiles, hb]
        rfl
      have hbm1 : (first_pass a).best_match = 1 := by
        show (start_run a).best_match = 1
        rw [hbm0, hb]; rfl
      obtain ⟨fys, hmap, hy, hres⟩ := handle_files_fold hd (main_opts a) hcap preg a.files
        (first_pass a) (first_pass a) (by rw [if_neg hfiles] at hfit; exact hfit) static_buf rfl
      rw [hbm1] at hy
      have hM : ModeInv INT_MAX (first_pass a) :=
        Or.inr (Or.inl ⟨hbm1, rfl, fun _ => rfl, by intro h; cases h⟩)
      obtain ⟨ex, rf, hf, hM1, hb1, hex, hiff⟩ :=
        fold_files_mode delim (main_opts a) preg INT_MAX hcol' fys
          (first_pass a) hM (fun _ => hbm hb) (by rw [hbm1]; exact hy)
      have hstart : (first_pass a).have_matches = false := rfl
      rw [hstart] at hiff
      rw [hbm1] at hb1
      rcases hres with ⟨hf0, _⟩ | ⟨ex2, rf2, rl, hf2, hl, hn, hbuf⟩
      · rw [hf] at hf0; cases hf0
      · rw [hf] at hf2
        simp only [Option.some.injEq, Prod.mk.injEq] at hf2
        obtain ⟨rfl, rfl⟩ := hf2
        obtain ⟨n1, n2, n3, n4, n5, n6, n7⟩ := noscan_eq_fields hn
        rw [hmain, hl]
        rcases hex with rfl | rfl
        · simp only
          have hJ : (rf.have_matches = false → rf.best_cost = INT_MAX) ∧
              (rf.have_matches = true → rf.best_cost < INT_MAX) := by
            rcases hM1 with ⟨h0, _⟩ | ⟨_, _, hJ, hJ2⟩ | ⟨_, h1, _⟩
            · rw [hb1] at h0; cases h0
            · exact ⟨hJ, hJ2⟩
            · exact absurd hb1 h1
          by_cases hmax : rl.best_cost = INT_MAX
          · rw [if_pos hmax]
            refine ⟨1, rl, fys, rfl, hmap, hy, ?_, Or.inr rfl⟩
            have hnot : ¬ rf.have_matches = true := by
              intro h
              have := hJ.2 h
              rw [← n3, hmax] at this
              exact Nat.lt_irrefl _ this
            constructor
            · intro h; cases h
            · intro h
              exfalso
              apply hnot
              have := hiff.2 (Or.inr (by simpa [qualifies_main_opts] using h))
              rcases this with h | h
              · cases h
              · exact h
          · rw [if_neg hmax]
            have hhave : rf.have_matches = true := by
              cases hh : rf.have_matches with
              | true => rfl
              | false =>
                exfalso
                apply hmax
                rw [n3]
                exact hJ.1 hh
            have hq : ∃ p ∈ fys, ∃ y ∈ p.2,
                qualifies a.opts preg INT_MAX y.record_bytes = true := by
              have := hiff.1 (Or.inr hhave)
              simpa [qualifies_main_opts] using this
            -- the second pass
            obtain ⟨fys2, _, hy2, hres2⟩ := handle_files_fold hd (main_opts a) hcap preg a.files
              (second_pass rl) (second_pass rf) (by rw [if_neg hfiles] at hfit; exact hfit) hbuf
              (noscan_of_fields (by show rl.best_cost = rf.best_cost; exact n3) rfl n3 n4 n5 n6 n7)
            have hM2 : ModeInv 0 (second_pass rf) :=
              Or.inr (Or.inr ⟨by show (2 : Nat) ≠ 0; decide, by show (2 : Nat) ≠ 1; decide,
                hhave⟩)
            obtain ⟨ex3, rf3, hf3, hM3, hb3, hex3, hiff3⟩ :=
              fold_files_mode delim (main_opts a) preg 0 hcol' fys2
                (second_pass rf) hM2 (by intro h; cases h) hy2
            have hhave3 : rf3.have_matches = true := by
              rcases hM3 with ⟨h0, _⟩ | ⟨h1, _⟩ | ⟨_, _, hh⟩
              · rw [hb3] at h0; cases h0
              · rw [hb3] at h1; cases h1
              · exact hh
            rcases hres2 with ⟨hf0, _⟩ | ⟨ex4, rf4, rl4, hf4, hl4, hn4, _⟩
            · rw [hf3] at hf0; cases hf0
            · rw [hf3] at hf4
              simp only [Option.some.injEq, Prod.mk.injEq] at hf4
              obtain ⟨rfl, rfl⟩ := hf4
              have hh4 : rl4.have_matches = true := by
                rw [(noscan_eq_fields hn4).2.2.2.1]; exact hhave3
              rw [hl4]
              rcases hex3 with rfl | rfl
              · refine ⟨status rl4, rl4, fys, rfl, hmap, hy, ?_, status_cases _⟩
                rw [status_eq_zero]
                exact ⟨fun _ => hq, fun _ => hh4⟩
              · exact ⟨0, rl4, fys, rfl, hmap, hy, ⟨fun _ => hq, fun _ => rfl⟩, Or.inl rfl⟩
        · refine ⟨0, rl, fys, rfl, hmap, hy, ?_, Or.inl rfl⟩
          have := hiff.1 (Or.inl rfl)
          simpa [qualifies_main_opts] using this

theorem cost_preg_below_max (c : Nat) (hc : c < INT_MAX) : CostsBelowMax (cost_preg c) := by
  intro mc t c1 so eo h
  unfold cost_preg at h
  split at h
  · simp only [AExec.ok.injEq] at h
    rw [← h.1]; exact hc
  · cases h

theorem one_file_fits :
    ∀ f ∈ (if ([⟨some "f", some ⟨[97, 10], []⟩⟩] : List File) = [] then
        [(⟨none, some ⟨[], []⟩⟩ : File)] else [⟨some "f", some ⟨[97, 10], []⟩⟩]), f.Fits := by
  intro f hf fd hfd
  simp only [List.cons_ne_self, ↓reduceIte, List.mem_singleton, reduceCtorEq] at hf
  subst hf
  simp only [File.descriptor, File.is_stdin] at hfd
  simp at hfd
  subst hfd
  decide

theorem status_below_int_max_witness :
    DelimOK newline_delim ∧ 0 < 16 ∧
    (default_opts.color_option = true → default_opts.invert_match = false →
      PatAdvances (cost_preg 2)) ∧
    (true = true → CostsBelowMax (cost_preg 2)) ∧
    ∃ (code : Nat) (r : Run) (fys : List (File × List Scan)),
      main_files 16 newline_delim (cost_preg 2)
        ⟨default_opts, none, true, false, 0, [⟨some "f", some ⟨[97, 10], []⟩⟩], ⟨[], []⟩⟩
        = some (code, r) ∧
      fys.map Prod.fst = [⟨some "f", some ⟨[97, 10], []⟩⟩] ∧
      (∀ p ∈ fys, FileRecords newline_delim 1 p.1 p.2) ∧
      (code = 0 ↔ ∃ p ∈ fys, ∃ y ∈ p.2,
        qualifies default_opts (cost_preg 2) INT_MAX y.record_bytes = true) ∧
      (code = 0 ∨ code = 1) :=
  ⟨newline_delim_ok, by decide, fun h => absurd h (by decide),
    fun _ => cost_preg_below_max 2 (by decide),
    status_below_int_max newline_delim newline_delim_ok 16 (by decide) (cost_preg 2)
      ⟨default_opts, none, true, false, 0, [⟨some "f", some ⟨[97, 10], []⟩⟩], ⟨[], []⟩⟩
      (fun h => absurd h (by decide)) (fun _ => cost_preg_below_max 2 (by decide))
      one_file_fits⟩

set_option maxRecDepth 100000 in
/-- C8 (exit status), at the failing input: in best-match mode, for a file
whose only record `"a"` matches the pattern with cost `INT_MAX`, the record
qualifies under the ceiling `INT_MAX` and the run sets `have_matches`, yet
`main` returns 1 and writes nothing, because it takes `best_cost == INT_MAX`
after the first pass to mean that no record matched. -/
theorem exit_status_cost_int_max :
    (main_files INITIAL_BUF_SIZE newline_delim (cost_preg INT_MAX)
        ⟨default_opts, none, true, false, 0, [⟨some "f", some ⟨[97, 10], []⟩⟩],
          ⟨[], []⟩⟩).map (fun x => (x.1, x.2.have_matches, x.2.out))
      = some (1, true, []) ∧
    qualifies default_opts (cost_preg INT_MAX) INT_MAX [97] = true := by
  constructor <;> decide

/-! ## Best-match mode -/

theorem lcm_some_le {cost : List Nat → Option Nat} {span : List Nat → Nat × Nat} {mc : Nat}
    {t : List Nat} {c : Nat} (hc : cost t = some c) (hle : c ≤ mc) :
    least_cost_matcher cost span mc t = .ok c (span t).1 (span t).2 := by
  simp [least_cost_matcher, hc, hle]

theorem lcm_some_gt {cost : List Nat → Option Nat} {span : List Nat → Nat × Nat} {mc : Nat}
    {t : List Nat} {c : Nat} (hc : cost t = some c) (hgt : ¬ c ≤ mc) :
    least_cost_matcher cost span mc t = .nomatch := by
  simp [least_cost_matcher, hc, hgt]

theorem lcm_none {cost : List Nat → Option Nat} {span : List Nat → Nat × Nat} {mc : Nat}
    {t : List Nat} (hc : cost t = none) :
    least_cost_matcher cost span mc t = .nomatch := by
  simp [least_cost_matcher, hc]

/-- Under a least-cost matcher and without `invert_match`, a record qualifies
exactly when its least cost is within the ceiling. -/
theorem qualifies_lcm {o : Opts} (hinv : o.invert_match = false)
    (cost : List Nat → Option Nat) (span : List Nat → Nat × Nat) (mc : Nat) (t : List Nat) :
    (qualifies o (least_cost_matcher cost span) mc t = true ↔ ∃ c, cost t = some c ∧ c ≤ mc) ∧
      (∀ c, cost t = some c → c ≤ mc →
        (least_cost_matcher cost span mc t).cost = c ∧
        (least_cost_matcher cost span mc t).span = span t) := by
  unfold qualifies
  rw [hinv]
  cases hc : cost t with
  | none =>
    refine ⟨?_, by intro c h; cases h⟩
    rw [lcm_none hc]
    simp [AExec.is_ok]
  | some c =>
    by_cases hle : c ≤ mc
    · rw [lcm_some_le hc hle]
      refine ⟨by simp [AExec.is_ok, hle], ?_⟩
      intro c1 h1 _
      simp only [Option.some.injEq] at h1
      subst h1
      exact ⟨rfl, rfl⟩
    · rw [lcm_some_gt hc hle]
      refine ⟨by simp [AExec.is_ok, hle], ?_⟩
      intro c1 h1 h2
      simp only [Option.some.injEq] at h1
      subst h1
      exact absurd h2 hle

/-- The cost by which a record lowers `best_cost` in the first pass. -/
theorem min_cost_cons (c : Nat) (l : List Nat) : min_cost (c :: l) = min c (min_cost l) := rfl

theorem min_cost_le_max (l : List Nat) : min_cost l ≤ INT_MAX := by
  induction l with
  | nil => exact Nat.le_refl _
  | cons c l ih => rw [min_cost_cons]; exact Nat.le_trans (Nat.min_le_right _ _) ih

theorem min_cost_append (l1 l2 : List Nat) :
    min_cost (l1 ++ l2) = min (min_cost l1) (min_cost l2) := by
  induction l1 with
  | nil =>
    have := min_cost_le_max l2
    simp only [List.nil_append]
    show min_cost l2 = min INT_MAX (min_cost l2)
    omega
  | cons c l ih =>
    rw [List.cons_append, min_cost_cons, min_cost_cons, ih, Nat.min_assoc]

theorem min_cost_le_mem {l : List Nat} {c : Nat} (h : c ∈ l) : min_cost l ≤ c := by
  induction l with
  | nil => cases h
  | cons d l ih =>
    rw [min_cost_cons]
    simp only [List.mem_cons] at h
    rcases h with rfl | h
    · exact Nat.min_le_left _ _
    · exact Nat.le_trans (Nat.min_le_right _ _) (ih h)

/-- The first best-match pass on one record: `best_cost` becomes the minimum
of itself and the cost of the record; nothing is written. -/
theorem step_pass1 (o : Opts) (cost : List Nat → Option Nat) (span : List Nat → Nat × Nat)
    (filename : String) (recnum count : Nat) (r : Run)
    (hinv : o.invert_match = false) (hsil : o.be_silent = false) (hb : r.best_match = 1)
    (hJ : r.have_matches = false → r.best_cost = INT_MAX) (hmax : r.best_cost ≤ INT_MAX) :
    ∃ ctl c1 r1, handle_record o (least_cost_matcher cost span) filename recnum count r
        = some (ctl, c1, r1) ∧ (ctl = .next ∨ (ctl = .brk ∧ r.best_cost = 0)) ∧
      r1.best_match = 1 ∧ r1.out = r.out ∧ r1.prev_filename = r.prev_filename ∧
      r1.best_cost = min r.best_cost (min_cost ((cost r.scan.record_bytes).toList)) ∧
      (r1.have_matches = false → r1.best_cost = INT_MAX) := by
  obtain ⟨f1, f2, f3, f4, f5, f6, f7, f8⟩ := set_ceiling_fields r
  have hmc : (set_ceiling r).max_cost = r.best_cost := by
    rw [f8, if_pos (by rw [hb]; decide)]
  obtain ⟨hq, hcs⟩ := qualifies_lcm hinv cost span r.best_cost r.scan.record_bytes
  apply handle_record_cases o (least_cost_matcher cost span) filename recnum count r
    (fun x => ∃ ctl c1 r1, x = some (ctl, c1, r1) ∧
      (ctl = .next ∨ (ctl = .brk ∧ r.best_cost = 0)) ∧
      r1.best_match = 1 ∧ r1.out = r.out ∧ r1.prev_filename = r.prev_filename ∧
      r1.best_cost = min r.best_cost (min_cost ((cost r.scan.record_bytes).toList)) ∧
      (r1.have_matches = false → r1.best_cost = INT_MAX))
  · intro _ h0
    rw [f3] at h0
    refine ⟨.brk, count, _, rfl, Or.inr ⟨rfl, h0⟩, by rw [f2]; exact hb, f6, f5, ?_, ?_⟩
    · rw [f3, h0]; simp
    · rw [f4, f3]; exact hJ
  · intro _ hQ
    rw [hmc, f1] at hQ
    refine ⟨.next, count, _, rfl, Or.inl rfl, by rw [f2]; exact hb, f6, f5, ?_, ?_⟩
    · rw [f3]
      cases hc : cost r.scan.record_bytes with
      | none =>
        show r.best_cost = min r.best_cost INT_MAX
        omega
      | some c =>
        have hgt : ¬ c ≤ r.best_cost := by
          intro hle
          have := hq.2 ⟨c, hc, hle⟩
          rw [this] at hQ; cases hQ
        show r.best_cost = min r.best_cost (min c INT_MAX)
        omega
    · rw [f4, f3]; exact hJ
  · intro _ _ hs
    rw [hsil] at hs; cases hs
  · intro _ hQ _ _
    rw [hmc, f1] at hQ
    obtain ⟨c, hc, hle⟩ := hq.1 hQ
    obtain ⟨hcost, _⟩ := hcs c hc hle
    refine ⟨.next, count + 1, _, rfl, Or.inl rfl, ?_, ?_, ?_, ?_, ?_⟩
    · split <;> (show (set_ceiling r).best_match = 1; rw [f2]; exact hb)
    · split <;> exact f6
    · split <;> exact f5
    · rw [hc]
      show _ = min r.best_cost (min c INT_MAX)
      split
      · rename_i hlt
        rw [hmc, f1, hcost, f3] at hlt
        show (least_cost_matcher cost span (set_ceiling r).max_cost
          (set_ceiling r).scan.record_bytes).cost = _
        rw [hmc, f1, hcost]
        omega
      · rename_i hlt
        rw [hmc, f1, hcost, f3] at hlt
        show (set_ceiling r).best_cost = _
        rw [f3]
        omega
    · intro h
      split at h <;> cases h
  · intro _ _ h1 _ _; rw [f2] at h1; exact absurd hb h1
  · intro _ _ h1 _ _; rw [f2] at h1; exact absurd hb h1
  · intro _ _ h1 _ _ _; rw [f2] at h1; exact absurd hb h1
  · intro _ _ h1 _ _ _; rw [f2] at h1; exact absurd hb h1

theorem filterMap_cost_cons (cost : List Nat → Option Nat) (y : Scan) (ys : List Scan) :
    (y :: ys).filterMap (fun y => cost y.record_bytes)
      = (cost y.record_bytes).toList ++ ys.filterMap (fun y => cost y.record_bytes) := by
  cases h : cost y.record_bytes <;> simp [List.filterMap_cons, h]

/-- The first best-match pass over the records of a file. -/
theorem fold_records_pass1 (o : Opts) (cost : List Nat → Option Nat)
    (span : List Nat → Nat × Nat) (filename : String)
    (hinv : o.invert_match = false) (hsil : o.be_silent = false) :
    ∀ (ys : List Scan) (recnum count : Nat) (r : Run), r.best_match = 1 →
      (r.have_matches = false → r.best_cost = INT_MAX) → r.best_cost ≤ INT_MAX →
      ∃ c1 r1, fold_records o (least_cost_matcher cost span) filename ys recnum count r
          = some (none, c1, r1) ∧
        r1.best_match = 1 ∧ r1.out = r.out ∧ r1.prev_filename = r.prev_filename ∧
        r1.best_cost
          = min r.best_cost (min_cost (ys.filterMap (fun y => cost y.record_bytes))) ∧
        (r1.have_matches = false → r1.best_cost = INT_MAX)
  | [], _, count, r, hb, hJ, hmax =>
    ⟨count, r, rfl, hb, rfl, rfl, by
      show r.best_cost = min r.best_cost INT_MAX
      omega, hJ⟩
  | y :: ys, recnum, count, r, hb, hJ, hmax => by
    obtain ⟨ctl, c1, r1, hh, hctl, hb1, ho1, hp1, hc1, hJ1⟩ :=
      step_pass1 o cost span filename (recnum + 1) count { r with scan := y } hinv hsil hb hJ hmax
    simp only at hctl ho1 hp1 hc1
    rw [filterMap_cost_cons, min_cost_append]
    rcases hctl with rfl | ⟨rfl, h0⟩
    · have hmax1 : r1.best_cost ≤ INT_MAX := by rw [hc1]; omega
      obtain ⟨c2, r2, hf, hb2, ho2, hp2, hc2, hJ2⟩ :=
        fold_records_pass1 o cost span filename hinv hsil ys (recnum + 1) c1 r1 hb1 hJ1 hmax1
      refine ⟨c2, r2, by simp only [fold_records, hh, hf], hb2, by rw [ho2, ho1],
        by rw [hp2, hp1], ?_, hJ2⟩
      rw [hc2, hc1, Nat.min_assoc]
    · refine ⟨c1, r1, by simp only [fold_records, hh], hb1, ho1, hp1, ?_, hJ1⟩
      rw [hc1, h0]
      simp

/-- The first best-match pass over one file. -/
theorem fold_file_pass1 (delim : DelimMatcher) (o : Opts) (cost : List Nat → Option Nat)
    (span : List Nat → Nat × Nat)
    (hinv : o.invert_match = false) (hsil : o.be_silent = false)
    (f : File) (ys : List Scan) (r : Run) (hb : r.best_match = 1)
    (hJ : r.have_matches = false → r.best_cost = INT_MAX) (hmax : r.best_cost ≤ INT_MAX)
    (hy : FileRecords delim 1 f ys) :
    ∃ code r1, fold_file o (least_cost_matcher cost span) f ys r = some (.ret code, r1) ∧
      r1.best_match = 1 ∧ r1.out = r.out ∧ r1.prev_filename = r.prev_filename ∧
      r1.best_cost = min r.best_cost (min_cost (ys.filterMap (fun y => cost y.record_bytes))) ∧
      (r1.have_matches = false → r1.best_cost = INT_MAX) := by
  have hmin : r.best_cost = min r.best_cost INT_MAX := by omega
  by_cases hs : f.is_stdin ∧ r.best_match ≠ 0
  · have hnil := (fileRecords_stdin_best (by rw [hb] at hs; exact hs) ys).1 hy
    subst hnil
    exact ⟨2, _, fold_file_stdin_best o _ f [] r hs, hb, rfl, rfl, hmin, hJ⟩
  · cases hdsc : f.descriptor with
    | none =>
      have hnil := (fileRecords_noopen (by rw [hb] at hs; exact hs) hdsc ys).1 hy
      subst hnil
      exact ⟨1, _, fold_file_noopen o _ f [] r hs hdsc, hb, rfl, rfl, hmin, hJ⟩
    | some fd =>
      obtain ⟨c1, r1, hf, hb1, ho1, hp1, hc1, hJ1⟩ :=
        fold_records_pass1 o cost span f.shown_name hinv hsil ys 0 0 r hb hJ hmax
      rw [fold_file_open o _ f ys r hs hdsc, hf]
      simp only
      rw [if_neg (by rw [hb1]; simp)]
      exact ⟨0, r1, rfl, hb1, ho1, hp1, hc1, hJ1⟩

theorem all_costs_cons (cost : List Nat → Option Nat) (f : File) (ys : List Scan)
    (fys : List (File × List Scan)) :
    all_costs cost ((f, ys) :: fys)
      = ys.filterMap (fun y => cost y.record_bytes) ++ all_costs cost fys := by
  simp [all_costs]

/-- The first best-match pass over the files: `best_cost` ends as the minimum
of its start value and the costs of all records. -/
theorem fold_files_pass1 (delim : DelimMatcher) (o : Opts) (cost : List Nat → Option Nat)
    (span : List Nat → Nat × Nat)
    (hinv : o.invert_match = false) (hsil : o.be_silent = false) :
    ∀ (fys : List (File × List Scan)) (r : Run), r.best_match = 1 →
      (r.have_matches = false → r.best_cost = INT_MAX) → r.best_cost ≤ INT_MAX →
      (∀ p ∈ fys, FileRecords delim 1 p.1 p.2) →
      ∃ r1, fold_files o (least_cost_matcher cost span) fys r = some (none, r1) ∧
        r1.best_match = 1 ∧ r1.out = r.out ∧ r1.prev_filename = r.prev_filename ∧
        r1.best_cost = min r.best_cost (min_cost (all_costs cost fys)) ∧
        (r1.have_matches = false → r1.best_cost = INT_MAX)
  | [], r, hb, hJ, hmax, _ =>
    ⟨r, rfl, hb, rfl, rfl, by
      show r.best_cost = min r.best_cost INT_MAX
      omega, hJ⟩
  | (f, ys) :: fys, r, hb, hJ, hmax, hy => by
    obtain ⟨code, r1, hf, hb1, ho1, hp1, hc1, hJ1⟩ :=
      fold_file_pass1 delim o cost span hinv hsil f ys r hb hJ hmax
        (hy (f, ys) (List.mem_cons_self _ _))
    have hmax1 : r1.best_cost ≤ INT_MAX := by rw [hc1]; omega
    obtain ⟨r2, hf2, hb2, ho2, hp2, hc2, hJ2⟩ :=
      fold_files_pass1 delim o cost span hinv hsil fys r1 hb1 hJ1 hmax1
        (fun p hp => hy p (List.mem_cons_of_mem _ hp))
    refine ⟨r2, by simp only [fold_files, hf, hf2], hb2, by rw [ho2, ho1], by rw [hp2, hp1],
      ?_, hJ2⟩
    rw [hc2, hc1, all_costs_cons, min_cost_append, Nat.min_assoc]

/-- The renderer neither reads nor writes `best_match`, `best_cost`,
`have_matches` and `err`. -/
theorem render_update (o : Opts) (preg : PatMatcher) (filename : String) (recnum cost : Nat)
    (pm : Nat × Nat) (r : Run) (b c : Nat) (h : Bool) (e : List String) :
    render o preg filename recnum cost pm { r with best_match := b, best_cost := c, have_matches := h, err := e }
      = (render o preg filename recnum cost pm r).map
          (fun x => { x with best_match := b, best_cost := c, have_matches := h, err := e }) := by
  obtain ⟨s, m, b0, c0, h0, p0, o0, e0⟩ := r
  unfold render
  simp only []
  split
  · split
    · rename_i hw
      rfl
    · rename_i w hw
      rfl
  · rfl

/-- What the renderer writes depends only on what was written before, the
cached file name, the ceiling and the record. -/
theorem render_congr (o : Opts) (preg : PatMatcher) (filename : String) (recnum cost : Nat)
    (pm : Nat × Nat) (ra rs : Run) (ho : ra.out = rs.out)
    (hp : ra.prev_filename = rs.prev_filename) (hm : ra.max_cost = rs.max_cost)
    (hs : ra.scan = rs.scan) {ra1 : Run}
    (h : render o preg filename recnum cost pm ra = some ra1) :
    ∃ rs1, render o preg filename recnum cost pm rs = some rs1 ∧ ra1.out = rs1.out ∧
      ra1.prev_filename = rs1.prev_filename ∧ rs1.max_cost = rs.max_cost := by
  have hra : ra = { rs with best_match := ra.best_match, best_cost := ra.best_cost, have_matches := ra.have_matches, err := ra.err } := by
    obtain ⟨sa, ma, ba, ca, ha, pa, oa, ea⟩ := ra
    obtain ⟨ss, ms, bs, cs, hs2, ps, os, es⟩ := rs
    simp only at ho hp hm hs
    subst ho hp hm hs
    rfl
  rw [hra, render_update] at h
  simp only [Option.map_eq_some'] at h
  obtain ⟨rs1, hr, heq⟩ := h
  refine ⟨rs1, hr, ?_, ?_, (render_fields hr).2.2.2.1⟩
  · rw [← heq]
  · rw [← heq]

/-- The second best-match pass on one record: the record is written exactly
when its least cost is the best cost, as the renderer writes it. -/
theorem step_pass2 (o : Opts) (cost : List Nat → Option Nat) (span : List Nat → Nat × Nat)
    (filename : String) (recnum count m : Nat) (ra rs : Run)
    (hinv : o.invert_match = false) (hsil : o.be_silent = false)
    (hlist : o.list_files = false) (hcount : o.count_matches = false)
    (hcol : o.color_option = true → PatAdvances (least_cost_matcher cost span))
    (hrel : EmitRel m ra rs)
    (hge : ∀ c, cost ra.scan.record_bytes = some c → m ≤ c) :
    ∃ c1 ra1 rs1, handle_record o (least_cost_matcher cost span) filename recnum count ra
        = some (.next, c1, ra1) ∧
      (if cost ra.scan.record_bytes = some m then
        render o (least_cost_matcher cost span) filename recnum m
          (if o.color_option || o.print_position then span ra.scan.record_bytes else (0, 0))
          { rs with scan := ra.scan }
      else some rs) = some rs1 ∧ EmitRel m ra1 rs1 := by
  obtain ⟨f1, f2, f3, f4, f5, f6, f7, f8⟩ := set_ceiling_fields ra
  have hb2 : (set_ceiling ra).best_match = 2 := by rw [f2]; exact hrel.best_match
  have hmc : (set_ceiling ra).max_cost = m := by
    rw [f8, if_pos (by rw [hrel.best_match]; decide)]; exact hrel.best_cost
  obtain ⟨hq, hcs⟩ := qualifies_lcm hinv cost span m ra.scan.record_bytes
  apply handle_record_cases o (least_cost_matcher cost span) filename recnum count ra
    (fun x => ∃ c1 ra1 rs1, x = some (.next, c1, ra1) ∧
      (if cost ra.scan.record_bytes = some m then
        render o (least_cost_matcher cost span) filename recnum m
          (if o.color_option || o.print_position then span ra.scan.record_bytes else (0, 0))
          { rs with scan := ra.scan }
      else some rs) = some rs1 ∧ EmitRel m ra1 rs1)
  · intro h1 _
    rw [hb2] at h1; cases h1
  · intro _ hQ
    rw [hmc, f1] at hQ
    have hne : ¬ cost ra.scan.record_bytes = some m := by
      intro hc
      have := hq.2 ⟨m, hc, Nat.le_refl m⟩
      rw [this] at hQ; cases hQ
    refine ⟨count, _, rs, rfl, by rw [if_neg hne], ?_⟩
    exact ⟨by rw [f6]; exact hrel.out, by rw [f5]; exact hrel.prev, hb2,
      by rw [f3]; exact hrel.best_cost, by rw [f4]; exact hrel.matched, hrel.ceiling⟩
  · intro _ _ h
    rw [hsil] at h; cases h
  · intro _ _ _ h1
    rw [hb2] at h1; cases h1
  · intro hQ _ _ _ hgt
    rw [hmc, f1] at hQ hgt
    obtain ⟨c, hc, hle⟩ := hq.1 hQ
    rw [(hcs c hc hle).1, f3, hrel.best_cost] at hgt
    omega
  · intro _ _ _ _ h
    rw [hlist] at h; cases h
  · intro hQ _ _ _ _ _
    rw [hmc, f1] at hQ ⊢
    obtain ⟨c, hc, hle⟩ := hq.1 hQ
    have hcm : c = m := Nat.le_antisymm hle (hge c hc)
    subst hcm
    obtain ⟨hcost, hspan⟩ := hcs c hc hle
    rw [hcost, hspan, if_pos hc]
    have hpos : o.color_option = true → o.invert_match = false →
        PatAdvances (least_cost_matcher cost span) ∧
          0 < (if o.color_option || o.print_position then span ra.scan.record_bytes
            else (0, 0)).2 := by
      intro hco _
      refine ⟨hcol hco, ?_⟩
      rw [if_pos (by rw [hco]; rfl)]
      exact (hcol hco c ra.scan.record_bytes c _ _ (lcm_some_le hc hle)).2.1
    obtain ⟨ra1, hra1⟩ := render_some o (least_cost_matcher cost span) filename recnum c
      (if o.color_option || o.print_position then span ra.scan.record_bytes else (0, 0))
      { set_ceiling ra with have_matches := true } hpos
    obtain ⟨rs1, hrs1, ho1, hp1, hm1⟩ := render_congr o (least_cost_matcher cost span) filename
      recnum c (if o.color_option || o.print_position then span ra.scan.record_bytes else (0, 0))
      { set_ceiling ra with have_matches := true } { rs with scan := ra.scan }
      (by show (set_ceiling ra).out = rs.out; rw [f6]; exact hrel.out)
      (by show (set_ceiling ra).prev_filename = rs.prev_filename; rw [f5]; exact hrel.prev)
      (by show (set_ceiling ra).max_cost = rs.max_cost; rw [hmc, hrel.ceiling])
      (by show (set_ceiling ra).scan = ra.scan; exact f1) hra1
    obtain ⟨_, g2, g3, _, g5, _⟩ := render_fields hra1
    refine ⟨count + 1, ra1, rs1, by rw [hra1]; rfl, hrs1, ?_⟩
    exact ⟨ho1, hp1, by rw [g2]; exact hb2, by rw [g3]; show (set_ceiling ra).best_cost = c; rw [f3]; exact hrel.best_cost,
      by rw [g5], by rw [hm1]; exact hrel.ceiling⟩
  · intro _ _ _ _ _ h
    rw [hcount] at h; cases h

/-- The second best-match pass over the records of a file writes what the
emitting pass writes. -/
theorem fold_records_pass2 (o : Opts) (cost : List Nat → Option Nat)
    (span : List Nat → Nat × Nat) (filename : String) (m : Nat)
    (hinv : o.invert_match = false) (hsil : o.be_silent = false)
    (hlist : o.list_files = false) (hcount : o.count_matches = false)
    (hcol : o.color_option = true → PatAdvances (least_cost_matcher cost span)) :
    ∀ (ys : List Scan) (recnum count : Nat) (ra rs : Run), EmitRel m ra rs →
      (∀ y ∈ ys, ∀ c, cost y.record_bytes = some c → m ≤ c) →
      ∃ c1 ra1 rs1, fold_records o (least_cost_matcher cost span) filename ys recnum count ra
          = some (none, c1, ra1) ∧
        emit_records o (least_cost_matcher cost span) cost span filename m ys recnum rs
          = some rs1 ∧ EmitRel m ra1 rs1
  | [], _, count, ra, rs, hrel, _ => ⟨count, ra, rs, rfl, rfl, hrel⟩
  | y :: ys, recnum, count, ra, rs, hrel, hge => by
    obtain ⟨c1, ra1, rs1, hh, he, hrel1⟩ :=
      step_pass2 o cost span filename (recnum + 1) count m { ra with scan := y } rs
        hinv hsil hlist hcount hcol
        ⟨hrel.out, hrel.prev, hrel.best_match, hrel.best_cost, hrel.matched, hrel.ceiling⟩
        (hge y (List.mem_cons_self _ _))
    obtain ⟨c2, ra2, rs2, hf, he2, hrel2⟩ :=
      fold_records_pass2 o cost span filename m hinv hsil hlist hcount hcol ys (recnum + 1) c1
        ra1 rs1 hrel1 (fun z hz => hge z (List.mem_cons_of_mem _ hz))
    refine ⟨c2, ra2, rs2, by simp only [fold_records, hh, hf], ?_, hrel2⟩
    simp only at he
    unfold emit_records
    split
    · rename_i hc
      rw [if_pos hc] at he
      rw [he]
      exact he2
    · rename_i hc
      rw [if_neg hc] at he
      simp only [Option.some.injEq] at he
      rw [he]
      exact he2

/-- The second best-match pass over one file. -/
theorem fold_file_pass2 (delim : DelimMatcher) (o : Opts) (cost : List Nat → Option Nat)
    (span : List Nat → Nat × Nat) (m : Nat)
    (hinv : o.invert_match = false) (hsil : o.be_silent = false)
    (hlist : o.list_files = false) (hcount : o.count_matches = false)
    (hcol : o.color_option = true → PatAdvances (least_cost_matcher cost span))
    (f : File) (ys : List Scan) (ra rs : Run) (hrel : EmitRel m ra rs)
    (hy : FileRecords delim 2 f ys)
    (hge : ∀ y ∈ ys, ∀ c, cost y.record_bytes = some c → m ≤ c) :
    ∃ code ra1 rs1, fold_file o (least_cost_matcher cost span) f ys ra = some (.ret code, ra1) ∧
      emit_records o (least_cost_matcher cost span) cost span f.shown_name m ys 0 rs
        = some rs1 ∧ EmitRel m ra1 rs1 := by
  have hb := hrel.best_match
  by_cases hs : f.is_stdin ∧ ra.best_match ≠ 0
  · have hnil := (fileRecords_stdin_best (by rw [hb] at hs; exact hs) ys).1 hy
    subst hnil
    exact ⟨2, _, rs, fold_file_stdin_best o _ f [] ra hs, rfl,
      ⟨hrel.out, hrel.prev, hrel.best_match, hrel.best_cost, hrel.matched, hrel.ceiling⟩⟩
  · cases hdsc : f.descriptor with
    | none =>
      have hnil := (fileRecords_noopen (by rw [hb] at hs; exact hs) hdsc ys).1 hy
      subst hnil
      exact ⟨1, _, rs, fold_file_noopen o _ f [] ra hs hdsc, rfl,
        ⟨hrel.out, hrel.prev, hrel.best_match, hrel.best_cost, hrel.matched, hrel.ceiling⟩⟩
    | some fd =>
      obtain ⟨c1, ra1, rs1, hf, he, hrel1⟩ :=
        fold_records_pass2 o cost span f.shown_name m hinv hsil hlist hcount hcol ys 0 0 ra rs
          hrel hge
      rw [fold_file_open o _ f ys ra hs hdsc, hf]
      simp only
      rw [if_neg (by rw [hcount]; simp)]
      exact ⟨0, ra1, rs1, rfl, he, hrel1⟩

/-- The second best-match pass over the files writes what the emitting pass
writes. -/
theorem fold_files_pass2 (delim : DelimMatcher) (o : Opts) (cost : List Nat → Option Nat)
    (span : List Nat → Nat × Nat) (m : Nat)
    (hinv : o.invert_match = false) (hsil : o.be_silent = false)
    (hlist : o.list_files = false) (hcount : o.count_matches = false)
    (hcol : o.color_option = true → PatAdvances (least_cost_matcher cost span)) :
    ∀ (fys : List (File × List Scan)) (ra rs : Run), EmitRel m ra rs →
      (∀ p ∈ fys, FileRecords delim 2 p.1 p.2) →
      (∀ c ∈ all_costs cost fys, m ≤ c) →
      ∃ ra1 rs1, fold_files o (least_cost_matcher cost span) fys ra = some (none, ra1) ∧
        emit_files o (least_cost_matcher cost span) cost span m fys rs = some rs1 ∧
        EmitRel m ra1 rs1
  | [], ra, rs, hrel, _, _ => ⟨ra, rs, rfl, rfl, hrel⟩
  | (f, ys) :: fys, ra, rs, hrel, hy, hge => by
    rw [all_costs_cons] at hge
    obtain ⟨code, ra1, rs1, hf, he, hrel1⟩ :=
      fold_file_pass2 delim o cost span m hinv hsil hlist hcount hcol f ys ra rs hrel
        (hy (f, ys) (List.mem_cons_self _ _))
        (fun y hy c hc => hge c (List.mem_append_left _
          (List.mem_filterMap.mpr ⟨y, hy, hc⟩)))
    obtain ⟨ra2, rs2, hf2, he2, hrel2⟩ :=
      fold_files_pass2 delim o cost span m hinv hsil hlist hcount hcol fys ra1 rs1 hrel1
        (fun p hp => hy p (List.mem_cons_of_mem _ hp))
        (fun c hc => hge c (List.mem_append_right _ hc))
    exact ⟨ra2, rs2, by simp only [fold_files, hf, hf2], by simp only [emit_files, he, he2],
      hrel2⟩

/-- For a stable delimiter, the bytes of the records yielded for given bytes
depend neither on how the bytes came into the buffer nor on the delimiter
lengths left by an earlier file. -/
theorem Yields.bytes_unique {delim : DelimMatcher} (hd : DelimOK delim)
    (hst : DelimStable delim) {P Q : Prop} (hP : ¬ P) (hQ : ¬ Q)
    {u : List Nat} {dl ndl : Nat} {ys : List Scan} (h : Yields delim P u dl ndl ys) :
    ∀ {dl2 ndl2 : Nat} {zs : List Scan}, Yields delim Q u dl2 ndl2 zs →
      ys.map Scan.record_bytes = zs.map Scan.record_bytes := by
  induction h with
  | done u dl ndl hu =>
    intro dl2 ndl2 zs hz
    cases hz with
    | done _ _ _ _ => rfl
    | failed _ _ _ hfail => exact absurd hfail hQ
    | last _ _ _ z heof hrec hne _ _ _ _ => exact absurd hu hne
    | found _ _ _ z zs p q so eo hu2 hm _ _ _ _ _ _ _ =>
      have hp : p = [] := by
        rw [hu] at hu2
        exact (List.append_eq_nil.mp hu2.symm).1
      rw [hp, delimOK_nil hd] at hm
      cases hm
  | failed u dl ndl hfail => exact absurd hfail hP
  | last u dl ndl y heof hrec hne hm hdl hndl hlen =>
    intro dl2 ndl2 zs hz
    cases hz with
    | done _ _ _ hu => exact absurd hu hne
    | failed _ _ _ hfail => exact absurd hfail hQ
    | last _ _ _ z heof2 hrec2 _ _ hdl2 hndl2 hlen2 =>
      simp [hrec, hrec2]
    | found _ _ _ z zs p q so eo hu2 hm2 _ _ _ _ _ _ _ =>
      have := hst p q so eo hm2
      rw [← hu2, hm] at this
      cases this
  | found u dl ndl y ys p q so eo hu hm heof hrec hlen hafter hdl hndl htail ih =>
    intro dl2 ndl2 zs hz
    have hfull := hst p q so eo hm
    rw [← hu] at hfull
    obtain ⟨_, hle⟩ := (hd p).2 so eo hm
    cases hz with
    | failed _ _ _ hfail => exact absurd hfail hQ
    | done _ _ _ hu2 =>
      rw [hu2, delimOK_nil hd] at hfull
      cases hfull
    | last _ _ _ z _ _ _ hm2 _ _ _ =>
      rw [hm2] at hfull
      cases hfull
    | found _ _ _ z zs p2 q2 so2 eo2 hu2 hm2 heof2 hrec2 hlen2 hafter2 hdl2 hndl2 htail2 =>
      have hfull2 := hst p2 q2 so2 eo2 hm2
      rw [← hu2, hfull] at hfull2
      simp only [RegExec.ok.injEq] at hfull2
      obtain ⟨rfl, rfl⟩ := hfull2
      obtain ⟨hlt2, hle2⟩ := (hd p2).2 so eo hm2
      have htake : p.take so = p2.take so := by
        have e1 : (p ++ q).take so = p.take so := List.take_append_of_le_length (by omega)
        have e2 : (p2 ++ q2).take so = p2.take so := List.take_append_of_le_length (by omega)
        rw [← e1, ← e2, ← hu, ← hu2]
      have hdrop : p.drop eo ++ q = p2.drop eo ++ q2 := by
        have e1 : (p ++ q).drop eo = p.drop eo ++ q := List.drop_append_of_le_length hle
        have e2 : (p2 ++ q2).drop eo = p2.drop eo ++ q2 := List.drop_append_of_le_length hle2
        rw [← e1, ← e2, ← hu, ← hu2]
      rw [← hdrop] at htail2
      have := ih htail2
      simp only [List.map_cons, this]
      congr 1
      rw [hrec, hrec2, htake]

/-- Two scans of a file whose reads do not fail yield records of the same
bytes. -/
theorem fileRecords_bytes {delim : DelimMatcher} (hd : DelimOK delim) (hst : DelimStable delim)
    {f : File} (hnf : ∀ fd, f.descriptor = some fd → fd.NoFail) {b1 b2 : Nat}
    (hb1 : b1 ≠ 0) (hb2 : b2 ≠ 0) {ys zs : List Scan}
    (hy : FileRecords delim b1 f ys) (hz : FileRecords delim b2 f zs) :
    ys.map Scan.record_bytes = zs.map Scan.record_bytes := by
  by_cases hs : f.is_stdin
  · rw [(fileRecords_stdin_best ⟨hs, hb1⟩ ys).1 hy, (fileRecords_stdin_best ⟨hs, hb2⟩ zs).1 hz]
  · cases hdsc : f.descriptor with
    | none =>
      rw [(fileRecords_noopen (fun h => hs h.1) hdsc ys).1 hy,
        (fileRecords_noopen (fun h => hs h.1) hdsc zs).1 hz]
    | some fd =>
      obtain ⟨dl, ndl, h1⟩ := (fileRecords_open (fun h => hs h.1) hdsc ys).1 hy
      obtain ⟨dl2, ndl2, h2⟩ := (fileRecords_open (fun h => hs h.1) hdsc zs).1 hz
      have hno : ¬ (ReadStep.fail ∈ fd.sched) := fun hm => hnf fd hdsc _ hm rfl
      exact Yields.bytes_unique hd hst hno hno h1 h2

theorem filterMap_cost_bytes (cost : List Nat → Option Nat) (ys : List Scan) :
    ys.filterMap (fun y => cost y.record_bytes) = (ys.map Scan.record_bytes).filterMap cost := by
  rw [List.filterMap_map]
  rfl

/-- Two scans of the files yield the same costs. -/
theorem all_costs_unique {delim : DelimMatcher} (hd : DelimOK delim) (hst : DelimStable delim)
    (cost : List Nat → Option Nat) {b1 b2 : Nat} (hb1 : b1 ≠ 0) (hb2 : b2 ≠ 0) :
    ∀ (fys gys : List (File × List Scan)), fys.map Prod.fst = gys.map Prod.fst →
      (∀ p ∈ fys, ∀ fd, p.1.descriptor = some fd → fd.NoFail) →
      (∀ p ∈ fys, FileRecords delim b1 p.1 p.2) → (∀ p ∈ gys, FileRecords delim b2 p.1 p.2) →
      all_costs cost fys = all_costs cost gys
  | [], [], _, _, _, _ => rfl
  | [], _ :: _, h, _, _, _ => by simp at h
  | _ :: _, [], h, _, _, _ => by simp at h
  | (f, ys) :: fys, (g, zs) :: gys, h, hnf, hy, hz => by
    simp only [List.map_cons, List.cons.injEq] at h
    obtain ⟨hfg, hrest⟩ := h
    subst hfg
    rw [all_costs_cons, all_costs_cons, filterMap_cost_bytes, filterMap_cost_bytes cost zs,
      fileRecords_bytes hd hst (hnf (f, ys) (List.mem_cons_self _ _)) hb1 hb2
        (hy (f, ys) (List.mem_cons_self _ _)) (hz (f, zs) (List.mem_cons_self _ _)),
      all_costs_unique hd hst cost hb1 hb2 fys gys hrest
        (fun p hp => hnf p (List.mem_cons_of_mem _ hp))
        (fun p hp => hy p (List.mem_cons_of_mem _ hp))
        (fun p hp => hz p (List.mem_cons_of_mem _ hp))]

theorem fileRecords_best {delim : DelimMatcher} {b1 b2 : Nat} (hb1 : b1 ≠ 0) (hb2 : b2 ≠ 0)
    {f : File} {ys : List Scan} (h : FileRecords delim b1 f ys) : FileRecords delim b2 f ys := by
  unfold FileRecords at h ⊢
  simp only [hb1, hb2, ne_eq, not_false_eq_true, and_true] at h ⊢
  exact h

/-- Where the best-match run emits the records of least cost: for a delimiter
matcher that cannot match empty, does not run out of memory and whose match
is not changed by later bytes, files whose reads do not fail and whose bytes
cannot force the buffer beyond `INT_MAX` bytes, a matcher that reports the
least cost of a record whenever that cost is within the ceiling, and the
output options that write records (no `-v`, `-q`, `-l`, `-c`; with `--color`
the matches advance), the two-pass best-match run of `main` over a non-empty
list of files returns; `best_cost` ends as the minimum of `INT_MAX` and the
costs of all records of all scanned files; when that minimum is below
`INT_MAX` the exit status is 0 and the output is that of the renderer
applied, in order, to exactly the records whose cost equals the minimum;
when it is `INT_MAX` nothing is written and the exit status is 1. -/
theorem best_match_below_int_max (delim : DelimMatcher) (hd : DelimOK delim)
    (hst : DelimStable delim) (cap : Nat) (hcap : 0 < cap)
    (cost : List Nat → Option Nat) (span : List Nat → Nat × Nat) (a : Args)
    (hb : a.best_match = true) (hfiles : a.files ≠ [])
    (hinv : a.opts.invert_match = false) (hsil : a.opts.be_silent = false)
    (hlist : a.opts.list_files = false) (hcount : a.opts.count_matches = false)
    (hcol : a.opts.color_option = true → PatAdvances (least_cost_matcher cost span))
    (hnf : ∀ f ∈ a.files, ∀ fd, f.descriptor = some fd → fd.NoFail)
    (hfit : ∀ f ∈ a.files, f.Fits) :
    ∃ (code : Nat) (r : Run) (fys : List (File × List Scan)),
      main_files cap delim (least_cost_matcher cost span) a = some (code, r) ∧
      fys.map Prod.fst = a.files ∧
      (∀ p ∈ fys, FileRecords delim 1 p.1 p.2) ∧
      r.best_cost = min_cost (all_costs cost fys) ∧
      (r.best_cost < INT_MAX → code = 0 ∧
        ∃ rs, emit_files (main_opts a) (least_cost_matcher cost span) cost span r.best_cost fys
            (emit_start r.best_cost) = some rs ∧ r.out = rs.out) ∧
      (r.best_cost = INT_MAX → code = 1 ∧ r.out = []) := by
  have hinv' : (main_opts a).invert_match = false := hinv
  have hsil' : (main_opts a).be_silent = false := hsil
  have hlist' : (main_opts a).list_files = false := hlist
  have hcount' : (main_opts a).count_matches = false := hcount
  have hcol' : (main_opts a).color_option = true → PatAdvances (least_cost_matcher cost span) :=
    hcol
  have hmain : main_files cap delim (least_cost_matcher cost span) a =
      match handle_files (main_opts a) cap delim (least_cost_matcher cost span) a.files
          (first_pass a) with
      | none => none
      | some (some c, r2) => some (c, r2)
      | some (none, r2) =>
        if r2.best_cost = INT_MAX then some (1, r2)
        else
          match handle_files (main_opts a) cap delim (least_cost_matcher cost span) a.files
              (second_pass r2) with
          | none => none
          | some (some c, r4) => some (c, r4)
          | some (none, r4) => some (status r4, r4) := by
    unfold main_files
    rw [if_neg hfiles, hb]
    rfl
  have hbm1 : (first_pass a).best_match = 1 := by
    show (if a.best_match then 1 else 0) = 1
    rw [hb]; rfl
  obtain ⟨fys, hmap, hy, hres⟩ := handle_files_fold hd (main_opts a) hcap
    (least_cost_matcher cost span) a.files (first_pass a) (first_pass a) hfit static_buf rfl
  rw [hbm1] at hy
  obtain ⟨r1, hf, hb1, ho1, hp1, hc1, hJ1⟩ :=
    fold_files_pass1 delim (main_opts a) cost span hinv' hsil' fys (first_pass a) hbm1
      (fun _ => rfl) (Nat.le_refl _) hy
  have hmin : r1.best_cost = min_cost (all_costs cost fys) := by
    rw [hc1]
    have := min_cost_le_max (all_costs cost fys)
    show min INT_MAX _ = _
    omega
  have hout1 : r1.out = [] := ho1
  have hprev1 : r1.prev_filename = none := hp1
  rcases hres with ⟨hf0, _⟩ | ⟨ex2, rf2, rl, hf2, hl, hn, hbuf⟩
  · rw [hf] at hf0; cases hf0
  rw [hf] at hf2
  simp only [Option.some.injEq, Prod.mk.injEq] at hf2
  obtain ⟨rfl, rfl⟩ := hf2
  obtain ⟨n1, n2, n3, n4, n5, n6, n7⟩ := noscan_eq_fields hn
  rw [hmain, hl]
  simp only
  by_cases hmax : rl.best_cost = INT_MAX
  · rw [if_pos hmax]
    refine ⟨1, rl, fys, rfl, hmap, hy, by rw [n3]; exact hmin, ?_, ?_⟩
    · intro hlt
      rw [hmax] at hlt
      exact absurd hlt (Nat.lt_irrefl _)
    · intro _
      exact ⟨rfl, by rw [n6]; exact hout1⟩
  · rw [if_neg hmax]
    have hhave : r1.have_matches = true := by
      cases hh : r1.have_matches with
      | true => rfl
      | false =>
        exfalso
        apply hmax
        rw [n3]
        exact hJ1 hh
    obtain ⟨fys2, hmap2, hy2, hres2⟩ := handle_files_fold hd (main_opts a) hcap
      (least_cost_matcher cost span) a.files (second_pass rl) (second_pass r1) hfit hbuf
      (noscan_of_fields (by show rl.best_cost = r1.best_cost; exact n3) rfl n3 n4 n5 n6 n7)
    have hy2' : ∀ p ∈ fys2, FileRecords delim 2 p.1 p.2 := hy2
    have hnf1 : ∀ p ∈ fys, ∀ fd, p.1.descriptor = some fd → fd.NoFail := by
      intro p hp
      apply hnf
      rw [← hmap]
      exact List.mem_map_of_mem _ hp
    have hcosts : all_costs cost fys = all_costs cost fys2 :=
      all_costs_unique hd hst cost (by decide) (by decide) fys fys2 (by rw [hmap, hmap2]) hnf1
        hy hy2'
    have hrel : EmitRel r1.best_cost (second_pass r1) (emit_start r1.best_cost) :=
      ⟨hout1, hprev1, rfl, rfl, hhave, rfl⟩
    have hge : ∀ c ∈ all_costs cost fys2, r1.best_cost ≤ c := by
      intro c hc
      rw [hmin, hcosts]
      exact min_cost_le_mem hc
    obtain ⟨ra1, rs1, hf3, he3, hrel3⟩ :=
      fold_files_pass2 delim (main_opts a) cost span r1.best_cost hinv' hsil' hlist' hcount'
        hcol' fys2 (second_pass r1) (emit_start r1.best_cost) hrel hy2' hge
    rcases hres2 with ⟨hf0, _⟩ | ⟨ex4, rf4, rl4, hf4, hl4, hn4, _⟩
    · rw [hf3] at hf0; cases hf0
    rw [hf3] at hf4
    simp only [Option.some.injEq, Prod.mk.injEq] at hf4
    obtain ⟨rfl, rfl⟩ := hf4
    obtain ⟨k1, k2, k3, k4, k5, k6, k7⟩ := noscan_eq_fields hn4
    rw [hl4]
    have hbc : rl4.best_cost = r1.best_cost := by rw [k3]; exact hrel3.best_cost
    have hst0 : status rl4 = 0 := by
      rw [status_eq_zero, k4]; exact hrel3.matched
    refine ⟨status rl4, rl4, fys2, rfl, hmap2,
      fun p hp => fileRecords_best (by decide) (by decide) (hy2' p hp),
      by rw [hbc, hmin, hcosts], ?_, ?_⟩
    · intro _
      refine ⟨hst0, rs1, ?_, by rw [k6]; exact hrel3.out⟩
      rw [hbc]
      exact he3
    · intro h
      rw [hbc, ← n3] at h
      exact absurd h hmax

set_option maxRecDepth 100000 in
theorem best_match_below_int_max_witness :
    DelimOK newline_delim ∧ DelimStable newline_delim ∧ 0 < INITIAL_BUF_SIZE ∧
    two_file_args.best_match = true ∧ two_file_args.files ≠ [] ∧
    (∀ f ∈ two_file_args.files, ∀ fd, f.descriptor = some fd → fd.NoFail) ∧
    (∃ (code : Nat) (r : Run) (fys : List (File × List Scan)),
      main_files INITIAL_BUF_SIZE newline_delim
        (least_cost_matcher (subst_cost [97, 98, 99]) whole_span) two_file_args
        = some (code, r) ∧
      fys.map Prod.fst = two_file_args.files ∧
      (∀ p ∈ fys, FileRecords newline_delim 1 p.1 p.2) ∧
      r.best_cost = min_cost (all_costs (subst_cost [97, 98, 99]) fys) ∧
      (r.best_cost < INT_MAX → code = 0 ∧
        ∃ rs, emit_files (main_opts two_file_args)
            (least_cost_matcher (subst_cost [97, 98, 99]) whole_span) (subst_cost [97, 98, 99])
            whole_span r.best_cost fys (emit_start r.best_cost) = some rs ∧ r.out = rs.out) ∧
      (r.best_cost = INT_MAX → code = 1 ∧ r.out = [])) ∧
    (main_files INITIAL_BUF_SIZE newline_delim
        (least_cost_matcher (subst_cost [97, 98, 99]) whole_span) two_file_args).map
      (fun x => (x.1, x.2.best_cost, x.2.out))
      = some (0, 0, [Out.text "A:", Out.text "0:", Out.byte 97, Out.byte 98, Out.byte 99,
          Out.byte 10]) :=
  have hnf : ∀ f ∈ two_file_args.files, ∀ fd, f.descriptor = some fd → fd.NoFail := by
    intro f hf fd _ st hst
    simp only [two_file_args, List.mem_cons, List.mem_singleton, List.not_mem_nil, or_false]
      at hf
    rcases hf with rfl | rfl <;>
    · rename_i hfd
      simp only [File.descriptor, File.is_stdin] at hfd
      simp at hfd
      subst hfd
      cases hst
  have hfit : ∀ f ∈ two_file_args.files, f.Fits := by
    intro f hf fd hfd
    simp only [two_file_args, List.mem_cons, List.mem_singleton, List.not_mem_nil, or_false]
      at hf
    rcases hf with rfl | rfl <;>
    · simp only [File.descriptor, File.is_stdin] at hfd
      simp at hfd
      subst hfd
      decide
  ⟨newline_delim_ok, newline_delim_stable, by decide, rfl, by decide, hnf,
    best_match_below_int_max newline_delim newline_delim_ok newline_delim_stable
      INITIAL_BUF_SIZE (by decide) (subst_cost [97, 98, 99]) whole_span two_file_args rfl
      (by decide) rfl rfl rfl rfl (fun h => absurd h (by decide)) hnf hfit,
    by decide⟩

set_option maxRecDepth 100000 in
/-- C3 (best-match optimality), at the failing input: in best-match mode, for
a file whose only record `"a"` has the least match cost `INT_MAX`, the first
pass ends with `best_cost = INT_MAX`, which is the minimum cost over all
records (the one record `"a"` of the file), and the run returns 1 without a
second pass and emits nothing, whereas the emitting pass at that minimum
writes the record: the record of minimum cost is omitted. -/
theorem best_match_int_max_not_emitted :
    (main_files INITIAL_BUF_SIZE newline_delim
        (least_cost_matcher (fun _ => some INT_MAX) whole_span)
        ⟨default_opts, none, true, false, 0, [⟨some "f", some ⟨[97, 10], []⟩⟩],
          ⟨[], []⟩⟩).map (fun x => (x.1, x.2.best_cost, x.2.out))
      = some (1, INT_MAX, []) ∧
    (scan_stream newline_delim (init_scan INITIAL_BUF_SIZE) ⟨[97, 10], []⟩).map
        (fun x => x.1.map Scan.record_bytes) = some [[97]] ∧
    min_cost ([[97]].filterMap (fun _ => some INT_MAX)) = INT_MAX ∧
    ((scan_stream newline_delim (init_scan INITIAL_BUF_SIZE) ⟨[97, 10], []⟩).bind
        (fun x => emit_files default_opts (least_cost_matcher (fun _ => some INT_MAX) whole_span)
          (fun _ => some INT_MAX) whole_span INT_MAX
          [(⟨some "f", some ⟨[97, 10], []⟩⟩, x.1)] (emit_start INT_MAX))).map (fun r => r.out)
      = some [Out.byte 97, Out.byte 10] := by
  refine ⟨?_, ?_, ?_, ?_⟩ <;> decide

/-- C9 (delimiter threading), at the failing input: for the stream `"a\nb"` the
record `"a"` is yielded with `next_delim_len = 1`, and the final record
`"b"`, returned at end of file, is yielded with `delim_len = 0`: the
end-of-file path does not thread the delimiter length. -/
theorem delim_threading_eof :
    (scan_stream newline_delim (init_scan 16) ⟨[97, 10, 98], []⟩).map
        (fun r => r.1.map (fun y => (y.record_bytes, y.delim_len, y.next_delim_len)))
      = some [([97], 0, 1), ([98], 0, 1)] := by
  decide

/-- C4 (highlight), at the failing input: for the record `"ab"` and a pattern
whose match is empty, the colour loop never ends, whatever the number of
iterations allowed, while the non-colour branch writes the two bytes. -/
theorem colour_loop_diverges :
    (∀ fuel, colour_loop empty_match_preg 0 0 fuel [97, 98] 0 0 0 = none) ∧
    plain_write 0 [97, 98] = [Out.byte 97, Out.byte 98] := by
  constructor
  · intro fuel
    induction fuel with
    | zero => rfl
    | succ n ih =>
      have hcol : (print_record_indent 0 [] (print_record_indent 0 [] 0).2).2 = 0 := rfl
      simp [colour_loop, empty_match_preg, hcol, ih]
  · decide

set_option maxRecDepth 100000 in
/-- C10 (delimiter-after rendering), at the failing input: for the file
`"abcdef\nxy"`, whose last record `"xy"` is not followed by a delimiter,
the default rendering writes `"abcdef\n"` and then `"xyc"`: the last record
followed by one stale byte of the buffer, because `next_delim_len` still
holds the length of the delimiter after the record before. -/
theorem delim_after_last_record :
    (main_files INITIAL_BUF_SIZE newline_delim empty_match_preg
        (one_file_args [97, 98, 99, 100, 101, 102, 10, 120, 121])).map (fun r => (r.1, r.2.out))
      = some (0, [97, 98, 99, 100, 101, 102, 10, 120, 121, 99].map Out.byte) := by
  decide

set_option maxRecDepth 100000 in
/-- C7 (best-match mode with standard input), at the failing inputs: with -B
and no file argument, and with -B and the file argument `-`, `main` writes
the message, scans no record, and returns 1, not 2. -/
theorem best_match_stdin_status :
    ((main_files INITIAL_BUF_SIZE newline_delim empty_match_preg
        ⟨default_opts, none, true, false, 0, [], ⟨[97, 10], []⟩⟩).map
        (fun r => (r.1, r.2.err, r.2.out, r.2.scan.data_len))
      = some (1, ["Cannot use -B when reading from standard input."], [], 0)) ∧
    ((main_files INITIAL_BUF_SIZE newline_delim empty_match_preg
        ⟨default_opts, none, true, false, 0, [⟨some "-", some ⟨[97, 10], []⟩⟩],
          ⟨[], []⟩⟩).map
        (fun r => (r.1, r.2.err, r.2.out, r.2.scan.data_len))
      = some (1, ["Cannot use -B when reading from standard input."], [], 0)) := by
  constructor <;> decide

set_option maxRecDepth 100000 in
/-- C6 (at most NUM errors), at the failing input: with `-B -E 1 -s` and a
file whose only record matches with least cost 3, the record is emitted,
with cost 3. -/
theorem best_match_ignores_max_errors :
    (main_files INITIAL_BUF_SIZE newline_delim (cost_preg 3)
        ⟨{ default_opts with print_cost := true }, none, true, true, 1,
          [⟨some "f", some ⟨[97, 10], []⟩⟩], ⟨[], []⟩⟩).map
        (fun r => (r.1, r.2.out))
      = some (0, [Out.text "3:", Out.byte 97, Out.byte 10]) := by
  decide

/-! ## Delimiter patterns with empty matches -/

/-- A call that returns 0 and leaves the scanner as it was is repeated for
ever by the loop `while (!tre_agrep_get_next_record(fd, filename))`. -/
theorem scan_all_fixpoint {delim : DelimMatcher} {s : Scan} {fd : Fd}
    (h : tre_agrep_get_next_record delim s fd = some (.r0, s, fd)) :
    ∀ fuel, scan_all delim fuel s fd = none := by
  intro fuel
  induction fuel with
  | zero => rfl
  | succ n ih =>
    unfold scan_all
    rw [h]
    simp only [ih]

/-- A scanner whose cursor stands before bytes on which the delimiter
pattern has the empty match at offset 0, and which has yielded the empty
record there, yields it again and stays as it is. -/
theorem empty_match_fixpoint {delim : DelimMatcher} {s : Scan} (fd : Fd) {nr : Nat}
    (heof : s.at_eof = false) (hn : s.next_record = some nr)
    (hm : delim ((s.buf.drop nr).take (s.data_len - nr)) = .ok 0 0)
    (hrec : s.record = nr) (hlen : s.record_len = 0) (hdl : s.delim_len = 0)
    (hndl : s.next_delim_len = 0) :
    tre_agrep_get_next_record delim s fd = some (.r0, s, fd) := by
  obtain ⟨buf, sz, dlen, rec, nrec, rlen, dl, ndl, eof⟩ := s
  simp only at heof hn hm hrec hlen hdl hndl
  subst heof hn hrec hlen hdl hndl
  simp [tre_agrep_get_next_record, loop_bound, get_next_record_loop, fill, search, hm]

set_option maxRecDepth 100000 in
/-- C11 (scanner termination), at the failing input: the delimiter pattern
`"\<"` passes the check of `main`, since it does not match the empty string;
on the stream `"a"` the first call of the scanner yields an empty record and
leaves the cursor where it was, so that every further call yields the same
empty record again: the sequence of records does not end, whatever the
number of calls allowed. -/
theorem scanner_empty_match_loops :
    delim_accepted bow_delim = true ∧
    (tre_agrep_get_next_record bow_delim (init_scan INITIAL_BUF_SIZE) ⟨[97], []⟩).map
        (fun x => (x.1, x.2.1.record_bytes, x.2.1.next_record, x.2.1.at_eof, x.2.2.rest))
      = some (.r0, [], some 0, false, []) ∧
    (∀ s1 fd1, tre_agrep_get_next_record bow_delim (init_scan INITIAL_BUF_SIZE) ⟨[97], []⟩
        = some (.r0, s1, fd1) →
      tre_agrep_get_next_record bow_delim s1 fd1 = some (.r0, s1, fd1)) ∧
    ∀ fuel, scan_all bow_delim fuel (init_scan INITIAL_BUF_SIZE) ⟨[97], []⟩ = none := by
  have h1 : (tre_agrep_get_next_record bow_delim (init_scan INITIAL_BUF_SIZE) ⟨[97], []⟩).map
        (fun x => (x.1, x.2.1.at_eof, x.2.1.next_record,
          bow_delim ((x.2.1.buf.drop 0).take (x.2.1.data_len - 0)),
          [x.2.1.record, x.2.1.record_len, x.2.1.delim_len, x.2.1.next_delim_len]))
      = some (.r0, false, some 0, .ok 0 0, [0, 0, 0, 0]) := by decide
  have hfix : ∀ s1 fd1, tre_agrep_get_next_record bow_delim (init_scan INITIAL_BUF_SIZE)
      ⟨[97], []⟩ = some (.r0, s1, fd1) →
      tre_agrep_get_next_record bow_delim s1 fd1 = some (.r0, s1, fd1) := by
    intro s1 fd1 hc
    rw [hc] at h1
    simp only [Option.map_some', Option.some.injEq, Prod.mk.injEq, true_and, List.cons.injEq,
      and_true] at h1
    obtain ⟨a1, a2, a3, a4, a5, a6, a7⟩ := h1
    exact empty_match_fixpoint fd1 a1 a2 a3 a4 a5 a6 a7
  refine ⟨by decide, by decide, hfix, ?_⟩
  intro fuel
  cases fuel with
  | zero => rfl
  | succ n =>
    unfold scan_all
    cases hc : tre_agrep_get_next_record bow_delim (init_scan INITIAL_BUF_SIZE) ⟨[97], []⟩ with
    | none => rfl
    | some x =>
      obtain ⟨r, s1, fd1⟩ := x
      have hr : r = .r0 := by
        rw [hc] at h1
        simp only [Option.map_some', Option.some.injEq, Prod.mk.injEq] at h1
        exact h1.1
      subst hr
      simp only [scan_all_fixpoint (hfix s1 fd1 hc) n]

/-! ## The buffer invariant -/

theorem bufInv_set_record {s : Scan} (h : BufInv s) (a b : Nat) :
    BufInv { s with record := a, record_len := b } :=
  ⟨h.size_pos, h.buf_len, h.data_le, h.cursor_le⟩

theorem bufInv_grow {s : Scan} (h : BufInv s) :
    (∃ g, grow s = some g ∧ BufInv g ∧ g.data_len < g.buf_size ∧
      g.data_len = s.data_len ∧ g.next_record = s.next_record ∧
      (g.buf_size = s.buf_size ∨ g.buf_size = s.buf_size * 2) ∧ ¬ GrowFails s) ∨
    (grow s = none ∧ GrowFails s) := by
  have h1 := h.size_pos
  have h2 := h.buf_len
  have h3 := h.data_le
  by_cases hc : s.buf_size ≤ s.data_len
  · by_cases hf : s.buf_size * 2 ≤ INT_MAX
    · left
      refine ⟨{ s with buf_size := s.buf_size * 2, buf := realloc s.buf (s.buf_size * 2) },
        by simp only [grow, if_pos hc, if_pos hf], ⟨?_, ?_, ?_, h.cursor_le⟩, ?_, rfl,
        rfl, Or.inr rfl, (fun hg => by have := hg.2; omega)⟩
      · show 0 < s.buf_size * 2
        omega
      · show (realloc s.buf (s.buf_size * 2)).length = s.buf_size * 2
        exact length_realloc _ _ (by omega)
      · show s.data_len ≤ s.buf_size * 2
        omega
      · show s.data_len < s.buf_size * 2
        omega
    · right
      exact ⟨by simp only [grow, if_pos hc, if_neg hf], hc, by omega⟩
  · left
    exact ⟨s, by simp only [grow, if_neg hc], h, by omega, rfl, rfl, Or.inl rfl,
      fun hg => hc hg.1⟩

theorem read_size_pos {s : Scan} (h : BufInv s) (hg : ¬ GrowFails s) : 0 < read_size s := by
  rcases bufInv_grow h with ⟨g, hgr, _, hlt, _⟩ | ⟨_, hf⟩
  · unfold read_size
    rw [hgr]
    show 0 < g.buf_size - g.data_len
    omega
  · exact absurd hf hg

/-- When the buffer cannot grow, the block `if (next_record == NULL)` ends the
process with status 2, before any read. -/
theorem fill_grow_fails {s : Scan} (hn : s.next_record = none) (hg : GrowFails s) (fd : Fd) :
    fill s fd = (.ret .exit2 s, fd) := by
  have hgr : grow s = none := by
    have := hg.2
    simp only [grow, if_pos hg.1, if_neg (show ¬ s.buf_size * 2 ≤ INT_MAX by omega)]
  simp only [fill, hn, hgr]

theorem read_bytes_le (fd : Fd) (n : Nat) {bs : List Nat} {fd1 : Fd}
    (h : fd.read n = (.bytes bs, fd1)) : bs.length ≤ n := by
  unfold Fd.read at h
  split at h
  · simp only [Prod.mk.injEq, ReadResult.bytes.injEq] at h
    rw [← h.1, List.length_take]
    omega
  · simp only [Prod.mk.injEq, ReadResult.bytes.injEq] at h
    rw [← h.1, List.length_take]
    omega
  · simp at h
  · simp at h

theorem read_empty_eof (fd : Fd) (n : Nat) (hn : 0 < n)
    (h : (fd.read n).1 = .bytes []) : fd.rest = [] := by
  rcases read_spec fd n hn with ⟨fd1, h1, _⟩ | ⟨bs, fd1, h1, _, _, h2, _⟩ | ⟨fd1, h1, _⟩
  · rw [h1] at h; cases h
  · rw [h1] at h
    simp only [ReadResult.bytes.injEq] at h
    exact h2 h
  · rw [h1] at h; cases h

/-- The block `if (next_record == NULL)`, when it does not end the process for
lack of room to grow, does not end it with status 2 at all, keeps the buffer
invariant and leaves `buf_size` as it was or doubles it. -/
theorem bufInv_fill {s : Scan} (h : BufInv s) (fd : Fd)
    (hg : ¬ (s.next_record = none ∧ GrowFails s)) :
    (∀ s1, (fill s fd).1 ≠ .ret .exit2 s1) ∧ BufInv (fill s fd).1.state ∧
      ((fill s fd).1.state.buf_size = s.buf_size ∨
        (fill s fd).1.state.buf_size = s.buf_size * 2) := by
  cases hn : s.next_record with
  | some nr =>
    have : fill s fd = (.go s, fd) := by simp only [fill, hn]
    rw [this]
    exact ⟨(fun s1 hc => by cases hc), h, Or.inl rfl⟩
  | none =>
    rcases bufInv_grow h with ⟨g, hgr, hgi, hlt, hdl, hnr, hsz, _⟩ | ⟨_, hf⟩
    rotate_left
    · exact absurd ⟨hn, hf⟩ hg
    rcases hr : fd.read (g.buf_size - g.data_len) with ⟨res, fd1⟩
    cases res with
    | error =>
      have : fill s fd = (.ret .r1 g, fd1) := by simp only [fill, hn, hgr, hr]
      rw [this]
      exact ⟨(fun s1 hc => by cases hc), hgi, hsz⟩
    | eintr =>
      have : fill s fd = (.again g, fd1) := by simp only [fill, hn, hgr, hr]
      rw [this]
      exact ⟨(fun s1 hc => by cases hc), hgi, hsz⟩
    | bytes bs =>
      have hle := read_bytes_le fd _ hr
      by_cases hb : bs.length = 0
      · have : fill s fd = (.ret (if g.data_len = 0 then .r1 else .r0)
            { g with record := 0, record_len := g.data_len, at_eof := true }, fd1) := by
          simp only [fill, hn, hgr, hr, hb, ↓reduceIte]
        rw [this]
        refine ⟨?_, ⟨hgi.size_pos, hgi.buf_len, hgi.data_le, hgi.cursor_le⟩, hsz⟩
        intro s1 hc
        simp only [Fill.ret.injEq] at hc
        have := hc.1
        split at this <;> cases this
      · have : fill s fd = (.go { g with buf := store g.buf g.data_len bs,
                                         data_len := g.data_len + bs.length,
                                         next_record := some 0 }, fd1) := by
          simp only [fill, hn, hgr, hr, hb, ↓reduceIte]
        rw [this]
        refine ⟨(fun s1 hc => by cases hc), ⟨hgi.size_pos, ?_, ?_, ?_⟩, hsz⟩
        · show (store g.buf g.data_len bs).length = g.buf_size
          rw [length_store _ _ _ (by rw [hgi.buf_len]; omega), hgi.buf_len]
        · show g.data_len + bs.length ≤ g.buf_size
          omega
        · intro nr hnr2
          simp only [Fill.state, Option.some.injEq] at hnr2
          subst hnr2
          exact Nat.zero_le _

/-- The delimiter search keeps the buffer invariant and `buf_size`. -/
theorem bufInv_search {delim : DelimMatcher} (hd : DelimInRange delim) {s : Scan}
    (h : BufInv s) {nr : Nat} (hn : s.next_record = some nr) :
    BufInv (search delim s nr).state ∧ (search delim s nr).state.buf_size = s.buf_size := by
  have hnr := h.cursor_le nr hn
  have h2 := h.buf_len
  have h3 := h.data_le
  unfold search
  rcases hm : delim ((s.buf.drop nr).take (s.data_len - nr)) with ⟨so, eo⟩ | _ | _
  · have hle := hd _ so eo hm
    simp only [List.length_take, List.length_drop] at hle
    refine ⟨⟨h.size_pos, h.buf_len, h.data_le, ?_⟩, rfl⟩
    intro nr2 hnr2
    simp only [Fill.state, Option.some.injEq] at hnr2
    subst hnr2
    show nr + eo ≤ s.data_len
    omega
  · simp only []
    split
    · refine ⟨⟨h.size_pos, h.buf_len, h.data_le, ?_⟩, rfl⟩
      intro nr2 hnr2
      cases hnr2
    · refine ⟨⟨h.size_pos, ?_, ?_, ?_⟩, rfl⟩
      · show (memmove s.buf nr (s.data_len - nr)).length = s.buf_size
        rw [length_memmove _ _ _ (by omega), h2]
      · show s.data_len - nr ≤ s.buf_size
        omega
      · intro nr2 hnr2
        cases hnr2
  · exact ⟨h, rfl⟩

theorem pow_step {a b c : Nat} (k : Nat) (h1 : b = a ∨ b = a * 2) (h2 : c = b * 2 ^ k) :
    ∃ j, c = a * 2 ^ j := by
  rcases h1 with rfl | rfl
  · exact ⟨k, h2⟩
  · exact ⟨k + 1, by rw [h2, Nat.pow_succ]; ring⟩

/-- The loop of the scanner, when it does not end the process with status 2,
keeps the buffer invariant, `buf_size` being doubled some number of times. -/
theorem bufInv_loop {delim : DelimMatcher} (hd : DelimInRange delim) :
    ∀ (fuel : Nat) (s : Scan) (fd : Fd) (r : Ret) (s1 : Scan) (fd1 : Fd), BufInv s →
      get_next_record_loop delim fuel s fd = some (r, s1, fd1) → r ≠ .exit2 →
      BufInv s1 ∧ ∃ k, s1.buf_size = s.buf_size * 2 ^ k := by
  intro fuel
  induction fuel with
  | zero => intro s fd r s1 fd1 _ h; cases h
  | succ n ih =>
    intro s fd r s1 fd1 hs h hne
    by_cases hg : s.next_record = none ∧ GrowFails s
    · unfold get_next_record_loop at h
      rw [fill_grow_fails hg.1 hg.2 fd] at h
      simp only [Option.some.injEq, Prod.mk.injEq] at h
      exact absurd h.1.symm hne
    obtain ⟨_, hf, hfs⟩ := bufInv_fill hs fd hg
    unfold get_next_record_loop at h
    rcases hfill : fill s fd with ⟨res, fd2⟩
    rw [hfill] at h hf hfs
    cases res with
    | ret r2 s2 =>
      simp only [Option.some.injEq, Prod.mk.injEq] at h
      obtain ⟨_, rfl, _⟩ := h
      exact ⟨hf, pow_step 0 hfs (by simp [Fill.state])⟩
    | again s2 =>
      simp only at h
      obtain ⟨h1, k, hk⟩ := ih s2 fd2 r s1 fd1 hf h hne
      exact ⟨h1, pow_step k hfs hk⟩
    | go s2 =>
      simp only at h
      cases hn : s2.next_record with
      | none => rw [hn] at h; cases h
      | some nr =>
        rw [hn] at h
        simp only at h
        obtain ⟨hsr, hss⟩ := bufInv_search hd hf hn
        simp only [Fill.state] at hsr hss hfs hf
        cases hse : search delim s2 nr with
        | ret r3 s3 =>
          rw [hse] at h hsr hss
          simp only [Option.some.injEq, Prod.mk.injEq] at h
          obtain ⟨_, rfl, _⟩ := h
          simp only [Fill.state] at hsr hss
          exact ⟨hsr, pow_step 0 hfs (by rw [hss]; simp)⟩
        | again s3 =>
          rw [hse] at h hsr hss
          simp only [Fill.state] at hsr hss h
          obtain ⟨h1, k, hk⟩ := ih s3 fd2 r s1 fd1 hsr h hne
          rw [hss] at hk
          exact ⟨h1, pow_step k hfs hk⟩
        | go s3 =>
          rw [hse] at h
          cases h

/-- A call of `tre_agrep_get_next_record` that does not end the process with
status 2 keeps the buffer invariant. -/
theorem bufInv_call {delim : DelimMatcher} (hd : DelimInRange delim) {s : Scan} {fd : Fd}
    {r : Ret} {s1 : Scan} {fd1 : Fd} (hs : BufInv s)
    (h : tre_agrep_get_next_record delim s fd = some (r, s1, fd1)) (hne : r ≠ .exit2) :
    BufInv s1 ∧ ∃ k, s1.buf_size = s.buf_size * 2 ^ k := by
  unfold tre_agrep_get_next_record at h
  split at h
  · simp only [Option.some.injEq, Prod.mk.injEq] at h
    obtain ⟨_, rfl, _⟩ := h
    exact ⟨hs, 0, by simp⟩
  · exact bufInv_loop hd _ s fd r s1 fd1 hs h hne

/-- The allocation and the reset at the start of `tre_agrep_handle_file`
establish the buffer invariant, and keep a buffer that is allocated. -/
theorem bufInv_alloc_reset {cap : Nat} (hcap : 0 < cap) (s : Scan)
    (h : BufInv s ∨ s.buf_size = 0) :
    BufInv (alloc_reset cap s) ∧
      (alloc_reset cap s).buf_size = (if s.buf_size = 0 then cap else s.buf_size) := by
  unfold alloc_reset
  by_cases h0 : s.buf_size = 0
  · simp only [h0, ↓reduceIte]
    refine ⟨⟨hcap, by simp, Nat.zero_le _, ?_⟩, trivial⟩
    intro nr hnr
    cases hnr
  · simp only [h0, ↓reduceIte]
    rcases h with h | h
    · refine ⟨⟨h.size_pos, h.buf_len, Nat.zero_le _, ?_⟩, trivial⟩
      intro nr hnr
      cases hnr
    · exact absurd h h0

/-- The loop body of `tre_agrep_handle_file` keeps the buffer invariant and
`buf_size`. -/
theorem bufInv_handle_record {o : Opts} {preg : PatMatcher} {filename : String}
    {recnum count : Nat} {r : Run} {ctl : Ctl} {c1 : Nat} {r1 : Run} (hs : BufInv r.scan)
    (h : handle_record o preg filename recnum count r = some (ctl, c1, r1)) :
    BufInv r1.scan ∧ r1.scan.buf_size = r.scan.buf_size := by
  obtain ⟨a, b, hab⟩ := handle_record_scan h
  rw [hab]
  exact ⟨bufInv_set_record hs a b, rfl⟩

/-- The record loop of `tre_agrep_handle_file`, when it does not end the
process with status 2, keeps the buffer invariant, `buf_size` being doubled
some number of times. -/
theorem bufInv_record_loop {delim : DelimMatcher} (hd : DelimInRange delim) (o : Opts)
    (preg : PatMatcher) (filename : String) :
    ∀ (fuel recnum count : Nat) (r : Run) (fd : Fd) (ex : Option Nat) (c1 : Nat) (r1 : Run),
      BufInv r.scan →
      record_loop o delim preg filename fuel recnum count r fd = some (ex, c1, r1) →
      ex ≠ some 2 →
      BufInv r1.scan ∧ ∃ k, r1.scan.buf_size = r.scan.buf_size * 2 ^ k := by
  intro fuel
  induction fuel with
  | zero => intro recnum count r fd ex c1 r1 _ h; cases h
  | succ n ih =>
    intro recnum count r fd ex c1 r1 hs h hne
    unfold record_loop at h
    cases hc : tre_agrep_get_next_record delim r.scan fd with
    | none => rw [hc] at h; cases h
    | some x =>
      obtain ⟨ret, sc, fd2⟩ := x
      rw [hc] at h
      cases ret with
      | r0 =>
        obtain ⟨hsc, k, hk⟩ := bufInv_call hd hs hc (by intro hx; cases hx)
        simp only at h
        cases hh : handle_record o preg filename (recnum + 1) count { r with scan := sc } with
        | none => rw [hh] at h; cases h
        | some y =>
          obtain ⟨ctl, c2, r2⟩ := y
          obtain ⟨h2, hsz⟩ := bufInv_handle_record (by exact hsc) hh
          rw [hh] at h
          cases ctl with
          | next =>
            simp only at h
            obtain ⟨h3, j, hj⟩ := ih (recnum + 1) c2 r2 fd2 ex c1 r1 h2 h hne
            refine ⟨h3, j + k, ?_⟩
            rw [hj, hsz]
            show sc.buf_size * 2 ^ j = _
            rw [hk, Nat.pow_add]
            ring
          | brk =>
            simp only [Option.some.injEq, Prod.mk.injEq] at h
            obtain ⟨_, _, rfl⟩ := h
            exact ⟨h2, k, by rw [hsz]; exact hk⟩
          | exit code =>
            simp only [Option.some.injEq, Prod.mk.injEq] at h
            obtain ⟨_, _, rfl⟩ := h
            exact ⟨h2, k, by rw [hsz]; exact hk⟩
      | r1 =>
        obtain ⟨hsc, k, hk⟩ := bufInv_call hd hs hc (by intro hx; cases hx)
        simp only [Option.some.injEq, Prod.mk.injEq] at h
        obtain ⟨_, _, rfl⟩ := h
        exact ⟨hsc, k, hk⟩
      | exit2 =>
        simp only [Option.some.injEq, Prod.mk.injEq] at h
        exact absurd h.1.symm hne

/-- The function `tre_agrep_handle_file` establishes the buffer invariant and,
when it does not end the process with status 2, keeps it; the buffer
allocated for the first file is kept, `buf_size` being doubled some number of
times. -/
theorem bufInv_handle_file {delim : DelimMatcher} (hd : DelimInRange delim) (o : Opts)
    {cap : Nat} (hcap : 0 < cap) (preg : PatMatcher) (f : File) {r : Run} {fl : Flow}
    {r1 : Run} (hs : BufInv r.scan ∨ r.scan.buf_size = 0)
    (h : tre_agrep_handle_file o cap delim preg f r = some (fl, r1)) (hne : fl ≠ .exit 2) :
    BufInv r1.scan ∧
      ∃ k, r1.scan.buf_size = (if r.scan.buf_size = 0 then cap else r.scan.buf_size) * 2 ^ k := by
  obtain ⟨ha, hsz⟩ := bufInv_alloc_reset hcap r.scan hs
  by_cases hst : f.is_stdin ∧ r.best_match ≠ 0
  · rw [handle_file_stdin_best o cap delim preg f r hst] at h
    simp only [Option.some.injEq, Prod.mk.injEq] at h
    obtain ⟨_, rfl⟩ := h
    exact ⟨ha, 0, by rw [← hsz]; simp⟩
  · cases hdsc : f.descriptor with
    | none =>
      rw [handle_file_noopen o cap delim preg f r hst hdsc] at h
      simp only [Option.some.injEq, Prod.mk.injEq] at h
      obtain ⟨_, rfl⟩ := h
      exact ⟨ha, 0, by rw [← hsz]; simp⟩
    | some fd =>
      rw [handle_file_open o cap delim preg f r hst hdsc] at h
      have ha2 : BufInv ({ alloc_reset cap r.scan with at_eof := false } : Scan) :=
        ⟨ha.size_pos, ha.buf_len, ha.data_le, ha.cursor_le⟩
      cases hl : record_loop o delim preg f.shown_name
          (scan_bound { alloc_reset cap r.scan with at_eof := false } fd) 0 0
          { r with scan := { alloc_reset cap r.scan with at_eof := false } } fd with
      | none => rw [hl] at h; cases h
      | some x =>
        obtain ⟨ex, c1, r3⟩ := x
        rw [hl] at h
        have hex : ex ≠ some 2 := by
          intro hx
          subst hx
          simp only [Option.some.injEq, Prod.mk.injEq] at h
          exact hne h.1.symm
        obtain ⟨h3, k, hk⟩ := bufInv_record_loop hd o preg f.shown_name _ 0 0 _ fd ex c1 r3
          (by exact ha2) hl hex
        have hk2 : r3.scan.buf_size
            = (if r.scan.buf_size = 0 then cap else r.scan.buf_size) * 2 ^ k := by
          rw [hk, ← hsz]
        cases ex with
        | some code =>
          simp only [Option.some.injEq, Prod.mk.injEq] at h
          obtain ⟨_, rfl⟩ := h
          exact ⟨h3, k, hk2⟩
        | none =>
          simp only at h
          split at h
          · simp only [Option.some.injEq, Prod.mk.injEq] at h
            obtain ⟨_, rfl⟩ := h
            exact ⟨h3, k, hk2⟩
          · simp only [Option.some.injEq, Prod.mk.injEq] at h
            obtain ⟨_, rfl⟩ := h
            exact ⟨h3, k, hk2⟩

theorem delimOK_in_range {delim : DelimMatcher} (hd : DelimOK delim) : DelimInRange delim :=
  fun t so eo h => ((hd t).2 so eo h).2

/-- The descriptor after the block `if (next_record == NULL)`, when the block
does not end the process for lack of room to grow, is the descriptor after
the call `read(fd, buf + data_len, read_size)`. -/
theorem fill_reads {s : Scan} (hn : s.next_record = none) (hg : ¬ GrowFails s) (fd : Fd) :
    (fill s fd).2 = (fd.read (read_size s)).2 := by
  cases hgr : grow s with
  | none =>
    exfalso
    apply hg
    unfold grow at hgr
    split at hgr
    · split at hgr
      · cases hgr
      · exact ⟨by assumption, by omega⟩
    · cases hgr
  | some g =>
    unfold fill read_size
    rw [hn, hgr]
    simp only []
    rcases fd.read (g.buf_size - g.data_len) with ⟨res, fd1⟩
    cases res with
    | error => rfl
    | eintr => rfl
    | bytes bs =>
      simp only []
      split <;> rfl

theorem limit_scan_fails : limit_scan.next_record = none ∧ GrowFails limit_scan :=
  ⟨rfl, by decide, by decide⟩

theorem limit_scan_inv : BufInv limit_scan :=
  ⟨by decide, List.length_replicate _ _, Nat.le_refl _, fun nr h => by cases h⟩

theorem split_lines_ne_nil (bytes : List Nat) : split_lines bytes ≠ [] := by
  cases bytes with
  | nil => simp [split_lines]
  | cons c cs =>
    unfold split_lines
    split
    · simp
    · split <;> simp

theorem split_lines_cons_newline (cs : List Nat) :
    split_lines (10 :: cs) = [] :: split_lines cs := by
  simp [split_lines]

theorem split_lines_cons_other {c : Nat} (hc : c ≠ 10) (cs : List Nat) :
    ∃ l ls, split_lines cs = l :: ls ∧ split_lines (c :: cs) = (c :: l) :: ls := by
  cases h : split_lines cs with
  | nil => exact absurd h (split_lines_ne_nil cs)
  | cons l ls =>
    refine ⟨l, ls, rfl, ?_⟩
    simp [split_lines, hc, h]

theorem join_lines_cons_append (a l : List Nat) (ls : List (List Nat)) :
    join_lines ((a ++ l) :: ls) = a ++ join_lines (l :: ls) := by
  cases ls with
  | nil => rfl
  | cons l1 ls => simp [join_lines]

theorem join_lines_nil_cons (l : List Nat) (ls : List (List Nat)) :
    join_lines ([] :: l :: ls) = 10 :: join_lines (l :: ls) := rfl

/-- The lines of some bytes contain no newline and give the bytes back. -/
theorem join_split_lines (bytes : List Nat) :
    join_lines (split_lines bytes) = bytes ∧ ∀ l ∈ split_lines bytes, 10 ∉ l := by
  induction bytes with
  | nil => simp [split_lines, join_lines]
  | cons c cs ih =>
    by_cases hc : c = 10
    · subst hc
      rw [split_lines_cons_newline]
      obtain ⟨l, ls, h⟩ := List.exists_cons_of_ne_nil (split_lines_ne_nil cs)
      rw [h] at ih ⊢
      refine ⟨by rw [join_lines_nil_cons, ih.1], ?_⟩
      intro l1 hl1
      simp only [List.mem_cons] at hl1
      rcases hl1 with rfl | hl1
      · simp
      · exact ih.2 l1 (by simpa using hl1)
    · obtain ⟨l, ls, h1, h2⟩ := split_lines_cons_other hc cs
      rw [h1] at ih
      rw [h2]
      refine ⟨?_, ?_⟩
      · have := join_lines_cons_append [c] l ls
        simp only [List.singleton_append] at this
        rw [this, ih.1]
      · intro l1 hl1
        simp only [List.mem_cons] at hl1
        rcases hl1 with rfl | hl1
        · have := ih.2 l (List.mem_cons_self _ _)
          simp only [List.mem_cons, not_or]
          exact ⟨fun h => hc h.symm, this⟩
        · exact ih.2 l1 (List.mem_cons_of_mem _ hl1)

/-- What `print_record_indent` writes from any column: the first line is
indented only when the column is 0, the other lines when they are not
empty. -/
theorem print_record_indent_lines (n : Nat) :
    ∀ (bytes : List Nat) (col : Nat), ∃ l ls, split_lines bytes = l :: ls ∧
      (print_record_indent n bytes col).1
        = (join_lines ((if col = 0 then indent_line n l else l) :: ls.map (indent_line n))).map
            Out.byte := by
  intro bytes
  induction bytes with
  | nil =>
    intro col
    refine ⟨[], [], rfl, ?_⟩
    simp [print_record_indent, join_lines, indent_line]
  | cons c cs ih =>
    intro col
    by_cases hc : c = 10
    · subst hc
      obtain ⟨l, ls, h, hout⟩ := ih 0
      refine ⟨[], l :: ls, by rw [split_lines_cons_newline, h], ?_⟩
      have hnil : (if col = 0 then indent_line n [] else []) = [] := by
        split <;> simp [indent_line]
      rw [hnil, List.map_cons, join_lines_nil_cons]
      simp only [print_record_indent, ↓reduceIte, List.map_cons]
      rw [hout]
      simp
    · obtain ⟨l, ls, h1, h2⟩ := split_lines_cons_other hc cs
      refine ⟨c :: l, ls, h2, ?_⟩
      by_cases h0 : col = 0
      · subst h0
        obtain ⟨l1, ls1, h3, hout⟩ := ih (0 + n + 1)
        rw [h1] at h3
        simp only [List.cons.injEq] at h3
        obtain ⟨rfl, rfl⟩ := h3
        rw [if_neg (by omega)] at hout
        rw [if_pos rfl]
        have hind : indent_line n (c :: l) = (List.replicate n 32 ++ [c]) ++ l := by
          simp [indent_line]
        rw [hind, join_lines_cons_append]
        simp only [print_record_indent, hc, ↓reduceIte, hout, print_indent]
        simp
      · obtain ⟨l1, ls1, h3, hout⟩ := ih (col + 1)
        rw [h1] at h3
        simp only [List.cons.injEq] at h3
        obtain ⟨rfl, rfl⟩ := h3
        rw [if_neg (by omega)] at hout
        rw [if_neg h0]
        have := join_lines_cons_append [c] l (ls.map (indent_line n))
        simp only [List.singleton_append] at this
        rw [this]
        simp only [print_record_indent, hc, ↓reduceIte, h0, hout]
        simp

/-- C13 (indented output), amended: for every record and every indent width
`n`, `print_record_indent` started at column 0 writes the lines of the
record (the parts between its newlines, which put together with the newlines
give the record), each line that is not empty with exactly `n` spaces at its
start, and inserts spaces nowhere else: an empty line gets no spaces. -/
theorem indented_output (n : Nat) (bytes : List Nat) :
    (print_record_indent n bytes 0).1 = (indent_nonempty_lines n bytes).map Out.byte ∧
    join_lines (split_lines bytes) = bytes ∧ (∀ l ∈ split_lines bytes, 10 ∉ l) ∧
    plain_write n bytes = (indent_nonempty_lines n bytes).map Out.byte := by
  have h1 : (print_record_indent n bytes 0).1 = (indent_nonempty_lines n bytes).map Out.byte := by
    obtain ⟨l, ls, h, hout⟩ := print_record_indent_lines n bytes 0
    rw [hout, if_pos rfl]
    unfold indent_nonempty_lines
    rw [h]
    rfl
  refine ⟨h1, (join_split_lines bytes).1, (join_split_lines bytes).2, ?_⟩
  unfold plain_write
  split
  · exact h1
  · rename_i h0
    have hn : n = 0 := by omega
    subst hn
    rw [← h1]
    clear h1
    have key : ∀ (bs : List Nat) (col : Nat),
        (print_record_indent 0 bs col).1 = bs.map Out.byte := by
      intro bs
      induction bs with
      | nil => intro col; rfl
      | cons c cs ih =>
        intro col
        unfold print_record_indent
        split
        · simp [ih]
        · split <;> simp [ih, print_indent]
    rw [key]

/-- The record `"a\n\nb"` with indent width 1: the empty second line is
written without a space, while the words of the claim ask for one. -/
theorem indented_output_counterexample :
    (print_record_indent 1 [97, 10, 10, 98] 0).1 = [32, 97, 10, 10, 32, 98].map Out.byte ∧
    split_lines [97, 10, 10, 98] = [[97], [], [98]] ∧
    indent_every_line 1 [97, 10, 10, 98] = [32, 97, 10, 32, 10, 32, 98] ∧
    (print_record_indent 1 [97, 10, 10, 98] 0).1
      ≠ (indent_every_line 1 [97, 10, 10, 98]).map Out.byte := by
  refine ⟨?_, ?_, ?_, ?_⟩ <;> decide

/-! ## The highlight loop and the delimiter before the record -/

/-- C15 (highlight loop termination), refuted on the code: when the pattern
matcher reports, on the tail that remains after a match, a match that ends
at offset 0 (a match of length zero at the start of the tail), the loop of
the colour branch advances neither `rec` nor `len` and calls the matcher on
the same tail again: it does not end, whatever the number of iterations
allowed. -/
theorem highlight_loop_no_progress (preg : PatMatcher) (max_cost indent : Nat)
    (tail : List Nat) (rm_so rm_eo col : Nat) (c so1 : Nat)
    (hne : (tail.drop rm_eo).length ≠ 0)
    (hm : preg max_cost (tail.drop rm_eo) = .ok c so1 0) :
    ∀ fuel, colour_loop preg max_cost indent fuel tail rm_so rm_eo col = none := by
  have key : ∀ fuel so col, colour_loop preg max_cost indent fuel (tail.drop rm_eo) so 0 col
      = none := by
    intro fuel
    induction fuel with
    | zero => intro so col; rfl
    | succ n ih =>
      intro so col
      unfold colour_loop
      simp only [List.drop_zero]
      rw [if_neg hne, hm]
      simp only [ih, Option.map_none']
  intro fuel
  cases fuel with
  | zero => rfl
  | succ n =>
    unfold colour_loop
    simp only []
    rw [if_neg hne, hm]
    simp only [key, Option.map_none']

set_option maxRecDepth 100000 in
theorem highlight_loop_no_progress_witness :
    ([97, 98].drop 1).length ≠ 0 ∧ empty_match_preg 0 ([97, 98].drop 1) = .ok 0 0 0 ∧
    (∀ fuel, colour_loop empty_match_preg 0 0 fuel [97, 98] 0 1 0 = none) ∧
    main_files INITIAL_BUF_SIZE newline_delim empty_match_preg
      ⟨{ default_opts with color_option := true }, none, false, false, 0,
        [⟨some "f", some ⟨[97, 98, 10], []⟩⟩], ⟨[], []⟩⟩ = none :=
  ⟨by decide, rfl,
    highlight_loop_no_progress empty_match_preg 0 0 [97, 98] 0 1 0 0 0 (by decide) rfl,
    by decide⟩

set_option maxRecDepth 100000 in
/-- C14 (delimiter-before rendering), at the failing inputs: with the
delimiter placed before the record, the record `"b"` of the file `"a\nb"`,
which the delimiter `"\n"` precedes, is written as `"b"` alone, being
returned at end of file with `record == buf`; for the stream `"a\nb\n"`
delivered by a single read it is written as `"\nb"`, and for the same stream
delivered by reads of two bytes as `"b"` alone, the delimiter having been
dropped from the buffer when the rest of the record was read. -/
theorem delim_before_lost :
    (main_files INITIAL_BUF_SIZE newline_delim (cost_preg 0)
        ⟨{ default_opts with delim_after := 0 }, none, false, false, 0,
          [⟨some "f", some ⟨[97, 10, 98], []⟩⟩], ⟨[], []⟩⟩).map (fun r => (r.1, r.2.out))
      = some (0, [97, 98].map Out.byte) ∧
    (main_files INITIAL_BUF_SIZE newline_delim (cost_preg 0)
        ⟨{ default_opts with delim_after := 0 }, none, false, false, 0,
          [⟨some "f", some ⟨[97, 10, 98, 10], []⟩⟩], ⟨[], []⟩⟩).map (fun r => (r.1, r.2.out))
      = some (0, [97, 10, 98].map Out.byte) ∧
    (main_files INITIAL_BUF_SIZE newline_delim (cost_preg 0)
        ⟨{ default_opts with delim_after := 0 }, none, false, false, 0,
          [⟨some "f", some ⟨[97, 10, 98, 10], [ReadStep.chunk 2, ReadStep.chunk 2]⟩⟩],
          ⟨[], []⟩⟩).map (fun r => (r.1, r.2.out))
      = some (0, [97, 98].map Out.byte) := by
  refine ⟨?_, ?_, ?_⟩ <;> decide

/-! ## The literal pattern of `-k` -/

theorem count_E_cons_cons (c d : Nat) (rest : List Nat) :
    count_E (c :: d :: rest) = if c = 92 ∧ d = 69 then count_E rest + 1 else count_E (d :: rest) := by
  rw [count_E]

theorem replace_E_cons_cons (c d : Nat) (rest : List Nat) :
    replace_E (c :: d :: rest) = if c = 92 ∧ d = 69 then
      [92, 69, 92, 92, 69, 92, 81] ++ replace_E rest else c :: replace_E (d :: rest) := by
  rw [replace_E]

theorem isPrefixOf_E (c : Nat) (cs : List Nat) :
    List.isPrefixOf [92, 69] (c :: cs) = true ↔ c = 92 ∧ ∃ rest, cs = 69 :: rest := by
  cases cs with
  | nil => simp [List.isPrefixOf]
  | cons d rest =>
    simp [List.isPrefixOf]
    constructor
    · rintro ⟨h1, h2⟩; exact ⟨h1.symm, h2.symm⟩
    · rintro ⟨h1, h2⟩; exact ⟨h1.symm, h2.symm⟩

/-- When `strstr` finds no `\E`, nothing is counted and nothing replaced;
when it finds the first one at offset `i`, the scan goes on after it. -/
theorem strstr_E_spec : ∀ (hay : List Nat),
    (strstr hay [92, 69] = none → count_E hay = 0 ∧ replace_E hay = hay) ∧
    (∀ i, strstr hay [92, 69] = some i → i + 2 ≤ hay.length ∧
      count_E hay = count_E (hay.drop (i + 2)) + 1 ∧
      replace_E hay = hay.take i ++ [92, 69, 92, 92, 69, 92, 81] ++
        replace_E (hay.drop (i + 2)))
  | [] => by
    refine ⟨fun _ => ⟨rfl, rfl⟩, ?_⟩
    intro i h
    simp [strstr] at h
  | [c] => by
    have hp : List.isPrefixOf [92, 69] [c] = false := by simp [List.isPrefixOf]
    refine ⟨fun _ => ⟨rfl, rfl⟩, ?_⟩
    intro i h
    simp [strstr, hp] at h
  | c :: d :: rest => by
    obtain ⟨ihn, ihs⟩ := strstr_E_spec (d :: rest)
    by_cases hcd : c = 92 ∧ d = 69
    · obtain ⟨rfl, rfl⟩ := hcd
      have hp : List.isPrefixOf [92, 69] (92 :: 69 :: rest) = true := by simp [List.isPrefixOf]
      constructor
      · intro h
        simp [strstr, hp] at h
      · intro i h
        simp only [strstr, hp, ↓reduceIte, Option.some.injEq] at h
        subst h
        refine ⟨by simp, ?_, ?_⟩
        · rw [count_E_cons_cons]; simp
        · rw [replace_E_cons_cons]; simp
    · have hp : List.isPrefixOf [92, 69] (c :: d :: rest) = false := by
        cases hh : List.isPrefixOf [92, 69] (c :: d :: rest) with
        | false => rfl
        | true =>
          exfalso
          obtain ⟨h1, r, h2⟩ := (isPrefixOf_E c (d :: rest)).1 hh
          simp only [List.cons.injEq] at h2
          exact hcd ⟨h1, h2.1⟩
      have hs : strstr (c :: d :: rest) [92, 69] = (strstr (d :: rest) [92, 69]).map (· + 1) := by
        rw [strstr]
        simp [hp]
      constructor
      · intro h
        rw [hs] at h
        simp only [Option.map_eq_none'] at h
        obtain ⟨h1, h2⟩ := ihn h
        rw [count_E_cons_cons, replace_E_cons_cons, if_neg hcd, if_neg hcd, h1, h2]
        exact ⟨rfl, rfl⟩
      · intro i h
        rw [hs] at h
        simp only [Option.map_eq_some'] at h
        obtain ⟨j, hj, rfl⟩ := h
        obtain ⟨h1, h2, h3⟩ := ihs j hj
        refine ⟨by simp only [List.length_cons] at h1 ⊢; omega, ?_, ?_⟩
        · rw [count_E_cons_cons, if_neg hcd, h2]
          rfl
        · rw [replace_E_cons_cons, if_neg hcd, h3]
          rfl

theorem replace_E_length : ∀ (l : List Nat),
    (replace_E l).length = l.length + 5 * count_E l ∧ (0 ∉ l → 0 ∉ replace_E l)
  | [] => ⟨rfl, fun h => h⟩
  | [c] => ⟨rfl, fun h => h⟩
  | c :: d :: rest => by
    obtain ⟨ih1, ih1z⟩ := replace_E_length rest
    obtain ⟨ih2, ih2z⟩ := replace_E_length (d :: rest)
    rw [replace_E_cons_cons, count_E_cons_cons]
    by_cases hcd : c = 92 ∧ d = 69
    · rw [if_pos hcd, if_pos hcd]
      constructor
      · simp only [List.length_append, List.length_cons, List.length_nil, ih1]
        omega
      · intro h0
        simp only [List.mem_cons, not_or] at h0
        have := ih1z h0.2.2
        simp only [List.mem_append, List.mem_cons, List.mem_singleton, List.not_mem_nil,
          not_or]
        refine ⟨⟨by decide, by decide, by decide, by decide, by decide, by decide, by decide,
          fun h => h⟩, this⟩
    · rw [if_neg hcd, if_neg hcd]
      constructor
      · simp only [List.length_cons, ih2]
        omega
      · intro h0
        simp only [List.mem_cons, not_or] at h0 ⊢
        exact ⟨h0.1, by
          have := ih2z (by simp only [List.mem_cons, not_or]; exact h0.2)
          simpa only [List.mem_cons, not_or] using this⟩

/-- The first loop counts the occurrences of `\E` that the scan from left
to right finds. -/
theorem count_loop_spec (regexp : List Nat) :
    ∀ (fuel pos n : Nat), (regexp.length - pos) + 2 ≤ fuel →
      count_loop regexp fuel (some pos) n = some (n + count_E (regexp.drop pos)) := by
  intro fuel
  induction fuel with
  | zero => intro pos n h; omega
  | succ k ih =>
    intro pos n h
    unfold count_loop
    obtain ⟨hn, hs⟩ := strstr_E_spec (regexp.drop pos)
    cases hst : strstr (regexp.drop pos) [92, 69] with
    | none =>
      simp only []
      obtain ⟨k1, rfl⟩ : ∃ k1, k = k1 + 1 := ⟨k - 1, by omega⟩
      rw [(hn hst).1]
      rfl
    | some i =>
      simp only []
      obtain ⟨h1, h2, _⟩ := hs i hst
      simp only [List.length_drop] at h1
      rw [ih (pos + i + 2) (n + 1) (by omega), h2, List.drop_drop]
      show some (n + 1 + count_E (List.drop (pos + i + 2) regexp))
        = some (n + (count_E (List.drop (pos + i + 2) regexp) + 1))
      congr 1
      omega

theorem write_fits (m : List Nat) (off : Nat) (bs : List Nat)
    (h : off + bs.length ≤ m.length) :
    ∃ m1, write m off bs = some m1 ∧ m1.length = m.length ∧
      m1.take (off + bs.length) = m.take off ++ bs := by
  refine ⟨store m off bs, by simp [write, h], length_store _ _ _ h, take_store _ _ _ (by omega)⟩

theorem take_prefix {m w : List Nat} {k : Nat} (j : Nat) (hj : j ≤ w.length)
    (h : m.take k = w) : m.take j = w.take j := by
  rw [← h, List.take_take]
  congr 1
  have : w.length ≤ k := by rw [← h]; simp
  omega

theorem strcpy_fits (m : List Nat) (off : Nat) (src : List Nat)
    (h : off + src.length + 1 ≤ m.length) :
    ∃ m1, strcpy m off src = some m1 ∧ m1.length = m.length ∧
      m1.take (off + src.length) = m.take off ++ src ∧
      m1.take (off + src.length + 1) = m.take off ++ src ++ [0] := by
  obtain ⟨m1, h1, h2, h3⟩ := write_fits m off (src ++ [0]) (by simp; omega)
  have h4 : m1.take (off + src.length + 1) = m.take off ++ src ++ [0] := by
    rw [← List.append_assoc] at h3
    simpa [Nat.add_assoc] using h3
  refine ⟨m1, h1, h2, ?_, h4⟩
  have := take_prefix (off + src.length) (by simp; omega) h4
  rw [this, List.take_append_of_le_length (by simp; omega)]
  apply List.take_of_length_le
  simp

/-- The second loop writes the pattern with each counted `\E` replaced, and
stays inside the region when the region has room for it and a NUL. -/
theorem rewrite_loop_spec (regexp : List Nat) :
    ∀ (fuel start : Nat) (m : List Nat) (e : Nat), (regexp.length - start) + 2 ≤ fuel →
      e + (replace_E (regexp.drop start)).length + 1 ≤ m.length →
      ∃ m1, rewrite_loop regexp fuel (some start) m e
          = some (m1, e + (replace_E (regexp.drop start)).length) ∧
        m1.length = m.length ∧
        m1.take (e + (replace_E (regexp.drop start)).length)
          = m.take e ++ replace_E (regexp.drop start) := by
  intro fuel
  induction fuel with
  | zero => intro start m e h; omega
  | succ k ih =>
    intro start m e h hroom
    unfold rewrite_loop
    obtain ⟨hn, hs⟩ := strstr_E_spec (regexp.drop start)
    cases hst : strstr (regexp.drop start) [92, 69] with
    | none =>
      simp only []
      obtain ⟨k1, rfl⟩ : ∃ k1, k = k1 + 1 := ⟨k - 1, by omega⟩
      have hrep := (hn hst).2
      rw [hrep] at hroom ⊢
      obtain ⟨m1, h1, h2, h3, _⟩ := strcpy_fits m e (regexp.drop start) hroom
      rw [h1]
      exact ⟨m1, rfl, h2, h3⟩
    | some i =>
      simp only []
      obtain ⟨hi, _, hrep⟩ := hs i hst
      have hlen : (replace_E (regexp.drop start)).length
          = i + 7 + (replace_E ((regexp.drop start).drop (i + 2))).length := by
        rw [hrep]
        simp only [List.length_append, List.length_take, List.length_cons, List.length_nil]
        omega
      have hdd : (regexp.drop start).drop (i + 2) = regexp.drop (start + i + 2) := by
        rw [List.drop_drop]
        rfl
      rw [hdd] at hlen hrep
      have htake : ((regexp.drop start).take i).length = i := by
        rw [List.length_take]; omega
      have hpad : (regexp.drop start).take i ++
          List.replicate (i - (regexp.drop start).length) 0 = (regexp.drop start).take i := by
        have : i - (regexp.drop start).length = 0 := by omega
        rw [this]
        simp
      obtain ⟨m1, h1, h2, h3⟩ := write_fits m e ((regexp.drop start).take i)
        (by rw [htake]; omega)
      rw [htake] at h3
      obtain ⟨m2, g1, g2, g3, _⟩ := strcpy_fits m1 (e + i) [92, 69, 92, 92, 69, 92, 81]
        (by simp only [List.length_cons, List.length_nil]; omega)
      simp only [List.length_cons, List.length_nil] at g3
      simp only [List.length_drop] at hi
      obtain ⟨m3, f1, f2, f3⟩ := ih (start + i + 2) m2 (e + i + 7) (by omega) (by omega)
      unfold strncpy
      rw [hpad, h1]
      simp only []
      rw [g1]
      simp only []
      rw [f1]
      refine ⟨m3, ?_, by rw [f2, g2, h2], ?_⟩
      · rw [hlen]
        congr 2
        omega
      · have e1 : e + (replace_E (regexp.drop start)).length
            = e + i + 7 + (replace_E (regexp.drop (start + i + 2))).length := by omega
        rw [e1, f3, g3, h3, hrep]
        simp

theorem cstring_of_take : ∀ (w rest : List Nat), 0 ∉ w → cstring (w ++ 0 :: rest) = w
  | [], rest, _ => by simp [cstring]
  | c :: w, rest, h => by
    simp only [List.mem_cons, not_or] at h
    have := cstring_of_take w rest h.2
    unfold cstring at this ⊢
    simp only [List.cons_append]
    rw [List.takeWhile_cons_of_pos (by simpa using fun hc => h.1 hc.symm), this]

theorem cstring_eq {m w : List Nat} {k : Nat} (h : m.take (k + 1) = w ++ [0]) (h0 : 0 ∉ w) :
    cstring m = w := by
  have := List.take_append_drop (k + 1) m
  rw [h] at this
  rw [← this, List.append_assoc]
  exact cstring_of_take w _ h0

theorem length_malloc (junk : Nat → Nat) (size : Nat) : (malloc junk size).length = size := by
  simp [malloc]

/-- C16 (literal-pattern rewriting): for every pattern string `regexp` (a C
string: no NUL among its bytes) and every content of the allocated region,
the first loop counts the `n` occurrences of `\E` found by the scan from
left to right that goes on after each occurrence; the region allocated has
`len + 5 + 7n` bytes; no write goes outside it and both loops end; and the
C string left in it is `\Q`, then the pattern with each counted occurrence
replaced by `\E\\E\Q`, then `\E`, of length `len + 4 + 5n`, which with its
NUL fits in the region. -/
theorem literal_rewriting (junk : Nat → Nat) (regexp : List Nat) (h0 : 0 ∉ regexp) :
    count_loop regexp (regexp.length + 2) (some 0) 0 = some (count_E regexp) ∧
    ∃ m, make_literal junk regexp = some m ∧
      m.length = regexp.length + 5 + 7 * count_E regexp ∧
      cstring m = [92, 81] ++ replace_E regexp ++ [92, 69] ∧
      (cstring m).length = regexp.length + 4 + 5 * count_E regexp ∧
      (cstring m).length + 1 ≤ m.length := by
  have hcount : count_loop regexp (regexp.length + 2) (some 0) 0 = some (count_E regexp) := by
    rw [count_loop_spec regexp _ 0 0 (by omega)]
    simp
  obtain ⟨hrl, hrz⟩ := replace_E_length regexp
  refine ⟨hcount, ?_⟩
  unfold make_literal
  rw [hcount]
  simp only []
  have hL := length_malloc junk (regexp.length + 5 + count_E regexp * 7)
  obtain ⟨m0, a1, a2, a3, _⟩ := strcpy_fits (malloc junk (regexp.length + 5 + count_E regexp * 7))
    0 [92, 81] (by rw [hL]; simp only [List.length_cons, List.length_nil]; omega)
  simp only [List.length_cons, List.length_nil, List.take_zero, List.nil_append] at a3
  rw [a1]
  simp only []
  obtain ⟨m1, b1, b2, b3⟩ := rewrite_loop_spec regexp (regexp.length + 2) 0 m0 2 (by omega)
    (by rw [List.drop_zero, hrl, a2, hL]; omega)
  rw [List.drop_zero] at b1 b3
  rw [b1]
  simp only []
  obtain ⟨m2, c1, c2, _, c4⟩ := strcpy_fits m1 (2 + (replace_E regexp).length) [92, 69]
    (by rw [b2, a2, hL, hrl]; simp only [List.length_cons, List.length_nil]; omega)
  have a3' : m0.take 2 = [92, 81] := by simpa using a3
  rw [b3, a3'] at c4
  simp only [List.length_cons, List.length_nil] at c4
  have hz : 0 ∉ [92, 81] ++ replace_E regexp ++ [92, 69] := by
    have := hrz h0
    simp only [List.mem_append, List.mem_cons, List.mem_singleton, List.not_mem_nil, not_or]
    exact ⟨⟨⟨by decide, by decide, fun h => h⟩, this⟩, by decide, by decide, fun h => h⟩
  have hcs : cstring m2 = [92, 81] ++ replace_E regexp ++ [92, 69] := cstring_eq c4 hz
  refine ⟨m2, c1, by rw [c2, b2, a2, hL]; omega, hcs, ?_, ?_⟩
  · rw [hcs]
    simp only [List.length_append, List.length_cons, List.length_nil, hrl]
    omega
  · rw [hcs, c2, b2, a2, hL]
    simp only [List.length_append, List.length_cons, List.length_nil, hrl]
    omega

theorem literal_rewriting_witness :
    0 ∉ [97, 92, 69, 98] ∧
    (count_loop [97, 92, 69, 98] ([97, 92, 69, 98].length + 2) (some 0) 0
        = some (count_E [97, 92, 69, 98]) ∧
      ∃ m, make_literal (fun _ => 255) [97, 92, 69, 98] = some m ∧
        m.length = [97, 92, 69, 98].length + 5 + 7 * count_E [97, 92, 69, 98] ∧
        cstring m = [92, 81] ++ replace_E [97, 92, 69, 98] ++ [92, 69] ∧
        (cstring m).length = [97, 92, 69, 98].length + 4 + 5 * count_E [97, 92, 69, 98] ∧
        (cstring m).length + 1 ≤ m.length) ∧
    count_E [97, 92, 69, 98] = 1 ∧
    make_literal (fun _ => 255) [97, 92, 69, 98]
      = some [92, 81, 97, 92, 69, 92, 92, 69, 92, 81, 98, 92, 69, 0, 255, 255] :=
  ⟨by decide, literal_rewriting (fun _ => 255) [97, 92, 69, 98] (by decide), by decide,
    by decide⟩

end Agrep
